import Mathlib

/-!
# JSONLint: a shallow embedding of `JSONLint.c`

The linter walks a `uint8_t *` cursor over a NUL-terminated byte array and keeps the
place of an error in the global `ptr_invalid_json`.

* A byte is a `Nat`.  The array the caller hands over is a `List Nat`; a pointer into it
  is the list of the bytes from the pointer to the end of the array, so `(*index)[0]` is
  the head, `(*index)++` drops one byte, and the offset of a pointer is the length of the
  array minus the length of the pointer's list.
* Reading a byte that is not in the array has no defined result in C: the run ends in
  `Run.undefined`.  The same holds for the one place where the code reads through a
  pointer that does not point to the cursor (`ProcessNumber`, line 447).
* The recursion of `ProcessValue` / `ProcessObject` / `ProcessArray` and their `while`
  loops is structural on a fuel counter; `Run.timeout` marks exhausted fuel and is shown
  never to come out of `LintJSON`.
-/

set_option linter.unusedTactic false
set_option linter.unnecessarySeqFocus false
set_option linter.unusedVariables false
set_option linter.unreachableTactic false

namespace JSONLint

/-! ## Outcomes of a run -/

/-- Outcome of running a piece of the C code. -/
inductive Run (α : Type) where
  /-- normal completion with a value -/
  | done (a : α)
  /-- the C code read outside the array, or through a stray pointer -/
  | undefined
  /-- the fuel of the embedding ran out -/
  | timeout
deriving DecidableEq, Repr

/-- Sequencing of runs: the first outcome that is not `done` ends the run. -/
def Run.bind {α β : Type} (x : Run α) (f : α → Run β) : Run β :=
  match x with
  | .done a => f a
  | .undefined => .undefined
  | .timeout => .timeout

instance : Monad Run where
  pure := Run.done
  bind := Run.bind

/-- The C operator `||` on two tests: the right one is run only when the left one is
false. -/
def Run.or (a b : Run Bool) : Run Bool := a.bind fun x => if x then .done true else b

/-- The C operator `&&` on two tests: the right one is run only when the left one is
true. -/
def Run.and (a b : Run Bool) : Run Bool := a.bind fun x => if x then b else .done false

/-! ## Types of `JSONLint.c` and `JSONLint.h` -/

/-- The enum `json_result_t` of `JSONLint.c`. -/
inductive json_result_t where
  | RESULT_JSON_SUCCESS
  | RESULT_JSON_INVALID
  | RESULT_JSON_NOT_FOUND
deriving DecidableEq, Repr

/-- The enum `json_lint_result_t` of `JSONLint.h`. -/
inductive json_lint_result_t where
  | RESULT_JSON_LINT_SUCCESS
  | RESULT_JSON_LINT_INVALID
deriving DecidableEq, Repr

open json_result_t json_lint_result_t

/-- The state the matchers work on: the cursor `*index` and the global
`ptr_invalid_json` (`none` is `NULL`). -/
structure Machine where
  index : List Nat
  ptr_invalid_json : Option (List Nat)
deriving DecidableEq, Repr

/-- The bytes of a string literal of the source (without its terminator). -/
def bytes (s : String) : List Nat := s.toList.map Char.toNat

/-- The array of a C string: the bytes of the text and the terminating NUL. -/
def cstr (text : List Nat) : List Nat := text ++ [0]

/-- Offset of the pointer `p` from the start of the array `buf`
(`ptr_invalid_json - &my_string` in `main.c`). -/
def error_offset (buf p : List Nat) : Nat := buf.length - p.length

/-! ## The defines of `JSONLint.c` -/

def CHAR_HORIZONTAL_TAB : Nat := 0x09
def CHAR_CARRIAGE_RETURN : Nat := 0x0A
def CHAR_LINEFEED : Nat := 0x0D
def CHAR_SPACE : Nat := 0x20

def STRING_OBJECT_START : List Nat := bytes "\x7b"
def STRING_ARRAY_START : List Nat := bytes "["
def STRING_STRING_START : List Nat := bytes "\""
def STRING_OBJECT_STOP : List Nat := bytes "\x7d"
def STRING_ARRAY_STOP : List Nat := bytes "]"
def STRING_STRING_STOP : List Nat := bytes "\""
def STRING_COLON : List Nat := bytes ":"
def STRING_COMMA : List Nat := bytes ","
def STRING_BACKSLASH : List Nat := bytes "\\"
def STRING_SIGN_POS : List Nat := bytes "+"
def STRING_SIGN_NEG : List Nat := bytes "-"
def STRING_DECIMAL : List Nat := bytes "."
def STRING_0 : List Nat := bytes "0"

def STRING_FALSE : List Nat := bytes "false"
def STRING_TRUE : List Nat := bytes "true"
def STRING_NULL : List Nat := bytes "null"

def STRING_ESCAPE_CHARS : List Nat := bytes "\"\\/bfnrtu"
def STRING_HEX_CHARS : List Nat := bytes "0123456789abcdefABCDEF"
def STRING_EXPONENT_DIGITS : List Nat := bytes "eE"
def STRING_DIGIT_1_9 : List Nat := bytes "123456789"
def STRING_DIGIT_0_9 : List Nat := bytes "0123456789"

/-! ## The C library calls the code makes -/

/-- The read `p[k]`: undefined when the byte is not in the array. -/
def peekAt (p : List Nat) (k : Nat) : Run Nat :=
  match p.get? k with
  | some c => .done c
  | none => .undefined

/-- The read `p[0]`. -/
def peek (p : List Nat) : Run Nat := peekAt p 0

/-- The test `strncmp(p, lit, strlen(lit)) == 0` for a literal `lit` (none of the
literals holds a NUL): the bytes are compared in turn up to the first difference. -/
def strncmp0 : List Nat → List Nat → Run Bool
  | _, [] => .done true
  | [], _ :: _ => .undefined
  | c :: p, d :: lit => if c = d then strncmp0 p lit else .done false

/-- The test `strchr(lit, c)` as a truth value: `c` is one of the bytes of the
literal, or `c` is NUL, in which case `strchr` returns the pointer to the terminator
of `lit`, which is not `NULL`. -/
def strchr (lit : List Nat) (c : Nat) : Bool := c == 0 || lit.contains c

/-- The call `strlen(p)`: the number of bytes before the first NUL. -/
def strlen : List Nat → Run Nat
  | [] => .undefined
  | c :: p => if c = 0 then .done 0 else (strlen p).bind fun n => .done (n + 1)

/-! ## `ProcessWhitespace` -/

/-- `ProcessWhitespace` (lines 176-192) on the cursor: the `while` loop steps over the
four whitespace bytes and stops at the first other byte. -/
def ProcessWhitespace : List Nat → Run (List Nat)
  | [] => .undefined
  | c :: p =>
    if c = CHAR_SPACE ∨ c = CHAR_LINEFEED ∨ c = CHAR_CARRIAGE_RETURN ∨ c = CHAR_HORIZONTAL_TAB
    then ProcessWhitespace p
    else .done (c :: p)

/-! ## `ProcessString` -/

/-- The test of lines 389-392: four reads, each made only when the reads before it
found a byte for which `strchr(STRING_HEX_CHARS, _)` is not `NULL`. -/
def hexWindow (p : List Nat) : Run Bool := do
  if !strchr STRING_HEX_CHARS (← peekAt p 0) then return false
  if !strchr STRING_HEX_CHARS (← peekAt p 1) then return false
  if !strchr STRING_HEX_CHARS (← peekAt p 2) then return false
  if !strchr STRING_HEX_CHARS (← peekAt p 3) then return false
  return true

/-- The `while` loop of `ProcessString` (lines 382-408), entered with
`result == RESULT_JSON_SUCCESS`; every turn moves the cursor or ends the loop. -/
def stringLoop : Nat → Machine → Run (json_result_t × Machine)
  | 0, _ => .timeout
  | fuel + 1, m => do
    if ← strncmp0 m.index STRING_STRING_STOP then
      return (RESULT_JSON_SUCCESS, m)
    else if (← peek m.index) = 92 then
      let p := m.index.drop 1
      let c ← peek p
      if strchr STRING_ESCAPE_CHARS c then
        if c = 117 then
          let p := p.drop 1
          if ← hexWindow p then
            stringLoop fuel { m with index := p.drop 4 }
          else
            return (RESULT_JSON_INVALID, { index := p, ptr_invalid_json := some p })
        else
          stringLoop fuel { m with index := p.drop 1 }
      else
        return (RESULT_JSON_INVALID, { index := p, ptr_invalid_json := some p })
    else
      stringLoop fuel { m with index := m.index.drop 1 }

/-- `ProcessString` (lines 377-417).  The loop gets one unit of fuel for every byte
from the cursor to the end of the array. -/
def ProcessString (m : Machine) : Run (json_result_t × Machine) := do
  if ← strncmp0 m.index STRING_STRING_START then
    let p := m.index.drop 1
    let (result, m) ← stringLoop (p.length + 1) { m with index := p }
    if result = RESULT_JSON_SUCCESS then
      return (result, { m with index := m.index.drop 1 })
    else
      return (result, m)
  else
    return (RESULT_JSON_NOT_FOUND, m)

/-! ## `ProcessNumber` -/

/-- The loop `while (strchr(STRING_DIGIT_0_9, (*index)[0]) && strlen((*index))) (*index)++;`
of lines 448, 459, 467 and 477. -/
def digitLoop : List Nat → Run (List Nat)
  | [] => .undefined
  | c :: p =>
    (Run.and (.done (strchr STRING_DIGIT_0_9 c)) ((strlen (c :: p)).bind fun n => .done (n ≠ 0))).bind
      fun go => if go then digitLoop p else .done (c :: p)

/-- Lines 444-464 of `ProcessNumber`: the sign and the integer part.  At line 447 the
code has `(*index++)`, which steps `index` itself and not the cursor `*index`; the
reads that follow go through a pointer that does not point to the cursor any more. -/
def numberInteger (m : Machine) : Run (json_result_t × Machine) := do
  if ← strncmp0 m.index STRING_SIGN_NEG then
    let p := m.index.drop 1
    if strchr STRING_DIGIT_1_9 (← peek p) then
      .undefined
    else if ← strncmp0 p STRING_0 then
      return (RESULT_JSON_SUCCESS, { m with index := p.drop 1 })
    else
      return (RESULT_JSON_INVALID, { index := p, ptr_invalid_json := some p })
  else if strchr STRING_DIGIT_1_9 (← peek m.index) then
    let p ← digitLoop (m.index.drop 1)
    return (RESULT_JSON_SUCCESS, { m with index := p })
  else
    return (RESULT_JSON_SUCCESS, { m with index := m.index.drop 1 })

/-- Lines 465-470 of `ProcessNumber`: the fraction. -/
def numberFraction (m : Machine) : Run Machine := do
  if ← strncmp0 m.index STRING_DECIMAL then
    let p ← digitLoop (m.index.drop 1)
    return { m with index := p }
  else
    return m

/-- Lines 471-484 of `ProcessNumber`: the exponent; `result` is the value the variable
holds when line 471 is reached. -/
def numberExponent (result : json_result_t) (m : Machine) : Run (json_result_t × Machine) := do
  if ← ((peek m.index).bind fun c => .done (strchr STRING_EXPONENT_DIGITS c)).and
      ((strlen m.index).bind fun n => .done (n ≠ 0)) then
    let p := m.index.drop 1
    if ← (strncmp0 p STRING_SIGN_POS).or ((strncmp0 p STRING_SIGN_NEG).or
        ((peek p).bind fun c => .done (strchr STRING_DIGIT_0_9 c))) then
      let p ← digitLoop (p.drop 1)
      return (result, { m with index := p })
    else
      return (RESULT_JSON_INVALID, { index := p, ptr_invalid_json := some p })
  else
    return (result, m)

/-- `ProcessNumber` (lines 438-490). -/
def ProcessNumber (m : Machine) : Run (json_result_t × Machine) := do
  if ← (strncmp0 m.index STRING_SIGN_NEG).or ((strncmp0 m.index STRING_0).or
      ((peek m.index).bind fun c => .done (strchr STRING_DIGIT_1_9 c))) then
    let (result, m) ← numberInteger m
    let m ← numberFraction m
    numberExponent result m
  else
    return (RESULT_JSON_NOT_FOUND, m)

/-! ## `ProcessValue`, `ProcessObject`, `ProcessArray` -/

/-- One turn of the `while` loop of `ProcessObject` (lines 275-296): what the turn
leaves in `result` and in the machine.  `value` stands for the call of `ProcessValue`
at line 279. -/
def objectTurn (value : Machine → Run (json_result_t × Machine)) (m : Machine) :
    Run (json_result_t × Machine) := do
  let (result, m) ← ProcessString m
  if result = RESULT_JSON_SUCCESS then
    let p ← ProcessWhitespace m.index
    let m := { m with index := p }
    if ← strncmp0 m.index STRING_COLON then
      let m := { m with index := m.index.drop 1 }
      let (result, m) ← value m
      if result = RESULT_JSON_SUCCESS then
        if ← strncmp0 m.index STRING_COMMA then
          return (result, { m with index := m.index.drop 1 })
        else if ← strncmp0 m.index STRING_OBJECT_STOP then
          return (result, m)
        else
          return (RESULT_JSON_INVALID, { m with ptr_invalid_json := some m.index })
      else
        return (result, m)
    else
      return (RESULT_JSON_INVALID, { m with ptr_invalid_json := some m.index })
  else
    return (RESULT_JSON_INVALID, { m with ptr_invalid_json := some m.index })

/-- One turn of the `while` loop of `ProcessArray` (lines 334-345).  `value` stands
for the call of `ProcessValue` at line 334. -/
def arrayTurn (value : Machine → Run (json_result_t × Machine)) (m : Machine) :
    Run (json_result_t × Machine) := do
  let (result, m) ← value m
  if result = RESULT_JSON_SUCCESS then
    let p ← ProcessWhitespace m.index
    let m := { m with index := p }
    if ← strncmp0 m.index STRING_COMMA then
      let p ← ProcessWhitespace (m.index.drop 1)
      return (result, { m with index := p })
    else if ← strncmp0 m.index STRING_ARRAY_STOP then
      return (result, m)
    else
      return (RESULT_JSON_INVALID, { m with ptr_invalid_json := some m.index })
  else
    return (result, m)

/-- The condition of the two `while` loops (lines 273-274 and 332-333),
`!strncmp(*index, stop, strlen(stop)) == 0 && result == RESULT_JSON_SUCCESS`: the byte
at the cursor is compared first, `result` is looked at after that. -/
def loopGoesOn (stop : List Nat) (result : json_result_t) (m : Machine) : Run Bool :=
  ((strncmp0 m.index stop).bind fun e => .done (!e)).and
    (.done (decide (result = RESULT_JSON_SUCCESS)))

mutual

/-- `ProcessValue` (lines 216-242): the matchers are tried in turn, then the three
literal names. -/
def ProcessValue : Nat → Machine → Run (json_result_t × Machine)
  | 0, _ => .timeout
  | fuel + 1, m => do
    let (result, m) ← ProcessObject fuel m
    if result ≠ RESULT_JSON_NOT_FOUND then return (result, m)
    let (result, m) ← ProcessArray fuel m
    if result ≠ RESULT_JSON_NOT_FOUND then return (result, m)
    let (result, m) ← ProcessString m
    if result ≠ RESULT_JSON_NOT_FOUND then return (result, m)
    let (result, m) ← ProcessNumber m
    if result ≠ RESULT_JSON_NOT_FOUND then return (result, m)
    if ← strncmp0 m.index STRING_FALSE then
      return (RESULT_JSON_SUCCESS, { m with index := m.index.drop STRING_FALSE.length })
    else if ← strncmp0 m.index STRING_TRUE then
      return (RESULT_JSON_SUCCESS, { m with index := m.index.drop STRING_TRUE.length })
    else if ← strncmp0 m.index STRING_NULL then
      return (RESULT_JSON_SUCCESS, { m with index := m.index.drop STRING_NULL.length })
    else
      return (RESULT_JSON_INVALID, { m with ptr_invalid_json := some m.index })

/-- `ProcessObject` (lines 264-304).  Line 298 moves the cursor by one byte whatever
the loop has left in `result`. -/
def ProcessObject : Nat → Machine → Run (json_result_t × Machine)
  | 0, _ => .timeout
  | fuel + 1, m => do
    if ← strncmp0 m.index STRING_OBJECT_START then
      let p ← ProcessWhitespace (m.index.drop STRING_OBJECT_START.length)
      let (result, m) ← objectLoop fuel RESULT_JSON_SUCCESS { m with index := p }
      return (result, { m with index := m.index.drop STRING_OBJECT_STOP.length })
    else
      return (RESULT_JSON_NOT_FOUND, m)

/-- The `while` loop of `ProcessObject` (lines 273-297); `result` is the value of the
variable when the condition is tested. -/
def objectLoop : Nat → json_result_t → Machine → Run (json_result_t × Machine)
  | 0, _, _ => .timeout
  | fuel + 1, result, m => do
    if ← loopGoesOn STRING_OBJECT_STOP result m then
      let (result, m) ← objectTurn (ProcessValue fuel) m
      objectLoop fuel result m
    else
      return (result, m)

/-- `ProcessArray` (lines 326-355). -/
def ProcessArray : Nat → Machine → Run (json_result_t × Machine)
  | 0, _ => .timeout
  | fuel + 1, m => do
    if ← strncmp0 m.index STRING_ARRAY_START then
      let p ← ProcessWhitespace (m.index.drop STRING_ARRAY_START.length)
      let (result, m) ← arrayLoop fuel RESULT_JSON_SUCCESS { m with index := p }
      if result = RESULT_JSON_SUCCESS then
        return (result, { m with index := m.index.drop STRING_ARRAY_STOP.length })
      else
        return (result, m)
    else
      return (RESULT_JSON_NOT_FOUND, m)

/-- The `while` loop of `ProcessArray` (lines 332-346). -/
def arrayLoop : Nat → json_result_t → Machine → Run (json_result_t × Machine)
  | 0, _, _ => .timeout
  | fuel + 1, result, m => do
    if ← loopGoesOn STRING_ARRAY_STOP result m then
      let (result, m) ← arrayTurn (ProcessValue fuel) m
      arrayLoop fuel result m
    else
      return (result, m)

end

/-! ## `LintJSON` -/

/-- Fuel that `LintJSON` hands to `ProcessValue`: three units for every byte of the
array, and three more. -/
def lintFuel (buf : List Nat) : Nat := 3 * buf.length + 3

/-- `LintJSON` (lines 118-159) on the array `buf` that `ptr_text` points to; the
messages of `disp_messages` are left out.  The run gives the returned value and the
content of `ptr_invalid_json` after the call. -/
def LintJSON (buf : List Nat) : Run (json_lint_result_t × Option (List Nat)) := do
  if (← peek buf) ≠ 0 then
    let p ← ProcessWhitespace buf
    let (internal_result, m) ← ProcessValue (lintFuel buf) { index := p, ptr_invalid_json := none }
    if internal_result = RESULT_JSON_SUCCESS then
      let p ← ProcessWhitespace m.index
      if (← strlen buf) ≠ buf.length - p.length then
        return (RESULT_JSON_LINT_INVALID, some p)
      else
        return (RESULT_JSON_LINT_SUCCESS, m.ptr_invalid_json)
    else
      return (RESULT_JSON_LINT_INVALID, m.ptr_invalid_json)
  else
    return (RESULT_JSON_LINT_INVALID, some buf)

/-- The verdict and the offset of the error for the text `text`, held in an array of
exactly its bytes and the terminator. -/
def lint (text : String) : Run (json_lint_result_t × Option Nat) :=
  (LintJSON (cstr (bytes text))).bind fun r =>
    .done (r.1, r.2.map (error_offset (cstr (bytes text))))

/-! ## What the matchers leave in `ptr_invalid_json` -/

/-- The content of `ptr_invalid_json` fits the returned `result`, for a matcher that
was started with `o` in `ptr_invalid_json`: untouched on success, set when invalid. -/
def Agrees (o : Option (List Nat)) (x : json_result_t × Machine) : Prop :=
  (x.1 = RESULT_JSON_SUCCESS → x.2.ptr_invalid_json = o) ∧
  (x.1 = RESULT_JSON_INVALID → x.2.ptr_invalid_json ≠ none)

/-! ## The grammar of ECMA-404

A second definition, written after the standard and not after the code: a JSON text is
a sequence of tokens that conforms to the value grammar, with insignificant whitespace
allowed before or after any token.  Texts are byte strings; a character of a string
that is neither `"` nor `\` is any byte from `0x20` on. -/

namespace Ecma404

/-- Insignificant whitespace: tab, line feed, carriage return, space. -/
def Ws (w : List Nat) : Prop := ∀ c ∈ w, c = 0x09 ∨ c = 0x0A ∨ c = 0x0D ∨ c = 0x20

/-- A decimal digit `0`-`9`. -/
def isDigit (c : Nat) : Prop := 48 ≤ c ∧ c ≤ 57

/-- A digit `1`-`9`. -/
def isOneNine (c : Nat) : Prop := 49 ≤ c ∧ c ≤ 57

/-- A hexadecimal digit `0`-`9`, `A`-`F`, `a`-`f`. -/
def isHex (c : Nat) : Prop := isDigit c ∨ (65 ≤ c ∧ c ≤ 70) ∨ (97 ≤ c ∧ c ≤ 102)

/-- One or more digits. -/
def Digits (d : List Nat) : Prop := d ≠ [] ∧ ∀ c ∈ d, isDigit c

/-- The integer part of a number with its optional minus sign: a single digit, or a
digit `1`-`9` followed by digits. -/
inductive Integer : List Nat → Prop where
  | digit (c : Nat) : isDigit c → Integer [c]
  | onenine (c : Nat) (d : List Nat) : isOneNine c → Digits d → Integer (c :: d)
  | neg_digit (c : Nat) : isDigit c → Integer [45, c]
  | neg_onenine (c : Nat) (d : List Nat) : isOneNine c → Digits d → Integer (45 :: c :: d)

/-- The optional fraction: a decimal point followed by one or more digits. -/
inductive Fraction : List Nat → Prop where
  | none : Fraction []
  | some (d : List Nat) : Digits d → Fraction (46 :: d)

/-- The optional sign of an exponent. -/
inductive Sign : List Nat → Prop where
  | none : Sign []
  | plus : Sign [43]
  | minus : Sign [45]

/-- The optional exponent: `e` or `E`, an optional sign, one or more digits. -/
inductive Exponent : List Nat → Prop where
  | none : Exponent []
  | upper (s d : List Nat) : Sign s → Digits d → Exponent (69 :: (s ++ d))
  | lower (s d : List Nat) : Sign s → Digits d → Exponent (101 :: (s ++ d))

/-- A number: integer part, fraction, exponent. -/
inductive Number : List Nat → Prop where
  | mk (i f e : List Nat) : Integer i → Fraction f → Exponent e → Number (i ++ f ++ e)

/-- One character of a string: a byte other than `"`, `\` and the control characters,
a two-character escape, or `\u` with four hexadecimal digits. -/
inductive Character : List Nat → Prop where
  | plain (c : Nat) : 0x20 ≤ c → c ≠ 34 → c ≠ 92 → Character [c]
  | escape (c : Nat) : c ∈ [34, 92, 47, 98, 102, 110, 114, 116] → Character [92, c]
  | unicode (a b c d : Nat) : isHex a → isHex b → isHex c → isHex d →
      Character [92, 117, a, b, c, d]

/-- The characters between the quotes of a string. -/
inductive Characters : List Nat → Prop where
  | nil : Characters []
  | cons (c cs : List Nat) : Character c → Characters cs → Characters (c ++ cs)

/-- A string: characters wrapped in quotation marks. -/
inductive Str : List Nat → Prop where
  | mk (cs : List Nat) : Characters cs → Str (34 :: (cs ++ [34]))

/-- The three kinds of text of the value grammar: a value, the values between the
brackets of an array, the name/value pairs between the braces of an object. -/
inductive Sym where
  | value
  | elements
  | members

/-- The value grammar.  `Derives .value v`: `v` is a JSON value (with no whitespace
around it).  `Derives .elements t`: `t` is one or more values separated by commas, with
whitespace allowed around every value.  `Derives .members t`: `t` is one or more
`string : value` pairs separated by commas, with whitespace allowed around every
string and every value. -/
inductive Derives : Sym → List Nat → Prop where
  | lit_true : Derives .value [116, 114, 117, 101]
  | lit_false : Derives .value [102, 97, 108, 115, 101]
  | lit_null : Derives .value [110, 117, 108, 108]
  | number (n : List Nat) : Number n → Derives .value n
  | string (s : List Nat) : Str s → Derives .value s
  | array_empty (w : List Nat) : Ws w → Derives .value (91 :: (w ++ [93]))
  | array (es : List Nat) : Derives .elements es → Derives .value (91 :: (es ++ [93]))
  | object_empty (w : List Nat) : Ws w → Derives .value (123 :: (w ++ [125]))
  | object (ms : List Nat) : Derives .members ms → Derives .value (123 :: (ms ++ [125]))
  | elements_one (w1 v w2 : List Nat) : Ws w1 → Derives .value v → Ws w2 →
      Derives .elements (w1 ++ v ++ w2)
  | elements_cons (w1 v w2 es : List Nat) : Ws w1 → Derives .value v → Ws w2 →
      Derives .elements es → Derives .elements (w1 ++ v ++ w2 ++ 44 :: es)
  | members_one (w1 s w2 w3 v w4 : List Nat) : Ws w1 → Str s → Ws w2 → Ws w3 →
      Derives .value v → Ws w4 →
      Derives .members (w1 ++ s ++ w2 ++ 58 :: (w3 ++ v ++ w4))
  | members_cons (w1 s w2 w3 v w4 ms : List Nat) : Ws w1 → Str s → Ws w2 → Ws w3 →
      Derives .value v → Ws w4 → Derives .members ms →
      Derives .members (w1 ++ s ++ w2 ++ 58 :: (w3 ++ v ++ w4) ++ 44 :: ms)

/-- A JSON text: one value, with whitespace allowed before and after it. -/
inductive JsonText : List Nat → Prop where
  | mk (w1 v w2 : List Nat) : Ws w1 → Derives .value v → Ws w2 → JsonText (w1 ++ v ++ w2)

end Ecma404

/-- What may follow a value in an array that holds a JSON text and its terminator:
whitespace, a comma, a closing bracket or brace, or the terminator; and the terminator
is somewhere in what follows. -/
def Delim (r : List Nat) : Prop :=
  (∃ c t, r = c :: t ∧ (c = 0x09 ∨ c = 0x0A ∨ c = 0x0D ∨ c = 0x20 ∨ c = 44 ∨ c = 93 ∨
    c = 125 ∨ c = 0)) ∧ 0 ∈ r

/-- The cursor a matcher leaves is not before the cursor it was given, and it is
past it when the matcher returns `RESULT_JSON_SUCCESS` (lengths are counted from the
cursor to the end of the array). -/
def Shrinks (m : Machine) (x : json_result_t × Machine) : Prop :=
  x.2.index.length ≤ m.index.length ∧
    (x.1 = RESULT_JSON_SUCCESS → x.2.index.length < m.index.length)

/-- The bytes a JSON value can start with: the lead bytes of the three literal
names, the quotation mark, the opening bracket and brace, the minus sign, a digit. -/
def LeadByte (c : Nat) : Prop :=
  c = 116 ∨ c = 102 ∨ c = 110 ∨ c = 34 ∨ c = 91 ∨ c = 123 ∨ c = 45 ∨ Ecma404.isDigit c

/-- The bytes a JSON value can end with: `e` (of `true` and `false`), `l` (of `null`),
a digit, the quotation mark, the closing bracket and brace. -/
def EndByte (c : Nat) : Prop :=
  c = 101 ∨ c = 108 ∨ Ecma404.isDigit c ∨ c = 34 ∨ c = 93 ∨ c = 125

/-- Lines 223-239 of `ProcessValue`: what is tried once `ProcessObject` and
`ProcessArray` have returned `RESULT_JSON_NOT_FOUND`. -/
def valueLeaves (m : Machine) : Run (json_result_t × Machine) :=
  (ProcessString m).bind fun x =>
    if x.1 ≠ RESULT_JSON_NOT_FOUND then .done x else
    (ProcessNumber x.2).bind fun x =>
      if x.1 ≠ RESULT_JSON_NOT_FOUND then .done x else
      (strncmp0 x.2.index STRING_FALSE).bind fun b =>
        if b then .done (RESULT_JSON_SUCCESS,
            { x.2 with index := x.2.index.drop STRING_FALSE.length })
        else (strncmp0 x.2.index STRING_TRUE).bind fun b =>
          if b then .done (RESULT_JSON_SUCCESS,
              { x.2 with index := x.2.index.drop STRING_TRUE.length })
          else (strncmp0 x.2.index STRING_NULL).bind fun b =>
            if b then .done (RESULT_JSON_SUCCESS,
                { x.2 with index := x.2.index.drop STRING_NULL.length })
            else .done (RESULT_JSON_INVALID,
                { x.2 with ptr_invalid_json := some x.2.index })

/-- The run does not end with `RESULT_JSON_SUCCESS`. -/
def Fails (x : Run (json_result_t × Machine)) : Prop :=
  ∀ m, x ≠ .done (RESULT_JSON_SUCCESS, m)

/-- The run `run R` has the same outcome for every tail `R` that `D` allows: it ends
with `RESULT_JSON_SUCCESS` and the machine `stop R` for all of them, or for none. -/
def Uniform (D : List Nat → Prop) (run : List Nat → Run (json_result_t × Machine))
    (stop : List Nat → Machine) : Prop :=
  (∀ R, D R → run R = .done (RESULT_JSON_SUCCESS, stop R)) ∨ (∀ R, D R → Fails (run R))

/-- What the matchers do on a text of the grammar, whatever the fuel and whatever
follows the text.  A value: `ProcessValue` either matches exactly the value for
every delimiter that follows, or it matches for none.  Elements and members: after
the leading whitespace, the same holds for the loop of `ProcessArray` up to the
closing bracket, and for the loop of `ProcessObject` up to the closing brace. -/
def Tracks : Ecma404.Sym → List Nat → Prop
  | .value, v =>
    ∀ (fuel : Nat) (o : Option (List Nat)),
      Uniform Delim (fun R => ProcessValue fuel { index := v ++ R, ptr_invalid_json := o })
        (fun R => { index := R, ptr_invalid_json := o })
  | .elements, t =>
    ∃ w core, t = w ++ core ∧ Ecma404.Ws w ∧ (∃ c tl, core = c :: tl ∧ LeadByte c) ∧
      ∀ (fuel : Nat) (o : Option (List Nat)),
        Uniform (fun R => 0 ∈ R)
          (fun R => arrayLoop fuel RESULT_JSON_SUCCESS
            { index := core ++ 93 :: R, ptr_invalid_json := o })
          (fun R => { index := 93 :: R, ptr_invalid_json := o })
  | .members, t =>
    ∃ w core, t = w ++ core ∧ Ecma404.Ws w ∧ (∃ tl, core = 34 :: tl) ∧
      ∀ (fuel : Nat) (o : Option (List Nat)),
        Uniform (fun R => 0 ∈ R)
          (fun R => objectLoop fuel RESULT_JSON_SUCCESS
            { index := core ++ 125 :: R, ptr_invalid_json := o })
          (fun R => { index := 125 :: R, ptr_invalid_json := o })

/-- `LintJSON` returns `RESULT_JSON_LINT_SUCCESS` on the text `text`, held in an array
of exactly its bytes and the terminator. -/
def Accepts (text : List Nat) : Prop :=
  ∃ e, LintJSON (cstr text) = .done (RESULT_JSON_LINT_SUCCESS, e)

/-! # Theorems -/

/-! ## Basic facts about runs -/

@[simp] theorem Run.bind_done {α β : Type} (a : α) (f : α → Run β) :
    (Run.done a).bind f = f a := rfl

@[simp] theorem Run.bind_undefined {α β : Type} (f : α → Run β) :
    (Run.undefined : Run α).bind f = .undefined := rfl

@[simp] theorem Run.bind_timeout {α β : Type} (f : α → Run β) :
    (Run.timeout : Run α).bind f = .timeout := rfl

@[simp] theorem Run.pure_eq {α : Type} (a : α) : (pure a : Run α) = .done a := rfl

@[simp] theorem Run.bind_eq {α β : Type} (x : Run α) (f : α → Run β) :
    (x >>= f) = x.bind f := rfl

theorem Run.bind_eq_done {α β : Type} {x : Run α} {f : α → Run β} {b : β} :
    x.bind f = .done b ↔ ∃ a, x = .done a ∧ f a = .done b := by
  cases x <;> simp [Run.bind]

theorem Run.bind_eq_timeout {α β : Type} {x : Run α} {f : α → Run β} :
    x.bind f = .timeout ↔ x = .timeout ∨ ∃ a, x = .done a ∧ f a = .timeout := by
  cases x <;> simp [Run.bind]

/-! ## One step of the recursive definitions -/

theorem stringLoop_succ (fuel : Nat) (m : Machine) :
    stringLoop (fuel + 1) m =
      (strncmp0 m.index STRING_STRING_STOP).bind fun stop =>
        if stop then .done (RESULT_JSON_SUCCESS, m)
        else (peek m.index).bind fun c =>
          if c = 92 then
            (peek (m.index.drop 1)).bind fun e =>
              if strchr STRING_ESCAPE_CHARS e then
                if e = 117 then
                  (hexWindow (m.index.drop 2)).bind fun ok =>
                    if ok then stringLoop fuel { m with index := m.index.drop 6 }
                    else .done (RESULT_JSON_INVALID,
                      { index := m.index.drop 2, ptr_invalid_json := some (m.index.drop 2) })
                else stringLoop fuel { m with index := m.index.drop 2 }
              else .done (RESULT_JSON_INVALID,
                { index := m.index.drop 1, ptr_invalid_json := some (m.index.drop 1) })
          else stringLoop fuel { m with index := m.index.drop 1 } := by
  simp only [stringLoop, Run.bind_eq, Run.pure_eq, List.drop_drop]

theorem ProcessValue_succ (fuel : Nat) (m : Machine) :
    ProcessValue (fuel + 1) m =
      (ProcessObject fuel m).bind fun x =>
        if x.1 ≠ RESULT_JSON_NOT_FOUND then .done x else
        (ProcessArray fuel x.2).bind fun x =>
          if x.1 ≠ RESULT_JSON_NOT_FOUND then .done x else
          (ProcessString x.2).bind fun x =>
            if x.1 ≠ RESULT_JSON_NOT_FOUND then .done x else
            (ProcessNumber x.2).bind fun x =>
              if x.1 ≠ RESULT_JSON_NOT_FOUND then .done x else
              (strncmp0 x.2.index STRING_FALSE).bind fun b =>
                if b then .done (RESULT_JSON_SUCCESS,
                    { x.2 with index := x.2.index.drop STRING_FALSE.length })
                else (strncmp0 x.2.index STRING_TRUE).bind fun b =>
                  if b then .done (RESULT_JSON_SUCCESS,
                      { x.2 with index := x.2.index.drop STRING_TRUE.length })
                  else (strncmp0 x.2.index STRING_NULL).bind fun b =>
                    if b then .done (RESULT_JSON_SUCCESS,
                        { x.2 with index := x.2.index.drop STRING_NULL.length })
                    else .done (RESULT_JSON_INVALID,
                        { x.2 with ptr_invalid_json := some x.2.index }) := by
  rw [ProcessValue]
  rfl

theorem ProcessObject_succ (fuel : Nat) (m : Machine) :
    ProcessObject (fuel + 1) m =
      (strncmp0 m.index STRING_OBJECT_START).bind fun b =>
        if b then
          (ProcessWhitespace (m.index.drop STRING_OBJECT_START.length)).bind fun p =>
            (objectLoop fuel RESULT_JSON_SUCCESS { m with index := p }).bind fun x =>
              .done (x.1, { x.2 with index := x.2.index.drop STRING_OBJECT_STOP.length })
        else .done (RESULT_JSON_NOT_FOUND, m) := by
  rw [ProcessObject]
  rfl

theorem objectLoop_succ (fuel : Nat) (result : json_result_t) (m : Machine) :
    objectLoop (fuel + 1) result m =
      (loopGoesOn STRING_OBJECT_STOP result m).bind fun go =>
        if go then (objectTurn (ProcessValue fuel) m).bind fun x => objectLoop fuel x.1 x.2
        else .done (result, m) := by
  rw [objectLoop]
  rfl

theorem ProcessArray_succ (fuel : Nat) (m : Machine) :
    ProcessArray (fuel + 1) m =
      (strncmp0 m.index STRING_ARRAY_START).bind fun b =>
        if b then
          (ProcessWhitespace (m.index.drop STRING_ARRAY_START.length)).bind fun p =>
            (arrayLoop fuel RESULT_JSON_SUCCESS { m with index := p }).bind fun x =>
              if x.1 = RESULT_JSON_SUCCESS then
                .done (x.1, { x.2 with index := x.2.index.drop STRING_ARRAY_STOP.length })
              else .done x
        else .done (RESULT_JSON_NOT_FOUND, m) := by
  rw [ProcessArray]
  rfl

theorem arrayLoop_succ (fuel : Nat) (result : json_result_t) (m : Machine) :
    arrayLoop (fuel + 1) result m =
      (loopGoesOn STRING_ARRAY_STOP result m).bind fun go =>
        if go then (arrayTurn (ProcessValue fuel) m).bind fun x => arrayLoop fuel x.1 x.2
        else .done (result, m) := by
  rw [arrayLoop]
  rfl

/-! ## The literals, byte by byte -/

theorem lit_bytes :
    STRING_OBJECT_START = [123] ∧ STRING_ARRAY_START = [91] ∧ STRING_STRING_START = [34] ∧
    STRING_OBJECT_STOP = [125] ∧ STRING_ARRAY_STOP = [93] ∧ STRING_STRING_STOP = [34] ∧
    STRING_COLON = [58] ∧ STRING_COMMA = [44] ∧ STRING_SIGN_POS = [43] ∧
    STRING_SIGN_NEG = [45] ∧ STRING_DECIMAL = [46] ∧ STRING_0 = [48] ∧
    STRING_FALSE = [102, 97, 108, 115, 101] ∧ STRING_TRUE = [116, 114, 117, 101] ∧
    STRING_NULL = [110, 117, 108, 108] := by decide

@[simp] theorem strncmp0_nil_one (d : Nat) : strncmp0 [] [d] = .undefined := rfl

@[simp] theorem strncmp0_cons_one (c d : Nat) (p : List Nat) :
    strncmp0 (c :: p) [d] = .done (decide (c = d)) := by
  by_cases h : c = d <;> simp [strncmp0, h]

@[simp] theorem peek_nil : peek [] = .undefined := rfl

@[simp] theorem peek_cons (c : Nat) (p : List Nat) : peek (c :: p) = .done c := rfl

theorem strncmp0_ne_timeout (p lit : List Nat) : strncmp0 p lit ≠ .timeout := by
  induction p generalizing lit with
  | nil => cases lit <;> simp [strncmp0]
  | cons c p ih =>
    cases lit with
    | nil => simp [strncmp0]
    | cons d lit =>
      by_cases h : c = d
      · simpa [strncmp0, h] using ih lit
      · simp [strncmp0, h]

/-! ## `ptr_invalid_json` and the returned result -/

theorem stringLoop_agrees (fuel : Nat) : ∀ (m : Machine) (x : json_result_t × Machine),
    stringLoop fuel m = .done x →
      x.1 ≠ RESULT_JSON_NOT_FOUND ∧ Agrees m.ptr_invalid_json x := by
  induction fuel with
  | zero => intro m x h; simp [stringLoop] at h
  | succ fuel ih =>
    intro m x h
    rw [stringLoop_succ] at h
    repeat' first
      | (rw [Run.bind_eq_done] at h; obtain ⟨_, -, h⟩ := h)
      | split at h
      | (have hh := ih _ _ h; exact hh)
      | (cases h <;> simp [Agrees])

theorem ProcessString_agrees (m : Machine) (x : json_result_t × Machine)
    (h : ProcessString m = .done x) :
    Agrees m.ptr_invalid_json x ∧ (x.1 = RESULT_JSON_NOT_FOUND → x.2 = m) := by
  simp only [ProcessString, Run.bind_eq, Run.pure_eq] at h
  rw [Run.bind_eq_done] at h
  obtain ⟨b, -, h⟩ := h
  split at h
  · rw [Run.bind_eq_done] at h
    obtain ⟨⟨r, m1⟩, h1, h⟩ := h
    have hh := stringLoop_agrees _ _ _ h1
    simp only [Agrees] at hh ⊢
    split at h <;> cases h <;> simp_all
  · cases h; simp [Agrees]

theorem numberInteger_agrees (m : Machine) (x : json_result_t × Machine)
    (h : numberInteger m = .done x) :
    x.1 ≠ RESULT_JSON_NOT_FOUND ∧ Agrees m.ptr_invalid_json x := by
  simp only [numberInteger, Run.bind_eq, Run.pure_eq] at h
  repeat' first
    | (rw [Run.bind_eq_done] at h; obtain ⟨_, -, h⟩ := h)
    | split at h
    | (cases h <;> simp [Agrees])

theorem numberFraction_ptr (m m' : Machine) (h : numberFraction m = .done m') :
    m'.ptr_invalid_json = m.ptr_invalid_json := by
  simp only [numberFraction, Run.bind_eq, Run.pure_eq] at h
  repeat' first
    | (rw [Run.bind_eq_done] at h; obtain ⟨_, -, h⟩ := h)
    | split at h
    | (cases h <;> simp)

theorem numberExponent_agrees (result : json_result_t) (m : Machine)
    (x : json_result_t × Machine) (h : numberExponent result m = .done x) :
    (x.1 = result ∧ x.2.ptr_invalid_json = m.ptr_invalid_json) ∨
    (x.1 = RESULT_JSON_INVALID ∧ x.2.ptr_invalid_json ≠ none) := by
  simp only [numberExponent, Run.bind_eq, Run.pure_eq] at h
  repeat' first
    | (rw [Run.bind_eq_done] at h; obtain ⟨_, -, h⟩ := h)
    | split at h
    | (cases h <;> simp)

theorem ProcessNumber_agrees (m : Machine) (x : json_result_t × Machine)
    (h : ProcessNumber m = .done x) :
    Agrees m.ptr_invalid_json x ∧ (x.1 = RESULT_JSON_NOT_FOUND → x.2 = m) := by
  simp only [ProcessNumber, Run.bind_eq, Run.pure_eq] at h
  rw [Run.bind_eq_done] at h
  obtain ⟨b, -, h⟩ := h
  split at h
  · rw [Run.bind_eq_done] at h
    obtain ⟨⟨r1, m1⟩, h1, h⟩ := h
    rw [Run.bind_eq_done] at h
    obtain ⟨m2, h2, h⟩ := h
    have a1 := numberInteger_agrees _ _ h1
    have a2 := numberFraction_ptr _ _ h2
    have a3 := numberExponent_agrees _ _ _ h
    simp only [Agrees] at *
    cases r1 <;> rcases a3 with ⟨e1, e2⟩ | ⟨e1, e2⟩ <;> simp_all
  · cases h; simp [Agrees]

theorem objectTurn_agrees (value : Machine → Run (json_result_t × Machine))
    (hv : ∀ m x, value m = .done x →
      x.1 ≠ RESULT_JSON_NOT_FOUND ∧ Agrees m.ptr_invalid_json x)
    (m : Machine) (x : json_result_t × Machine) (h : objectTurn value m = .done x) :
    x.1 ≠ RESULT_JSON_NOT_FOUND ∧ Agrees m.ptr_invalid_json x := by
  simp only [objectTurn, Run.bind_eq, Run.pure_eq] at h
  rw [Run.bind_eq_done] at h
  obtain ⟨⟨r1, m1⟩, h1, h⟩ := h
  have a1 := (ProcessString_agrees _ _ h1).1
  simp only [Agrees] at a1 ⊢
  split at h
  · rw [Run.bind_eq_done] at h
    obtain ⟨p, -, h⟩ := h
    rw [Run.bind_eq_done] at h
    obtain ⟨b, -, h⟩ := h
    split at h
    · rw [Run.bind_eq_done] at h
      obtain ⟨⟨r2, m2⟩, h2, h⟩ := h
      have a2 := hv _ _ h2
      simp only [Agrees] at a2
      repeat' first
        | (rw [Run.bind_eq_done] at h; obtain ⟨_, -, h⟩ := h)
        | split at h
        | (cases h <;> simp_all)
    · cases h <;> simp_all
  · cases h <;> simp_all

theorem arrayTurn_agrees (value : Machine → Run (json_result_t × Machine))
    (hv : ∀ m x, value m = .done x →
      x.1 ≠ RESULT_JSON_NOT_FOUND ∧ Agrees m.ptr_invalid_json x)
    (m : Machine) (x : json_result_t × Machine) (h : arrayTurn value m = .done x) :
    x.1 ≠ RESULT_JSON_NOT_FOUND ∧ Agrees m.ptr_invalid_json x := by
  simp only [arrayTurn, Run.bind_eq, Run.pure_eq] at h
  rw [Run.bind_eq_done] at h
  obtain ⟨⟨r2, m2⟩, h2, h⟩ := h
  have a2 := hv _ _ h2
  simp only [Agrees] at a2 ⊢
  repeat' first
    | (rw [Run.bind_eq_done] at h; obtain ⟨_, -, h⟩ := h)
    | split at h
    | (cases h <;> simp_all)

theorem loopGoesOn_eq_done {stop : List Nat} {result : json_result_t} {m : Machine}
    {go : Bool} (h : loopGoesOn stop result m = .done go) :
    ∃ e, strncmp0 m.index stop = .done e ∧
      go = (!e && decide (result = RESULT_JSON_SUCCESS)) := by
  simp only [loopGoesOn, Run.and] at h
  rw [Run.bind_eq_done] at h
  obtain ⟨b, h1, h⟩ := h
  rw [Run.bind_eq_done] at h1
  obtain ⟨e, h1, h2⟩ := h1
  refine ⟨e, h1, ?_⟩
  cases h2
  cases e <;> simp_all

set_option maxHeartbeats 1000000 in
/-- What every matcher leaves in `ptr_invalid_json`: nothing new when it returns
`RESULT_JSON_SUCCESS`, a location when it returns `RESULT_JSON_INVALID`; the value
dispatcher and the loops never return `RESULT_JSON_NOT_FOUND`, and a matcher that
returns it has changed nothing. -/
theorem matchers_agree (fuel : Nat) :
    (∀ m x, ProcessValue fuel m = .done x →
      x.1 ≠ RESULT_JSON_NOT_FOUND ∧ Agrees m.ptr_invalid_json x) ∧
    (∀ m x, ProcessObject fuel m = .done x →
      Agrees m.ptr_invalid_json x ∧ (x.1 = RESULT_JSON_NOT_FOUND → x.2 = m)) ∧
    (∀ o r m x, objectLoop fuel r m = .done x →
      r ≠ RESULT_JSON_NOT_FOUND → Agrees o (r, m) →
      x.1 ≠ RESULT_JSON_NOT_FOUND ∧ Agrees o x) ∧
    (∀ m x, ProcessArray fuel m = .done x →
      Agrees m.ptr_invalid_json x ∧ (x.1 = RESULT_JSON_NOT_FOUND → x.2 = m)) ∧
    (∀ o r m x, arrayLoop fuel r m = .done x →
      r ≠ RESULT_JSON_NOT_FOUND → Agrees o (r, m) →
      x.1 ≠ RESULT_JSON_NOT_FOUND ∧ Agrees o x) := by
  induction fuel with
  | zero =>
    refine ⟨?_, ?_, ?_, ?_, ?_⟩
    · intro m x h; simp [ProcessValue] at h
    · intro m x h; simp [ProcessObject] at h
    · intro o r m x h; simp [objectLoop] at h
    · intro m x h; simp [ProcessArray] at h
    · intro o r m x h; simp [arrayLoop] at h
  | succ fuel ih =>
    obtain ⟨ihV, ihO, ihOL, ihA, ihAL⟩ := ih
    refine ⟨?_, ?_, ?_, ?_, ?_⟩
    · intro m x h
      rw [ProcessValue_succ] at h
      rw [Run.bind_eq_done] at h
      obtain ⟨x1, h1, h⟩ := h
      have a1 := ihO _ _ h1
      split at h
      · cases h; exact ⟨by assumption, a1.1⟩
      rename_i n1
      have e1 := a1.2 (not_not.mp n1)
      rw [e1, Run.bind_eq_done] at h
      obtain ⟨x2, h2, h⟩ := h
      have a2 := ihA _ _ h2
      split at h
      · cases h; exact ⟨by assumption, a2.1⟩
      rename_i n2
      have e2 := a2.2 (not_not.mp n2)
      rw [e2, Run.bind_eq_done] at h
      obtain ⟨x3, h3, h⟩ := h
      have a3 := ProcessString_agrees _ _ h3
      split at h
      · cases h; exact ⟨by assumption, a3.1⟩
      rename_i n3
      have e3 := a3.2 (not_not.mp n3)
      rw [e3, Run.bind_eq_done] at h
      obtain ⟨x4, h4, h⟩ := h
      have a4 := ProcessNumber_agrees _ _ h4
      split at h
      · cases h; exact ⟨by assumption, a4.1⟩
      rename_i n4
      have e4 := a4.2 (not_not.mp n4)
      rw [e4] at h
      repeat' first
        | (rw [Run.bind_eq_done] at h; obtain ⟨_, -, h⟩ := h)
        | split at h
        | (cases h <;> simp [Agrees])
    · intro m x h
      rw [ProcessObject_succ] at h
      rw [Run.bind_eq_done] at h
      obtain ⟨b, -, h⟩ := h
      split at h
      · rw [Run.bind_eq_done] at h
        obtain ⟨p, -, h⟩ := h
        rw [Run.bind_eq_done] at h
        obtain ⟨x1, h1, h⟩ := h
        have a1 := ihOL m.ptr_invalid_json _ _ _ h1 (by simp) (by simp [Agrees])
        cases h
        exact ⟨a1.2, fun hnf => absurd hnf a1.1⟩
      · cases h; simp [Agrees]
    · intro o r m x h hr ha
      rw [objectLoop_succ] at h
      rw [Run.bind_eq_done] at h
      obtain ⟨go, hgo, h⟩ := h
      obtain ⟨e, -, rfl⟩ := loopGoesOn_eq_done hgo
      split at h
      · rename_i hcond
        have hs : r = RESULT_JSON_SUCCESS := by
          simp only [Bool.and_eq_true, decide_eq_true_eq] at hcond
          exact hcond.2
        subst hs
        have hp : m.ptr_invalid_json = o := ha.1 rfl
        rw [Run.bind_eq_done] at h
        obtain ⟨x1, h1, h⟩ := h
        have a1 := objectTurn_agrees _ ihV _ _ h1
        rw [hp] at a1
        exact ihOL o _ _ _ h a1.1 a1.2
      · cases h; exact ⟨hr, ha⟩
    · intro m x h
      rw [ProcessArray_succ] at h
      rw [Run.bind_eq_done] at h
      obtain ⟨b, -, h⟩ := h
      split at h
      · rw [Run.bind_eq_done] at h
        obtain ⟨p, -, h⟩ := h
        rw [Run.bind_eq_done] at h
        obtain ⟨x1, h1, h⟩ := h
        have a1 := ihAL m.ptr_invalid_json _ _ _ h1 (by simp) (by simp [Agrees])
        split at h
        · cases h
          exact ⟨⟨fun hs => a1.2.1 hs, fun hi => a1.2.2 hi⟩, fun hnf => absurd hnf a1.1⟩
        · cases h
          exact ⟨a1.2, fun hnf => absurd hnf a1.1⟩
      · cases h; simp [Agrees]
    · intro o r m x h hr ha
      rw [arrayLoop_succ] at h
      rw [Run.bind_eq_done] at h
      obtain ⟨go, hgo, h⟩ := h
      obtain ⟨e, -, rfl⟩ := loopGoesOn_eq_done hgo
      split at h
      · rename_i hcond
        have hs : r = RESULT_JSON_SUCCESS := by
          simp only [Bool.and_eq_true, decide_eq_true_eq] at hcond
          exact hcond.2
        subst hs
        have hp : m.ptr_invalid_json = o := ha.1 rfl
        rw [Run.bind_eq_done] at h
        obtain ⟨x1, h1, h⟩ := h
        have a1 := arrayTurn_agrees _ ihV _ _ h1
        rw [hp] at a1
        exact ihAL o _ _ _ h a1.1 a1.2
      · cases h; exact ⟨hr, ha⟩

/-! ## The cursor only moves forward -/

theorem Run.bind_ne_timeout {α β : Type} {x : Run α} {f : α → Run β}
    (hx : x ≠ .timeout) (hf : ∀ a, x = .done a → f a ≠ .timeout) :
    x.bind f ≠ .timeout := by
  cases x with
  | done a => exact hf a rfl
  | undefined => simp
  | timeout => exact absurd rfl hx

theorem peekAt_ne_timeout (p : List Nat) (k : Nat) : peekAt p k ≠ .timeout := by
  unfold peekAt; split <;> simp

theorem peek_ne_timeout (p : List Nat) : peek p ≠ .timeout := peekAt_ne_timeout p 0

theorem strlen_ne_timeout (p : List Nat) : strlen p ≠ .timeout := by
  induction p with
  | nil => simp [strlen]
  | cons c p ih =>
    simp only [strlen]
    split
    · simp
    · exact Run.bind_ne_timeout ih (fun _ _ => by simp)

theorem ProcessWhitespace_ne_timeout (p : List Nat) : ProcessWhitespace p ≠ .timeout := by
  induction p with
  | nil => simp [ProcessWhitespace]
  | cons c p ih =>
    simp only [ProcessWhitespace]
    split
    · exact ih
    · simp

theorem ProcessWhitespace_suffix (p q : List Nat) (h : ProcessWhitespace p = .done q) :
    ∃ w, p = w ++ q ∧ Ecma404.Ws w := by
  induction p with
  | nil => simp [ProcessWhitespace] at h
  | cons c p ih =>
    simp only [ProcessWhitespace] at h
    split at h
    · obtain ⟨w, hw, hws⟩ := ih h
      refine ⟨c :: w, by simp [hw], ?_⟩
      intro d hd
      rcases List.mem_cons.mp hd with rfl | hd
      · rename_i hc
        simp only [CHAR_SPACE, CHAR_LINEFEED, CHAR_CARRIAGE_RETURN, CHAR_HORIZONTAL_TAB] at hc
        omega
      · exact hws d hd
    · cases h
      exact ⟨[], rfl, by intro d hd; cases hd⟩

theorem ProcessWhitespace_length (p q : List Nat) (h : ProcessWhitespace p = .done q) :
    q.length ≤ p.length := by
  obtain ⟨w, rfl, -⟩ := ProcessWhitespace_suffix p q h
  simp

theorem strncmp0_one_true {p : List Nat} {d : Nat} (h : strncmp0 p [d] = .done true) :
    ∃ t, p = d :: t := by
  cases p with
  | nil => simp at h
  | cons c t =>
    simp only [strncmp0_cons_one, Run.done.injEq, decide_eq_true_eq] at h
    exact ⟨t, by rw [h]⟩

theorem strncmp0_one_done {p : List Nat} {d : Nat} {b : Bool}
    (h : strncmp0 p [d] = .done b) : ∃ c t, p = c :: t ∧ b = decide (c = d) := by
  cases p with
  | nil => simp at h
  | cons c t =>
    simp only [strncmp0_cons_one, Run.done.injEq] at h
    exact ⟨c, t, rfl, h.symm⟩

theorem hexWindow_ne_timeout (p : List Nat) : hexWindow p ≠ .timeout := by
  simp only [hexWindow, Run.bind_eq, Run.pure_eq]
  repeat' first
    | (apply Run.bind_ne_timeout (peekAt_ne_timeout _ _); intro _ _)
    | split
    | simp

theorem digitLoop_ne_timeout (p : List Nat) : digitLoop p ≠ .timeout := by
  induction p with
  | nil => simp [digitLoop]
  | cons c p ih =>
    simp only [digitLoop, Run.and]
    apply Run.bind_ne_timeout
    · simp only [Run.bind_done]
      split
      · exact Run.bind_ne_timeout (strlen_ne_timeout _) (fun _ _ => by simp)
      · simp
    · intro go _
      split
      · exact ih
      · simp

theorem digitLoop_length (p q : List Nat) (h : digitLoop p = .done q) :
    q.length ≤ p.length ∧ q ≠ [] := by
  induction p with
  | nil => simp [digitLoop] at h
  | cons c p ih =>
    simp only [digitLoop] at h
    rw [Run.bind_eq_done] at h
    obtain ⟨go, -, h⟩ := h
    split at h
    · have := ih h
      exact ⟨by simp; omega, this.2⟩
    · cases h; simp

theorem stringLoop_ne_timeout (fuel : Nat) :
    ∀ m : Machine, m.index.length < fuel → stringLoop fuel m ≠ .timeout := by
  induction fuel with
  | zero => intro m h; omega
  | succ fuel ih =>
    intro m hlen
    rw [stringLoop_succ]
    apply Run.bind_ne_timeout (strncmp0_ne_timeout _ _)
    intro stop hstop
    have hne : 1 ≤ m.index.length := by
      obtain ⟨c, t, hp, -⟩ := strncmp0_one_done (lit_bytes.2.2.2.2.2.1 ▸ hstop)
      simp [hp]
    split
    · simp
    apply Run.bind_ne_timeout (peek_ne_timeout _)
    intro c _
    split
    · apply Run.bind_ne_timeout (peek_ne_timeout _)
      intro e _
      split
      · split
        · apply Run.bind_ne_timeout (hexWindow_ne_timeout _)
          intro ok _
          split
          · apply ih; simp only [List.length_drop]; omega
          · simp
        · apply ih; simp only [List.length_drop]; omega
      · simp
    · apply ih; simp only [List.length_drop]; omega

theorem stringLoop_length (fuel : Nat) : ∀ (m : Machine) (x : json_result_t × Machine),
    stringLoop fuel m = .done x →
      x.2.index.length ≤ m.index.length ∧ 1 ≤ x.2.index.length := by
  induction fuel with
  | zero => intro m x h; simp [stringLoop] at h
  | succ fuel ih =>
    intro m x h
    rw [stringLoop_succ] at h
    rw [Run.bind_eq_done] at h
    obtain ⟨stop, hstop, h⟩ := h
    have hne : 1 ≤ m.index.length := by
      obtain ⟨c, t, hp, -⟩ := strncmp0_one_done (lit_bytes.2.2.2.2.2.1 ▸ hstop)
      simp [hp]
    split at h
    · cases h; exact ⟨le_refl _, hne⟩
    rw [Run.bind_eq_done] at h
    obtain ⟨c, -, h⟩ := h
    split at h
    · rw [Run.bind_eq_done] at h
      obtain ⟨e, he, h⟩ := h
      have h1 : 2 ≤ m.index.length := by
        cases hm : m.index with
        | nil => rw [hm] at hne; simp at hne
        | cons a t =>
          rw [hm] at he
          cases t with
          | nil => simp at he
          | cons b t => simp
      split at h
      · split at h
        · rw [Run.bind_eq_done] at h
          obtain ⟨ok, hok, h⟩ := h
          split at h
          · have := ih _ _ h
            simp only [List.length_drop] at this
            omega
          · cases h
            simp only [hexWindow, Run.bind_eq, Run.pure_eq] at hok
            rw [Run.bind_eq_done] at hok
            obtain ⟨a, ha, -⟩ := hok
            have h3 : 1 ≤ (m.index.drop 2).length := by
              cases hd : m.index.drop 2 with
              | nil => rw [hd] at ha; simp [peekAt] at ha
              | cons _ _ => simp
            simp only [List.length_drop] at h3 ⊢
            omega
        · have := ih _ _ h
          simp only [List.length_drop] at this
          omega
      · cases h
        simp only [List.length_drop]
        omega
    · have := ih _ _ h
      simp only [List.length_drop] at this
      omega

theorem ProcessString_ne_timeout (m : Machine) : ProcessString m ≠ .timeout := by
  simp only [ProcessString, Run.bind_eq, Run.pure_eq]
  apply Run.bind_ne_timeout (strncmp0_ne_timeout _ _)
  intro b _
  split
  · apply Run.bind_ne_timeout (stringLoop_ne_timeout _ _ (by simp))
    intro x _
    split <;> simp
  · simp

theorem ProcessString_shrinks (m : Machine) (x : json_result_t × Machine)
    (h : ProcessString m = .done x) :
    Shrinks m x ∧ (x.1 = RESULT_JSON_SUCCESS → x.2.index.length + 2 ≤ m.index.length) := by
  simp only [ProcessString, Run.bind_eq, Run.pure_eq] at h
  rw [Run.bind_eq_done] at h
  obtain ⟨b, hb, h⟩ := h
  split at h
  · rename_i hbt
    subst hbt
    obtain ⟨t, ht⟩ := strncmp0_one_true (lit_bytes.2.2.1 ▸ hb)
    rw [Run.bind_eq_done] at h
    obtain ⟨⟨r, m1⟩, h1, h⟩ := h
    have hl := stringLoop_length _ _ _ h1
    simp only [ht, List.drop_succ_cons, List.drop_zero] at hl
    simp only [Shrinks, ht, List.length_cons]
    split at h
    · cases h
      simp only [List.length_drop]
      exact ⟨⟨by omega, fun _ => by omega⟩, fun _ => by omega⟩
    · rename_i hr
      cases h
      dsimp only at hl ⊢
      exact ⟨⟨by omega, fun e => absurd e hr⟩, fun e => absurd e hr⟩
  · cases h; simp [Shrinks]

theorem numberInteger_ne_timeout (m : Machine) : numberInteger m ≠ .timeout := by
  simp only [numberInteger, Run.bind_eq, Run.pure_eq]
  repeat' first
    | (apply Run.bind_ne_timeout (strncmp0_ne_timeout _ _); intro _ _)
    | (apply Run.bind_ne_timeout (peek_ne_timeout _); intro _ _)
    | (apply Run.bind_ne_timeout (digitLoop_ne_timeout _); intro _ _)
    | split
    | simp

theorem numberFraction_ne_timeout (m : Machine) : numberFraction m ≠ .timeout := by
  simp only [numberFraction, Run.bind_eq, Run.pure_eq]
  repeat' first
    | (apply Run.bind_ne_timeout (strncmp0_ne_timeout _ _); intro _ _)
    | (apply Run.bind_ne_timeout (digitLoop_ne_timeout _); intro _ _)
    | split
    | simp

theorem Run.or_ne_timeout {a b : Run Bool} (ha : a ≠ .timeout) (hb : b ≠ .timeout) :
    a.or b ≠ .timeout := by
  unfold Run.or
  apply Run.bind_ne_timeout ha
  intro x _
  split
  · simp
  · exact hb

theorem Run.and_ne_timeout {a b : Run Bool} (ha : a ≠ .timeout) (hb : b ≠ .timeout) :
    a.and b ≠ .timeout := by
  unfold Run.and
  apply Run.bind_ne_timeout ha
  intro x _
  split
  · exact hb
  · simp

theorem peek_test_ne_timeout (p : List Nat) (f : Nat → Bool) :
    ((peek p).bind fun c => .done (f c)) ≠ .timeout :=
  Run.bind_ne_timeout (peek_ne_timeout _) (fun _ _ => by simp)

theorem strlen_test_ne_timeout (p : List Nat) (f : Nat → Bool) :
    ((strlen p).bind fun n => .done (f n)) ≠ .timeout :=
  Run.bind_ne_timeout (strlen_ne_timeout _) (fun _ _ => by simp)

theorem numberExponent_ne_timeout (result : json_result_t) (m : Machine) :
    numberExponent result m ≠ .timeout := by
  simp only [numberExponent, Run.bind_eq, Run.pure_eq]
  apply Run.bind_ne_timeout
  · exact Run.and_ne_timeout (peek_test_ne_timeout _ _) (strlen_test_ne_timeout _ _)
  intro b _
  split
  · apply Run.bind_ne_timeout
    · exact Run.or_ne_timeout (strncmp0_ne_timeout _ _)
        (Run.or_ne_timeout (strncmp0_ne_timeout _ _) (peek_test_ne_timeout _ _))
    intro b2 _
    split
    · apply Run.bind_ne_timeout (digitLoop_ne_timeout _)
      intro _ _
      simp
    · simp
  · simp

theorem ProcessNumber_ne_timeout (m : Machine) : ProcessNumber m ≠ .timeout := by
  simp only [ProcessNumber, Run.bind_eq, Run.pure_eq]
  apply Run.bind_ne_timeout
  · exact Run.or_ne_timeout (strncmp0_ne_timeout _ _)
      (Run.or_ne_timeout (strncmp0_ne_timeout _ _) (peek_test_ne_timeout _ _))
  intro b _
  split
  · apply Run.bind_ne_timeout (numberInteger_ne_timeout _)
    intro x _
    apply Run.bind_ne_timeout (numberFraction_ne_timeout _)
    intro m2 _
    exact numberExponent_ne_timeout _ _
  · simp

theorem numberInteger_shrinks (m : Machine) (x : json_result_t × Machine)
    (h : numberInteger m = .done x) : x.2.index.length < m.index.length := by
  simp only [numberInteger, Run.bind_eq, Run.pure_eq] at h
  rw [Run.bind_eq_done] at h
  obtain ⟨b, hb, h⟩ := h
  obtain ⟨c, t, hm, -⟩ := strncmp0_one_done (lit_bytes.2.2.2.2.2.2.2.2.2.1 ▸ hb)
  rw [hm] at h
  simp only [List.drop_succ_cons, List.drop_zero, peek_cons, Run.bind_done] at h
  rw [hm]
  split at h
  · rw [Run.bind_eq_done] at h
    obtain ⟨c2, hc2, h⟩ := h
    split at h
    · cases h
    · rw [Run.bind_eq_done] at h
      obtain ⟨b2, hb2, h⟩ := h
      split at h <;> cases h <;> simp only [List.length_drop, List.length_cons] <;> omega
  · split at h
    · rw [Run.bind_eq_done] at h
      obtain ⟨q, hq, h⟩ := h
      cases h
      have := digitLoop_length _ _ hq
      simp only [List.length_cons]
      omega
    · cases h
      simp

theorem numberFraction_length (m m' : Machine) (h : numberFraction m = .done m') :
    m'.index.length ≤ m.index.length := by
  simp only [numberFraction, Run.bind_eq, Run.pure_eq] at h
  rw [Run.bind_eq_done] at h
  obtain ⟨b, hb, h⟩ := h
  split at h
  · rw [Run.bind_eq_done] at h
    obtain ⟨q, hq, h⟩ := h
    cases h
    have := digitLoop_length _ _ hq
    simp only [List.length_drop] at this
    simp only
    omega
  · cases h; exact le_refl _

theorem numberExponent_length (result : json_result_t) (m : Machine)
    (x : json_result_t × Machine) (h : numberExponent result m = .done x) :
    x.2.index.length ≤ m.index.length := by
  simp only [numberExponent, Run.bind_eq, Run.pure_eq] at h
  rw [Run.bind_eq_done] at h
  obtain ⟨b, hb, h⟩ := h
  split at h
  · rw [Run.bind_eq_done] at h
    obtain ⟨b2, hb2, h⟩ := h
    split at h
    · rw [Run.bind_eq_done] at h
      obtain ⟨q, hq, h⟩ := h
      cases h
      have := digitLoop_length _ _ hq
      simp only [List.length_drop] at this
      simp only
      omega
    · cases h
      simp only [List.length_drop]
      omega
  · cases h; exact le_refl _

theorem ProcessNumber_shrinks (m : Machine) (x : json_result_t × Machine)
    (h : ProcessNumber m = .done x) : Shrinks m x := by
  simp only [ProcessNumber, Run.bind_eq, Run.pure_eq] at h
  rw [Run.bind_eq_done] at h
  obtain ⟨b, -, h⟩ := h
  split at h
  · rw [Run.bind_eq_done] at h
    obtain ⟨⟨r1, m1⟩, h1, h⟩ := h
    rw [Run.bind_eq_done] at h
    obtain ⟨m2, h2, h⟩ := h
    have a1 := numberInteger_shrinks _ _ h1
    have a2 := numberFraction_length _ _ h2
    have a3 := numberExponent_length _ _ _ h
    dsimp only at a1 a2 a3
    exact ⟨by omega, fun _ => by omega⟩
  · cases h; exact ⟨le_refl _, fun e => by cases e⟩

theorem strncmp0_true_length (p lit : List Nat) (h : strncmp0 p lit = .done true) :
    lit.length ≤ p.length := by
  induction p generalizing lit with
  | nil => cases lit <;> simp_all [strncmp0]
  | cons c p ih =>
    cases lit with
    | nil => simp
    | cons d lit =>
      simp only [strncmp0] at h
      split at h
      · have := ih lit h
        simp only [List.length_cons]
        omega
      · cases h

theorem objectTurn_shrinks (value : Machine → Run (json_result_t × Machine))
    (hv : ∀ m x, value m = .done x → Shrinks m x)
    (m : Machine) (x : json_result_t × Machine) (h : objectTurn value m = .done x) :
    Shrinks m x := by
  simp only [objectTurn, Run.bind_eq, Run.pure_eq] at h
  rw [Run.bind_eq_done] at h
  obtain ⟨⟨r1, m1⟩, h1, h⟩ := h
  have a1 := ProcessString_shrinks _ _ h1
  simp only [Shrinks] at a1 ⊢
  dsimp only at a1 h
  split at h
  · rename_i hr1
    rw [Run.bind_eq_done] at h
    obtain ⟨p, hp, h⟩ := h
    have a2 := ProcessWhitespace_length _ _ hp
    rw [Run.bind_eq_done] at h
    obtain ⟨b, hb, h⟩ := h
    split at h
    · rw [Run.bind_eq_done] at h
      obtain ⟨⟨r2, m2⟩, h2, h⟩ := h
      have a3 := hv _ _ h2
      simp only [Shrinks, List.length_drop] at a3
      dsimp only at a3 h
      have a4 := a1.2 hr1
      split at h
      · rw [Run.bind_eq_done] at h
        obtain ⟨b2, hb2, h⟩ := h
        split at h
        · cases h
          simp only [List.length_drop]
          exact ⟨by (try dsimp only); omega, fun _ => by (try dsimp only); omega⟩
        · rw [Run.bind_eq_done] at h
          obtain ⟨b3, hb3, h⟩ := h
          split at h <;> cases h <;> exact ⟨by (try dsimp only); omega, fun _ => by (try dsimp only); omega⟩
      · cases h
        exact ⟨by (try dsimp only); omega, fun _ => by (try dsimp only); omega⟩
    · cases h
      exact ⟨by (try dsimp only); omega, fun e => by cases e⟩
  · cases h
    exact ⟨by (try dsimp only); omega, fun e => by cases e⟩

theorem arrayTurn_shrinks (value : Machine → Run (json_result_t × Machine))
    (hv : ∀ m x, value m = .done x → Shrinks m x)
    (m : Machine) (x : json_result_t × Machine) (h : arrayTurn value m = .done x) :
    Shrinks m x := by
  simp only [arrayTurn, Run.bind_eq, Run.pure_eq] at h
  rw [Run.bind_eq_done] at h
  obtain ⟨⟨r2, m2⟩, h2, h⟩ := h
  have a3 := hv _ _ h2
  simp only [Shrinks] at a3 ⊢
  dsimp only at a3 h
  split at h
  · rename_i hr
    have a4 := a3.2 hr
    rw [Run.bind_eq_done] at h
    obtain ⟨p, hp, h⟩ := h
    have a2 := ProcessWhitespace_length _ _ hp
    rw [Run.bind_eq_done] at h
    obtain ⟨b, hb, h⟩ := h
    split at h
    · rw [Run.bind_eq_done] at h
      obtain ⟨p2, hp2, h⟩ := h
      have a5 := ProcessWhitespace_length _ _ hp2
      simp only [List.length_drop] at a5
      cases h
      exact ⟨by (try dsimp only); omega, fun _ => by (try dsimp only); omega⟩
    · rw [Run.bind_eq_done] at h
      obtain ⟨b3, hb3, h⟩ := h
      split at h <;> cases h <;> exact ⟨by (try dsimp only); omega, fun _ => by (try dsimp only); omega⟩
  · rename_i hr
    cases h
    exact ⟨a3.1, fun e => absurd e hr⟩

set_option maxHeartbeats 1000000 in
/-- No matcher moves the cursor backwards, and a matcher that returns
`RESULT_JSON_SUCCESS` has moved it forward. -/
theorem matchers_shrink (fuel : Nat) :
    (∀ m x, ProcessValue fuel m = .done x → Shrinks m x) ∧
    (∀ m x, ProcessObject fuel m = .done x → Shrinks m x) ∧
    (∀ r m x, objectLoop fuel r m = .done x →
      x.2.index.length ≤ m.index.length ∧ 1 ≤ x.2.index.length) ∧
    (∀ m x, ProcessArray fuel m = .done x → Shrinks m x) ∧
    (∀ r m x, arrayLoop fuel r m = .done x →
      x.2.index.length ≤ m.index.length ∧ 1 ≤ x.2.index.length) := by
  induction fuel with
  | zero =>
    refine ⟨?_, ?_, ?_, ?_, ?_⟩
    · intro m x h; simp [ProcessValue] at h
    · intro m x h; simp [ProcessObject] at h
    · intro r m x h; simp [objectLoop] at h
    · intro m x h; simp [ProcessArray] at h
    · intro r m x h; simp [arrayLoop] at h
  | succ fuel ih =>
    obtain ⟨ihV, ihO, ihOL, ihA, ihAL⟩ := ih
    refine ⟨?_, ?_, ?_, ?_, ?_⟩
    · intro m x h
      rw [ProcessValue_succ] at h
      rw [Run.bind_eq_done] at h
      obtain ⟨x1, h1, h⟩ := h
      split at h
      · cases h; exact ihO _ _ h1
      rename_i n1
      have e1 := ((matchers_agree fuel).2.1 _ _ h1).2 (not_not.mp n1)
      rw [e1, Run.bind_eq_done] at h
      obtain ⟨x2, h2, h⟩ := h
      split at h
      · cases h; exact ihA _ _ h2
      rename_i n2
      have e2 := ((matchers_agree fuel).2.2.2.1 _ _ h2).2 (not_not.mp n2)
      rw [e2, Run.bind_eq_done] at h
      obtain ⟨x3, h3, h⟩ := h
      split at h
      · cases h; exact (ProcessString_shrinks _ _ h3).1
      rename_i n3
      have e3 := (ProcessString_agrees _ _ h3).2 (not_not.mp n3)
      rw [e3, Run.bind_eq_done] at h
      obtain ⟨x4, h4, h⟩ := h
      split at h
      · cases h; exact ProcessNumber_shrinks _ _ h4
      rename_i n4
      have e4 := (ProcessNumber_agrees _ _ h4).2 (not_not.mp n4)
      rw [e4] at h
      rw [Run.bind_eq_done] at h
      obtain ⟨b1, hb1, h⟩ := h
      split at h
      · rename_i hb; subst hb
        have := strncmp0_true_length _ _ hb1
        cases h
        simp only [Shrinks, List.length_drop]
        rw [lit_bytes.2.2.2.2.2.2.2.2.2.2.2.2.1] at this ⊢
        simp only [List.length_cons, List.length_nil] at this ⊢
        exact ⟨by (try dsimp only); omega, fun _ => by (try dsimp only); omega⟩
      rw [Run.bind_eq_done] at h
      obtain ⟨b2, hb2, h⟩ := h
      split at h
      · rename_i hb; subst hb
        have := strncmp0_true_length _ _ hb2
        cases h
        simp only [Shrinks, List.length_drop]
        rw [lit_bytes.2.2.2.2.2.2.2.2.2.2.2.2.2.1] at this ⊢
        simp only [List.length_cons, List.length_nil] at this ⊢
        exact ⟨by (try dsimp only); omega, fun _ => by (try dsimp only); omega⟩
      rw [Run.bind_eq_done] at h
      obtain ⟨b3, hb3, h⟩ := h
      split at h
      · rename_i hb; subst hb
        have := strncmp0_true_length _ _ hb3
        cases h
        simp only [Shrinks, List.length_drop]
        rw [lit_bytes.2.2.2.2.2.2.2.2.2.2.2.2.2.2] at this ⊢
        simp only [List.length_cons, List.length_nil] at this ⊢
        exact ⟨by (try dsimp only); omega, fun _ => by (try dsimp only); omega⟩
      · cases h
        exact ⟨le_refl _, fun e => by cases e⟩
    · intro m x h
      rw [ProcessObject_succ] at h
      rw [Run.bind_eq_done] at h
      obtain ⟨b, hb, h⟩ := h
      split at h
      · rename_i hbt; subst hbt
        have hl := strncmp0_true_length _ _ hb
        rw [Run.bind_eq_done] at h
        obtain ⟨p, hp, h⟩ := h
        have a2 := ProcessWhitespace_length _ _ hp
        rw [Run.bind_eq_done] at h
        obtain ⟨x1, h1, h⟩ := h
        have a1 := ihOL _ _ _ h1
        cases h
        rw [lit_bytes.1] at hl a2
        simp only [List.length_drop, List.length_cons, List.length_nil] at hl a2 a1
        simp only [Shrinks, List.length_drop]
        exact ⟨by (try dsimp only); omega, fun _ => by (try dsimp only); omega⟩
      · cases h; exact ⟨le_refl _, fun e => by cases e⟩
    · intro r m x h
      rw [objectLoop_succ] at h
      rw [Run.bind_eq_done] at h
      obtain ⟨go, hgo, h⟩ := h
      obtain ⟨e, he, rfl⟩ := loopGoesOn_eq_done hgo
      split at h
      · rw [Run.bind_eq_done] at h
        obtain ⟨x1, h1, h⟩ := h
        have a1 := objectTurn_shrinks _ ihV _ _ h1
        have a2 := ihOL _ _ _ h
        exact ⟨by have := a1.1; omega, a2.2⟩
      · cases h
        obtain ⟨c, t, hm, -⟩ := strncmp0_one_done (lit_bytes.2.2.2.1 ▸ he)
        exact ⟨le_refl _, by simp [hm]⟩
    · intro m x h
      rw [ProcessArray_succ] at h
      rw [Run.bind_eq_done] at h
      obtain ⟨b, hb, h⟩ := h
      split at h
      · rename_i hbt; subst hbt
        have hl := strncmp0_true_length _ _ hb
        rw [Run.bind_eq_done] at h
        obtain ⟨p, hp, h⟩ := h
        have a2 := ProcessWhitespace_length _ _ hp
        rw [Run.bind_eq_done] at h
        obtain ⟨x1, h1, h⟩ := h
        have a1 := ihAL _ _ _ h1
        rw [lit_bytes.2.1] at hl a2
        simp only [List.length_drop, List.length_cons, List.length_nil] at hl a2 a1
        split at h
        · cases h
          simp only [Shrinks, List.length_drop]
          exact ⟨by (try dsimp only); omega, fun _ => by (try dsimp only); omega⟩
        · rename_i hr
          cases h
          exact ⟨by omega, fun e => absurd e hr⟩
      · cases h; exact ⟨le_refl _, fun e => by cases e⟩
    · intro r m x h
      rw [arrayLoop_succ] at h
      rw [Run.bind_eq_done] at h
      obtain ⟨go, hgo, h⟩ := h
      obtain ⟨e, he, rfl⟩ := loopGoesOn_eq_done hgo
      split at h
      · rw [Run.bind_eq_done] at h
        obtain ⟨x1, h1, h⟩ := h
        have a1 := arrayTurn_shrinks _ ihV _ _ h1
        have a2 := ihAL _ _ _ h
        exact ⟨by have := a1.1; omega, a2.2⟩
      · cases h
        obtain ⟨c, t, hm, -⟩ := strncmp0_one_done (lit_bytes.2.2.2.2.1 ▸ he)
        exact ⟨le_refl _, by simp [hm]⟩

/-! ## The fuel is enough -/

theorem loopGoesOn_ne_timeout (stop : List Nat) (result : json_result_t) (m : Machine) :
    loopGoesOn stop result m ≠ .timeout := by
  unfold loopGoesOn
  exact Run.and_ne_timeout
    (Run.bind_ne_timeout (strncmp0_ne_timeout _ _) (fun _ _ => by simp)) (by simp)

theorem objectTurn_ne_timeout (value : Machine → Run (json_result_t × Machine))
    (m : Machine)
    (hv : ∀ m' : Machine, m'.index.length + 3 ≤ m.index.length → value m' ≠ .timeout) :
    objectTurn value m ≠ .timeout := by
  simp only [objectTurn, Run.bind_eq, Run.pure_eq]
  apply Run.bind_ne_timeout (ProcessString_ne_timeout _)
  intro x1 h1
  have a1 := ProcessString_shrinks _ _ h1
  split
  · rename_i hr
    have a2 := a1.2 hr
    apply Run.bind_ne_timeout (ProcessWhitespace_ne_timeout _)
    intro p hp
    have a3 := ProcessWhitespace_length _ _ hp
    apply Run.bind_ne_timeout (strncmp0_ne_timeout _ _)
    intro b hb
    split
    · rename_i hbt
      try dsimp only at hb hbt
      subst hbt
      have a4 := strncmp0_true_length _ _ hb
      rw [lit_bytes.2.2.2.2.2.2.1] at a4
      simp only [List.length_cons, List.length_nil] at a4
      apply Run.bind_ne_timeout
      · apply hv
        simp only [List.length_drop]
        omega
      intro x2 _
      split
      · apply Run.bind_ne_timeout (strncmp0_ne_timeout _ _)
        intro b2 _
        split
        · simp
        · apply Run.bind_ne_timeout (strncmp0_ne_timeout _ _)
          intro b3 _
          split <;> simp
      · simp
    · simp
  · simp

theorem arrayTurn_ne_timeout (value : Machine → Run (json_result_t × Machine))
    (m : Machine) (hv : value m ≠ .timeout) : arrayTurn value m ≠ .timeout := by
  simp only [arrayTurn, Run.bind_eq, Run.pure_eq]
  apply Run.bind_ne_timeout hv
  intro x2 _
  split
  · apply Run.bind_ne_timeout (ProcessWhitespace_ne_timeout _)
    intro p _
    apply Run.bind_ne_timeout (strncmp0_ne_timeout _ _)
    intro b _
    split
    · apply Run.bind_ne_timeout (ProcessWhitespace_ne_timeout _)
      intro _ _
      simp
    · apply Run.bind_ne_timeout (strncmp0_ne_timeout _ _)
      intro b3 _
      split <;> simp
  · simp

set_option maxHeartbeats 1000000 in
/-- Three units of fuel for every byte from the cursor to the end of the array, and
two more, are enough for `ProcessValue`: it does not run out of fuel. -/
theorem matchers_ne_timeout (fuel : Nat) :
    (∀ m : Machine, 3 * m.index.length + 2 ≤ fuel → ProcessValue fuel m ≠ .timeout) ∧
    (∀ m : Machine, 3 * m.index.length + 1 ≤ fuel → ProcessObject fuel m ≠ .timeout) ∧
    (∀ (r : json_result_t) (m : Machine),
      (3 * m.index.length + 3 ≤ fuel ∨ (r ≠ RESULT_JSON_SUCCESS ∧ 1 ≤ fuel)) →
      objectLoop fuel r m ≠ .timeout) ∧
    (∀ m : Machine, 3 * m.index.length + 1 ≤ fuel → ProcessArray fuel m ≠ .timeout) ∧
    (∀ (r : json_result_t) (m : Machine),
      (3 * m.index.length + 3 ≤ fuel ∨ (r ≠ RESULT_JSON_SUCCESS ∧ 1 ≤ fuel)) →
      arrayLoop fuel r m ≠ .timeout) := by
  induction fuel with
  | zero =>
    refine ⟨?_, ?_, ?_, ?_, ?_⟩
    · intro m h; omega
    · intro m h; omega
    · intro r m h; omega
    · intro m h; omega
    · intro r m h; omega
  | succ fuel ih =>
    obtain ⟨ihV, ihO, ihOL, ihA, ihAL⟩ := ih
    refine ⟨?_, ?_, ?_, ?_, ?_⟩
    · intro m hf
      rw [ProcessValue_succ]
      apply Run.bind_ne_timeout (ihO _ (by omega))
      intro x1 h1
      split
      · simp
      rename_i n1
      have e1 := ((matchers_agree fuel).2.1 _ _ h1).2 (not_not.mp n1)
      rw [e1]
      apply Run.bind_ne_timeout (ihA _ (by omega))
      intro x2 h2
      split
      · simp
      apply Run.bind_ne_timeout (ProcessString_ne_timeout _)
      intro x3 h3
      split
      · simp
      apply Run.bind_ne_timeout (ProcessNumber_ne_timeout _)
      intro x4 h4
      split
      · simp
      apply Run.bind_ne_timeout (strncmp0_ne_timeout _ _)
      intro b1 _
      split
      · simp
      apply Run.bind_ne_timeout (strncmp0_ne_timeout _ _)
      intro b2 _
      split
      · simp
      apply Run.bind_ne_timeout (strncmp0_ne_timeout _ _)
      intro b3 _
      split <;> simp
    · intro m hf
      rw [ProcessObject_succ]
      apply Run.bind_ne_timeout (strncmp0_ne_timeout _ _)
      intro b hb
      split
      · rename_i hbt; subst hbt
        have hl := strncmp0_true_length _ _ hb
        apply Run.bind_ne_timeout (ProcessWhitespace_ne_timeout _)
        intro p hp
        have a2 := ProcessWhitespace_length _ _ hp
        rw [lit_bytes.1] at hl a2
        simp only [List.length_drop, List.length_cons, List.length_nil] at hl a2
        apply Run.bind_ne_timeout
        · apply ihOL
          left
          dsimp only
          omega
        intro _ _
        simp
      · simp
    · intro r m hf
      rw [objectLoop_succ]
      apply Run.bind_ne_timeout (loopGoesOn_ne_timeout _ _ _)
      intro go hgo
      obtain ⟨e, he, rfl⟩ := loopGoesOn_eq_done hgo
      split
      · rename_i hcond
        simp only [Bool.and_eq_true, decide_eq_true_eq] at hcond
        have hf2 : 3 * m.index.length + 3 ≤ fuel + 1 := by
          rcases hf with hf | hf
          · exact hf
          · exact absurd hcond.2 hf.1
        apply Run.bind_ne_timeout
        · apply objectTurn_ne_timeout
          intro m' hm'
          apply ihV
          omega
        intro x1 h1
        have a1 := objectTurn_shrinks _ (matchers_shrink fuel).1 _ _ h1
        apply ihOL
        by_cases hs : x1.1 = RESULT_JSON_SUCCESS
        · left
          have := a1.2 hs
          omega
        · right
          exact ⟨hs, by omega⟩
      · simp
    · intro m hf
      rw [ProcessArray_succ]
      apply Run.bind_ne_timeout (strncmp0_ne_timeout _ _)
      intro b hb
      split
      · rename_i hbt; subst hbt
        have hl := strncmp0_true_length _ _ hb
        apply Run.bind_ne_timeout (ProcessWhitespace_ne_timeout _)
        intro p hp
        have a2 := ProcessWhitespace_length _ _ hp
        rw [lit_bytes.2.1] at hl a2
        simp only [List.length_drop, List.length_cons, List.length_nil] at hl a2
        apply Run.bind_ne_timeout
        · apply ihAL
          left
          dsimp only
          omega
        intro _ _
        split <;> simp
      · simp
    · intro r m hf
      rw [arrayLoop_succ]
      apply Run.bind_ne_timeout (loopGoesOn_ne_timeout _ _ _)
      intro go hgo
      obtain ⟨e, he, rfl⟩ := loopGoesOn_eq_done hgo
      split
      · rename_i hcond
        simp only [Bool.and_eq_true, decide_eq_true_eq] at hcond
        have hf2 : 3 * m.index.length + 3 ≤ fuel + 1 := by
          rcases hf with hf | hf
          · exact hf
          · exact absurd hcond.2 hf.1
        apply Run.bind_ne_timeout
        · apply arrayTurn_ne_timeout
          apply ihV
          omega
        intro x1 h1
        have a1 := arrayTurn_shrinks _ (matchers_shrink fuel).1 _ _ h1
        apply ihAL
        by_cases hs : x1.1 = RESULT_JSON_SUCCESS
        · left
          have := a1.2 hs
          omega
        · right
          exact ⟨hs, by omega⟩
      · simp

/-- `LintJSON` never runs out of fuel. -/
theorem LintJSON_ne_timeout (buf : List Nat) : LintJSON buf ≠ .timeout := by
  simp only [LintJSON, Run.bind_eq, Run.pure_eq]
  apply Run.bind_ne_timeout (peek_ne_timeout _)
  intro c _
  split
  · apply Run.bind_ne_timeout (ProcessWhitespace_ne_timeout _)
    intro p hp
    have a2 := ProcessWhitespace_length _ _ hp
    apply Run.bind_ne_timeout
    · apply (matchers_ne_timeout _).1
      simp only [lintFuel]
      omega
    intro x _
    split
    · apply Run.bind_ne_timeout (ProcessWhitespace_ne_timeout _)
      intro _ _
      apply Run.bind_ne_timeout (strlen_ne_timeout _)
      intro _ _
      split <;> simp
    · simp
  · simp

/-! ## Facts about the grammar -/

theorem Ecma404.Ws_nil : Ecma404.Ws [] := by
  intro c hc; cases hc

theorem Ecma404.Ws_cons {c : Nat} {w : List Nat}
    (hc : c = 0x09 ∨ c = 0x0A ∨ c = 0x0D ∨ c = 0x20) (hw : Ecma404.Ws w) :
    Ecma404.Ws (c :: w) := by
  intro d hd
  rcases List.mem_cons.mp hd with rfl | hd
  · exact hc
  · exact hw d hd

/-- C1: the text `{"a": 1}` is a JSON text of ECMA-404 (whitespace after the colon),
and `LintJSON` returns `RESULT_JSON_LINT_INVALID` on it, with the error location at
offset 5, the space after the colon. -/
theorem C1_valid_text_is_rejected :
    Ecma404.JsonText (bytes "\x7b\"a\": 1\x7d") ∧
    lint "\x7b\"a\": 1\x7d" = .done (RESULT_JSON_LINT_INVALID, some 5) := by
  refine ⟨?_, by decide!⟩
  have hs : Ecma404.Str [34, 97, 34] :=
    Ecma404.Str.mk [97] (Ecma404.Characters.cons [97] []
      (Ecma404.Character.plain 97 (by decide) (by decide) (by decide))
      Ecma404.Characters.nil)
  have hn : Ecma404.Derives .value [49] :=
    Ecma404.Derives.number [49] (Ecma404.Number.mk [49] [] []
      (Ecma404.Integer.digit 49 ⟨by omega, by omega⟩) Ecma404.Fraction.none Ecma404.Exponent.none)
  have hm : Ecma404.Derives .members [34, 97, 34, 58, 32, 49] :=
    Ecma404.Derives.members_one [] [34, 97, 34] [] [32] [49] []
      Ecma404.Ws_nil hs Ecma404.Ws_nil (Ecma404.Ws_cons (by decide) Ecma404.Ws_nil) hn
      Ecma404.Ws_nil
  have hv : Ecma404.Derives .value [123, 34, 97, 34, 58, 32, 49, 125] :=
    Ecma404.Derives.object _ hm
  exact Ecma404.JsonText.mk [] _ [] Ecma404.Ws_nil hv Ecma404.Ws_nil

theorem Ecma404.Ws_append {w1 w2 : List Nat} (h1 : Ecma404.Ws w1) (h2 : Ecma404.Ws w2) :
    Ecma404.Ws (w1 ++ w2) := by
  intro c hc
  rcases List.mem_append.mp hc with h | h
  · exact h1 c h
  · exact h2 c h

theorem Ecma404.Digits_cons {d : List Nat} (h : Ecma404.Digits d) :
    ∃ c t, d = c :: t ∧ Ecma404.isDigit c ∧ ∀ x ∈ t, Ecma404.isDigit x := by
  obtain ⟨hne, hall⟩ := h
  cases d with
  | nil => exact absurd rfl hne
  | cons c t =>
    exact ⟨c, t, rfl, hall c (by simp), fun x hx => hall x (by simp [hx])⟩

theorem Ecma404.Digits_last {d : List Nat} (h : Ecma404.Digits d) :
    ∃ init c, d = init ++ [c] ∧ Ecma404.isDigit c := by
  obtain ⟨hne, hall⟩ := h
  refine ⟨d.dropLast, d.getLast hne, (List.dropLast_append_getLast hne).symm, ?_⟩
  exact hall _ (List.getLast_mem hne)

theorem Ecma404.Integer_head {i : List Nat} (h : Ecma404.Integer i) :
    ∃ c t, i = c :: t ∧ (c = 45 ∨ Ecma404.isDigit c) := by
  cases h with
  | digit c hc => exact ⟨c, [], rfl, Or.inr hc⟩
  | onenine c d hc hd => exact ⟨c, d, rfl, Or.inr ⟨by have := hc.1; omega, hc.2⟩⟩
  | neg_digit c hc => exact ⟨45, [c], rfl, Or.inl rfl⟩
  | neg_onenine c d hc hd => exact ⟨45, c :: d, rfl, Or.inl rfl⟩

theorem Ecma404.Integer_last {i : List Nat} (h : Ecma404.Integer i) :
    ∃ init c, i = init ++ [c] ∧ Ecma404.isDigit c := by
  cases h with
  | digit c hc => exact ⟨[], c, rfl, hc⟩
  | onenine c d hc hd =>
    obtain ⟨init, x, rfl, hx⟩ := Ecma404.Digits_last hd
    exact ⟨c :: init, x, rfl, hx⟩
  | neg_digit c hc => exact ⟨[45], c, rfl, hc⟩
  | neg_onenine c d hc hd =>
    obtain ⟨init, x, rfl, hx⟩ := Ecma404.Digits_last hd
    exact ⟨45 :: c :: init, x, rfl, hx⟩

theorem Ecma404.Number_head {n : List Nat} (h : Ecma404.Number n) :
    ∃ c t, n = c :: t ∧ (c = 45 ∨ Ecma404.isDigit c) := by
  cases h with
  | mk i f e hi hf he =>
    obtain ⟨c, t, rfl, hc⟩ := Ecma404.Integer_head hi
    exact ⟨c, t ++ f ++ e, by simp, hc⟩

theorem Ecma404.Number_last {n : List Nat} (h : Ecma404.Number n) :
    ∃ init c, n = init ++ [c] ∧ Ecma404.isDigit c := by
  cases h with
  | mk i f e hi hf he =>
    cases he with
    | none =>
      cases hf with
      | none =>
        obtain ⟨init, c, rfl, hc⟩ := Ecma404.Integer_last hi
        exact ⟨init, c, by simp, hc⟩
      | some d hd =>
        obtain ⟨init, c, rfl, hc⟩ := Ecma404.Digits_last hd
        exact ⟨i ++ 46 :: init, c, by simp, hc⟩
    | upper s d hs hd =>
      obtain ⟨init, c, rfl, hc⟩ := Ecma404.Digits_last hd
      exact ⟨i ++ f ++ 69 :: (s ++ init), c, by simp, hc⟩
    | lower s d hs hd =>
      obtain ⟨init, c, rfl, hc⟩ := Ecma404.Digits_last hd
      exact ⟨i ++ f ++ 101 :: (s ++ init), c, by simp, hc⟩

/-- A JSON value starts with one of the lead bytes. -/
theorem Ecma404.value_head {s : Ecma404.Sym} {v : List Nat} (h : Ecma404.Derives s v)
    (hs : s = .value) : ∃ c t, v = c :: t ∧ LeadByte c := by
  cases h with
  | lit_true => exact ⟨116, _, rfl, by simp [LeadByte]⟩
  | lit_false => exact ⟨102, _, rfl, by simp [LeadByte]⟩
  | lit_null => exact ⟨110, _, rfl, by simp [LeadByte]⟩
  | number n hn =>
    obtain ⟨c, t, rfl, hc⟩ := Ecma404.Number_head hn
    refine ⟨c, t, rfl, ?_⟩
    rcases hc with rfl | hc
    · simp [LeadByte]
    · simp [LeadByte, hc]
  | string s hstr =>
    cases hstr with
    | mk cs hcs => exact ⟨34, _, rfl, by simp [LeadByte]⟩
  | array_empty w hw => exact ⟨91, _, rfl, by simp [LeadByte]⟩
  | array es hes => exact ⟨91, _, rfl, by simp [LeadByte]⟩
  | object_empty w hw => exact ⟨123, _, rfl, by simp [LeadByte]⟩
  | object ms hms => exact ⟨123, _, rfl, by simp [LeadByte]⟩
  | elements_one => cases hs
  | elements_cons => cases hs
  | members_one => cases hs
  | members_cons => cases hs

/-- The last byte of a JSON value is one of the end bytes; in a list of elements or
of members only whitespace follows the last end byte. -/
theorem Ecma404.derives_end {s : Ecma404.Sym} {t : List Nat} (h : Ecma404.Derives s t) :
    ∃ init c w, t = init ++ c :: w ∧ Ecma404.Ws w ∧ EndByte c ∧ (s = .value → w = []) := by
  induction h with
  | lit_true => exact ⟨[116, 114, 117], 101, [], rfl, Ecma404.Ws_nil, by simp [EndByte], fun _ => rfl⟩
  | lit_false =>
    exact ⟨[102, 97, 108, 115], 101, [], rfl, Ecma404.Ws_nil, by simp [EndByte], fun _ => rfl⟩
  | lit_null => exact ⟨[110, 117, 108], 108, [], rfl, Ecma404.Ws_nil, by simp [EndByte], fun _ => rfl⟩
  | number n hn =>
    obtain ⟨init, c, rfl, hc⟩ := Ecma404.Number_last hn
    exact ⟨init, c, [], rfl, Ecma404.Ws_nil, by simp [EndByte, hc], fun _ => rfl⟩
  | string s hstr =>
    cases hstr with
    | mk cs hcs =>
      exact ⟨34 :: cs, 34, [], by simp, Ecma404.Ws_nil, by simp [EndByte], fun _ => rfl⟩
  | array_empty w hw =>
    exact ⟨91 :: w, 93, [], by simp, Ecma404.Ws_nil, by simp [EndByte], fun _ => rfl⟩
  | array es hes ih =>
    exact ⟨91 :: es, 93, [], by simp, Ecma404.Ws_nil, by simp [EndByte], fun _ => rfl⟩
  | object_empty w hw =>
    exact ⟨123 :: w, 125, [], by simp, Ecma404.Ws_nil, by simp [EndByte], fun _ => rfl⟩
  | object ms hms ih =>
    exact ⟨123 :: ms, 125, [], by simp, Ecma404.Ws_nil, by simp [EndByte], fun _ => rfl⟩
  | elements_one w1 v w2 hw1 hv hw2 ih =>
    obtain ⟨init, c, w, rfl, -, hc, hw⟩ := ih
    rw [hw rfl]
    exact ⟨w1 ++ init, c, w2, by simp, hw2, hc, fun e => by cases e⟩
  | elements_cons w1 v w2 es hw1 hv hw2 hes ihv ihes =>
    obtain ⟨init, c, w, rfl, hw, hc, -⟩ := ihes
    exact ⟨w1 ++ v ++ w2 ++ 44 :: init, c, w, by simp, hw, hc, fun e => by cases e⟩
  | members_one w1 s w2 w3 v w4 hw1 hs hw2 hw3 hv hw4 ih =>
    obtain ⟨init, c, w, rfl, -, hc, hw⟩ := ih
    rw [hw rfl]
    exact ⟨w1 ++ s ++ w2 ++ 58 :: (w3 ++ init), c, w4, by simp, hw4, hc, fun e => by cases e⟩
  | members_cons w1 s w2 w3 v w4 ms hw1 hs hw2 hw3 hv hw4 hms ihv ihms =>
    obtain ⟨init, c, w, rfl, hw, hc, -⟩ := ihms
    exact ⟨w1 ++ s ++ w2 ++ 58 :: (w3 ++ v ++ w4) ++ 44 :: init, c, w, by simp, hw, hc,
      fun e => by cases e⟩

/-- In a text that ends with a byte that is no whitespace, nothing follows the last
end byte. -/
theorem tail_ws_nil {init w t : List Nat} {c x : Nat} (h : t ++ [x] = init ++ c :: w)
    (hw : Ecma404.Ws w) (hx : ¬(x = 0x09 ∨ x = 0x0A ∨ x = 0x0D ∨ x = 0x20)) :
    w = [] ∧ c = x ∧ t = init := by
  rcases List.eq_nil_or_concat w with rfl | ⟨w', y, rfl⟩
  · have h2 : t ++ [x] = init ++ [c] := by simpa using h
    have h3 := List.append_inj' h2 rfl
    exact ⟨rfl, by simpa using h3.2.symm, h3.1⟩
  · have h2 : t ++ [x] = (init ++ c :: w') ++ [y] := by simpa using h
    have h3 := List.append_inj' h2 rfl
    have hy : x = y := by simpa using h3.2
    exact absurd (hw y (by simp)) (hy ▸ hx)

/-- C2: the text `[1,]` is no JSON text of ECMA-404 (a comma must be followed by a
value), and `LintJSON` returns `RESULT_JSON_LINT_SUCCESS` on it. -/
theorem C2_invalid_text_is_accepted :
    ¬ Ecma404.JsonText (bytes "[1,]") ∧
    lint "[1,]" = .done (RESULT_JSON_LINT_SUCCESS, none) := by
  refine ⟨?_, by decide!⟩
  have hb : bytes "[1,]" = [91, 49, 44, 93] := by decide
  rw [hb]
  intro h
  generalize ht : [91, 49, 44, 93] = t at h
  cases h with
  | mk w1 v w2 hw1 hv hw2 =>
    -- no whitespace in front
    cases w1 with
    | cons a w1 =>
      simp only [List.cons_append, List.cons.injEq] at ht
      have := hw1 a (by simp)
      omega
    | nil =>
      simp only [List.nil_append] at ht
      -- no whitespace behind
      obtain ⟨init, e, w, hv2, -, he, hwv⟩ := Ecma404.derives_end hv
      have hw := hwv rfl
      subst hw
      have h1 : [91, 49, 44] ++ [93] = (init ++ [e] ++ w2) := by
        rw [← hv2]; simpa using ht
      rcases List.eq_nil_or_concat w2 with rfl | ⟨w2', y, rfl⟩
      swap
      · have h2 : [91, 49, 44] ++ [93] = (init ++ [e] ++ w2') ++ [y] := by simpa using h1
        have h3 := List.append_inj' h2 rfl
        have hy : 93 = y := by simpa using h3.2
        have := hw2 y (by simp)
        omega
      simp only [List.append_nil] at ht
      -- the value is the whole text
      generalize hs : Ecma404.Sym.value = s at hv
      cases hv with
      | lit_true => simp at ht
      | lit_false => simp at ht
      | lit_null => simp at ht
      | number n hn =>
        obtain ⟨c', t', hn2, hc'⟩ := Ecma404.Number_head hn
        rw [hn2] at ht
        simp only [List.cons.injEq] at ht
        rcases hc' with h | h
        · omega
        · have := h.2; omega
      | string s hstr =>
        cases hstr with
        | mk cs hcs => simp at ht
      | array_empty w hw =>
        have h2 : [49, 44] ++ [93] = w ++ [93] := by simpa using ht
        have h3 := List.append_inj' h2 rfl
        have := hw 49 (by rw [← h3.1]; simp)
        omega
      | array es hes =>
        have h2 : [49, 44] ++ [93] = es ++ [93] := by simpa using ht
        have h3 := List.append_inj' h2 rfl
        obtain ⟨init2, e2, w, hes2, hw, he2, -⟩ := Ecma404.derives_end hes
        have h4 : [49] ++ [44] = init2 ++ e2 :: w := by rw [← hes2, ← h3.1]; rfl
        have h5 := tail_ws_nil h4 hw (by omega)
        have h6 := h5.2.1
        subst h6
        simp only [EndByte, Ecma404.isDigit] at he2
        omega
      | object_empty w hw => simp at ht
      | object ms hms => simp at ht
      | elements_one => cases hs
      | elements_cons => cases hs
      | members_one => cases hs
      | members_cons => cases hs

/-! ## The top level -/

theorem strlen_append_zero (text rest : List Nat) (hz : 0 ∉ text) :
    strlen (text ++ 0 :: rest) = .done text.length := by
  induction text with
  | nil => simp [strlen]
  | cons c t ih =>
    have hc : c ≠ 0 := fun e => hz (by simp [e])
    have ht : 0 ∉ t := fun e => hz (by simp [e])
    simp [strlen, hc, ih ht]

theorem strlen_cstr (text : List Nat) (hz : 0 ∉ text) :
    strlen (cstr text) = .done text.length :=
  strlen_append_zero text [] hz

/-- C3: trailing garbage.  Let the array hold a text without NUL and its terminator.
When the call of `ProcessValue` that `LintJSON` makes after the leading whitespace
returns `RESULT_JSON_SUCCESS`, and the whitespace after the value ends at a byte whose
offset is before the end of the text, `LintJSON` returns `RESULT_JSON_LINT_INVALID`
and `ptr_invalid_json` points to that byte. -/
theorem C3_trailing_garbage (text p q : List Nat) (m : Machine) (hz : 0 ∉ text)
    (hp : ProcessWhitespace (cstr text) = .done p)
    (hv : ProcessValue (lintFuel (cstr text)) { index := p, ptr_invalid_json := none } =
      .done (RESULT_JSON_SUCCESS, m))
    (hq : ProcessWhitespace m.index = .done q)
    (hlt : error_offset (cstr text) q < text.length) :
    LintJSON (cstr text) = .done (RESULT_JSON_LINT_INVALID, some q) := by
  have hpk : ∃ c, peek (cstr text) = .done c ∧ c ≠ 0 := by
    cases text with
    | nil => simp [error_offset] at hlt
    | cons c t => exact ⟨c, rfl, fun e => hz (by simp [e])⟩
  obtain ⟨c, hc1, hc2⟩ := hpk
  simp only [LintJSON, Run.bind_eq, Run.pure_eq, hc1, Run.bind_done, hc2, ne_eq,
    not_false_eq_true, if_true, hp, hv, hq, strlen_cstr text hz]
  simp only [error_offset] at hlt
  rw [if_pos (by omega)]

/-- C3, witness: `false true`, where the value `false` ends at offset 5 and the
garbage starts at offset 6. -/
theorem C3_trailing_garbage_witness :
    LintJSON (cstr (bytes "false true")) =
        .done (RESULT_JSON_LINT_INVALID, some (cstr (bytes "true"))) ∧
      error_offset (cstr (bytes "false true")) (cstr (bytes "true")) = 6 :=
  ⟨C3_trailing_garbage (bytes "false true") (cstr (bytes "false true")) (cstr (bytes "true"))
      { index := cstr (bytes " true"), ptr_invalid_json := none }
      (by decide) (by decide!) (by decide!) (by decide!) (by decide!),
    by decide⟩

/-- C4: on the text `-ex` the integer part of `ProcessNumber` (lines 444-464) records
the error location at offset 1, the byte after the minus sign, and keeps going; the
exponent part (lines 471-484) then records offset 2 over it, and `LintJSON` reports
offset 2. -/
theorem C4_error_location_is_overwritten :
    (∃ m, numberInteger { index := cstr (bytes "-ex"), ptr_invalid_json := none } =
        .done (RESULT_JSON_INVALID, m) ∧
      m.ptr_invalid_json.map (error_offset (cstr (bytes "-ex"))) = some 1) ∧
    lint "-ex" = .done (RESULT_JSON_LINT_INVALID, some 2) := by
  refine ⟨⟨{ index := cstr (bytes "ex"), ptr_invalid_json := some (cstr (bytes "ex")) }, ?_, ?_⟩, ?_⟩
  · decide!
  · decide!
  · decide!

/-- C5: `LintJSON` does not run out of fuel, and whenever it returns,
`ptr_invalid_json` is `NULL` exactly when the returned value is
`RESULT_JSON_LINT_SUCCESS`.  The same holds inside: started with `ptr_invalid_json`
at `NULL`, `ProcessValue` at every depth returns `RESULT_JSON_SUCCESS` with nothing
recorded, or `RESULT_JSON_INVALID` with a location recorded, and never
`RESULT_JSON_NOT_FOUND`. -/
theorem C5_verdict_and_location_agree (buf : List Nat) :
    LintJSON buf ≠ .timeout ∧
    (∀ r e, LintJSON buf = .done (r, e) → (e = none ↔ r = RESULT_JSON_LINT_SUCCESS)) ∧
    (∀ fuel p x, ProcessValue fuel { index := p, ptr_invalid_json := none } = .done x →
      (x.1 = RESULT_JSON_SUCCESS ∧ x.2.ptr_invalid_json = none) ∨
      (x.1 = RESULT_JSON_INVALID ∧ x.2.ptr_invalid_json ≠ none)) := by
  have key : ∀ fuel p x,
      ProcessValue fuel { index := p, ptr_invalid_json := none } = .done x →
      (x.1 = RESULT_JSON_SUCCESS ∧ x.2.ptr_invalid_json = none) ∨
      (x.1 = RESULT_JSON_INVALID ∧ x.2.ptr_invalid_json ≠ none) := by
    intro fuel p x h
    obtain ⟨hnf, hs, hi⟩ := (matchers_agree fuel).1 _ _ h
    cases hx : x.1 with
    | RESULT_JSON_SUCCESS => exact Or.inl ⟨rfl, hs hx⟩
    | RESULT_JSON_INVALID => exact Or.inr ⟨rfl, hi hx⟩
    | RESULT_JSON_NOT_FOUND => exact absurd hx hnf
  refine ⟨LintJSON_ne_timeout buf, ?_, key⟩
  intro r e h
  simp only [LintJSON, Run.bind_eq, Run.pure_eq] at h
  rw [Run.bind_eq_done] at h
  obtain ⟨c, -, h⟩ := h
  split at h
  · rw [Run.bind_eq_done] at h
    obtain ⟨p, -, h⟩ := h
    rw [Run.bind_eq_done] at h
    obtain ⟨x, hx, h⟩ := h
    have hk := key _ _ _ hx
    split at h
    · rename_i hs
      rw [Run.bind_eq_done] at h
      obtain ⟨q, -, h⟩ := h
      rw [Run.bind_eq_done] at h
      obtain ⟨n, -, h⟩ := h
      split at h
      · cases h; simp
      · cases h
        rcases hk with ⟨-, h2⟩ | ⟨h1, -⟩
        · simp [h2]
        · rw [hs] at h1; cases h1
    · rename_i hs
      cases h
      rcases hk with ⟨h1, -⟩ | ⟨-, h2⟩
      · exact absurd h1 hs
      · simp [h2]
  · cases h; simp

/-- C5, witness: `false true` is invalid and the location is recorded. -/
theorem C5_verdict_and_location_agree_witness :
    LintJSON (cstr (bytes "false true")) =
        .done (RESULT_JSON_LINT_INVALID, some (cstr (bytes "true"))) ∧
      (some (cstr (bytes "true")) = none ↔
        RESULT_JSON_LINT_INVALID = RESULT_JSON_LINT_SUCCESS) :=
  ⟨by decide!,
    (C5_verdict_and_location_agree (cstr (bytes "false true"))).2.1 _ _ (by decide!)⟩

/-- C6, as the claim has it, fails: on the empty text `LintJSON` does not return
`RESULT_JSON_LINT_SUCCESS`. -/
theorem C6_empty_input_not_success :
    LintJSON (cstr []) ≠ .done (RESULT_JSON_LINT_SUCCESS, none) := by
  decide

/-- C6, amended: on every array whose first byte is the terminator (zero bytes of
text) `LintJSON` returns `RESULT_JSON_LINT_INVALID` and `ptr_invalid_json` points to
the start of the array, offset 0. -/
theorem C6_empty_input_is_invalid (rest : List Nat) :
    LintJSON (0 :: rest) = .done (RESULT_JSON_LINT_INVALID, some (0 :: rest)) ∧
      error_offset (0 :: rest) (0 :: rest) = 0 := by
  constructor
  · simp [LintJSON]
  · simp [error_offset]

/-- C8: on `-5` and on `-120` the run of `ProcessNumber` is undefined after the digit
that follows the minus sign (line 447 steps `index`, not the cursor), and so is the
run of `LintJSON`; no result `RESULT_JSON_SUCCESS` comes out. -/
theorem C8_negative_number_undefined :
    ProcessNumber { index := cstr (bytes "-5"), ptr_invalid_json := none } = .undefined ∧
    lint "-5" = .undefined ∧
    ProcessNumber { index := cstr (bytes "-120"), ptr_invalid_json := none } = .undefined ∧
    lint "-120" = .undefined := by
  refine ⟨?_, ?_, ?_, ?_⟩ <;> decide!

/-- C9: `LintJSON` accepts the object `{"a":1,"b":2}`, and with one space after the
comma, `{"a":1, "b":2}`, it returns `RESULT_JSON_LINT_INVALID` with the error location
at offset 7, the space. -/
theorem C9_space_after_comma_rejected :
    lint "\x7b\"a\":1,\"b\":2\x7d" = .done (RESULT_JSON_LINT_SUCCESS, none) ∧
    lint "\x7b\"a\":1, \"b\":2\x7d" = .done (RESULT_JSON_LINT_INVALID, some 7) := by
  refine ⟨?_, ?_⟩ <;> decide!

/-- C10: on the demo string of `main.c` `LintJSON` returns `RESULT_JSON_LINT_INVALID`
with the error location at offset 32; on `{"a":{"b":{"c":1x`, where the member `"c":1`
is followed by `x`, the run is undefined: after the innermost `ProcessObject` has
recorded offset 16, line 298 moves the cursor on at every level, and the loop
condition of the outermost `ProcessObject` reads the byte after the terminator. -/
theorem C10_nested_member_error_reads_past_end :
    lint "   \x7b\"my test\"   :9.e54,\"me\":null5,\"you\":[true\t,false]\x7d " =
      .done (RESULT_JSON_LINT_INVALID, some 32) ∧
    lint "\x7b\"a\":\x7b\"b\":\x7b\"c\":1x" = .undefined ∧
    lint "\x7b\"a\":\x7b\"b\":1x" = .done (RESULT_JSON_LINT_INVALID, some 11) := by
  refine ⟨?_, ?_, ?_⟩ <;> decide!

/-! ## More fuel changes nothing -/

theorem Run.bind_mono {α β : Type} {x x' : Run α} {g g' : α → Run β}
    (hx : x ≠ .timeout → x' = x)
    (hg : ∀ a, x = .done a → g a ≠ .timeout → g' a = g a)
    (h : x.bind g ≠ .timeout) : x'.bind g' = x.bind g := by
  cases x with
  | done a =>
    rw [hx (by simp)]
    exact hg a rfl h
  | undefined =>
    rw [hx (by simp)]
    rfl
  | timeout => exact absurd rfl h

theorem Run.ite_mono {β : Type} {c : Prop} [Decidable c] {A A' B B' : Run β}
    (hA : c → A ≠ .timeout → A' = A) (hB : ¬c → B ≠ .timeout → B' = B)
    (h : (if c then A else B) ≠ .timeout) :
    (if c then A' else B') = (if c then A else B) := by
  by_cases hc : c
  · simp only [hc, if_true] at h ⊢
    exact hA hc h
  · simp only [hc, if_false] at h ⊢
    exact hB hc h

theorem objectTurn_mono (value value' : Machine → Run (json_result_t × Machine))
    (hv : ∀ m, value m ≠ .timeout → value' m = value m) (m : Machine)
    (h : objectTurn value m ≠ .timeout) : objectTurn value' m = objectTurn value m := by
  simp only [objectTurn, Run.bind_eq, Run.pure_eq] at h ⊢
  refine Run.bind_mono (fun _ => rfl) (fun x1 _ h => ?_) h
  refine Run.ite_mono (fun _ h => ?_) (fun _ _ => rfl) h
  refine Run.bind_mono (fun _ => rfl) (fun p _ h => ?_) h
  refine Run.bind_mono (fun _ => rfl) (fun b _ h => ?_) h
  refine Run.ite_mono (fun _ h => ?_) (fun _ _ => rfl) h
  exact Run.bind_mono (hv _) (fun _ _ _ => rfl) h

theorem arrayTurn_mono (value value' : Machine → Run (json_result_t × Machine))
    (hv : ∀ m, value m ≠ .timeout → value' m = value m) (m : Machine)
    (h : arrayTurn value m ≠ .timeout) : arrayTurn value' m = arrayTurn value m := by
  simp only [arrayTurn, Run.bind_eq, Run.pure_eq] at h ⊢
  exact Run.bind_mono (hv _) (fun _ _ _ => rfl) h

/-- A run that does not run out of fuel is the same with one more unit of fuel. -/
theorem matchers_mono (fuel : Nat) :
    (∀ m, ProcessValue fuel m ≠ .timeout → ProcessValue (fuel + 1) m = ProcessValue fuel m) ∧
    (∀ m, ProcessObject fuel m ≠ .timeout →
      ProcessObject (fuel + 1) m = ProcessObject fuel m) ∧
    (∀ r m, objectLoop fuel r m ≠ .timeout →
      objectLoop (fuel + 1) r m = objectLoop fuel r m) ∧
    (∀ m, ProcessArray fuel m ≠ .timeout →
      ProcessArray (fuel + 1) m = ProcessArray fuel m) ∧
    (∀ r m, arrayLoop fuel r m ≠ .timeout →
      arrayLoop (fuel + 1) r m = arrayLoop fuel r m) := by
  induction fuel with
  | zero =>
    refine ⟨?_, ?_, ?_, ?_, ?_⟩
    · intro m h; exact absurd (by simp [ProcessValue]) h
    · intro m h; exact absurd (by simp [ProcessObject]) h
    · intro r m h; exact absurd (by simp [objectLoop]) h
    · intro m h; exact absurd (by simp [ProcessArray]) h
    · intro r m h; exact absurd (by simp [arrayLoop]) h
  | succ fuel ih =>
    obtain ⟨ihV, ihO, ihOL, ihA, ihAL⟩ := ih
    refine ⟨?_, ?_, ?_, ?_, ?_⟩
    · intro m h
      rw [ProcessValue_succ] at h
      rw [ProcessValue_succ (fuel + 1), ProcessValue_succ fuel]
      refine Run.bind_mono (ihO m) (fun x1 _ h => ?_) h
      refine Run.ite_mono (fun _ _ => rfl) (fun _ h => ?_) h
      exact Run.bind_mono (ihA _) (fun _ _ _ => rfl) h
    · intro m h
      rw [ProcessObject_succ] at h
      rw [ProcessObject_succ (fuel + 1), ProcessObject_succ fuel]
      refine Run.bind_mono (fun _ => rfl) (fun b _ h => ?_) h
      refine Run.ite_mono (fun _ h => ?_) (fun _ _ => rfl) h
      refine Run.bind_mono (fun _ => rfl) (fun p _ h => ?_) h
      exact Run.bind_mono (ihOL _ _) (fun _ _ _ => rfl) h
    · intro r m h
      rw [objectLoop_succ] at h
      rw [objectLoop_succ (fuel + 1), objectLoop_succ fuel]
      refine Run.bind_mono (fun _ => rfl) (fun go _ h => ?_) h
      refine Run.ite_mono (fun _ h => ?_) (fun _ _ => rfl) h
      refine Run.bind_mono (objectTurn_mono _ _ ihV m) (fun x _ h => ?_) h
      exact ihOL _ _ h
    · intro m h
      rw [ProcessArray_succ] at h
      rw [ProcessArray_succ (fuel + 1), ProcessArray_succ fuel]
      refine Run.bind_mono (fun _ => rfl) (fun b _ h => ?_) h
      refine Run.ite_mono (fun _ h => ?_) (fun _ _ => rfl) h
      refine Run.bind_mono (fun _ => rfl) (fun p _ h => ?_) h
      exact Run.bind_mono (ihAL _ _) (fun _ _ _ => rfl) h
    · intro r m h
      rw [arrayLoop_succ] at h
      rw [arrayLoop_succ (fuel + 1), arrayLoop_succ fuel]
      refine Run.bind_mono (fun _ => rfl) (fun go _ h => ?_) h
      refine Run.ite_mono (fun _ h => ?_) (fun _ _ => rfl) h
      refine Run.bind_mono (arrayTurn_mono _ _ ihV m) (fun x _ h => ?_) h
      exact ihAL _ _ h

theorem ProcessValue_mono_le (fuel fuel' : Nat) (m : Machine) (hle : fuel ≤ fuel')
    (h : ProcessValue fuel m ≠ .timeout) : ProcessValue fuel' m = ProcessValue fuel m := by
  induction hle with
  | refl => rfl
  | step hle ih =>
    rw [(matchers_mono _).1 m (by rw [ih]; exact h), ih]

/-- With enough fuel for the bytes that are left, the amount of fuel does not
matter. -/
theorem ProcessValue_fuel_irrelevant (fuel fuel' : Nat) (m : Machine)
    (h1 : 3 * m.index.length + 2 ≤ fuel) (h2 : 3 * m.index.length + 2 ≤ fuel') :
    ProcessValue fuel' m = ProcessValue fuel m := by
  rcases Nat.le_total fuel fuel' with h | h
  · exact ProcessValue_mono_le _ _ m h ((matchers_ne_timeout fuel).1 m h1)
  · exact (ProcessValue_mono_le _ _ m h ((matchers_ne_timeout fuel').1 m h2)).symm

/-! ## The character classes -/

theorem class_bytes :
    STRING_DIGIT_0_9 = [48, 49, 50, 51, 52, 53, 54, 55, 56, 57] ∧
    STRING_DIGIT_1_9 = [49, 50, 51, 52, 53, 54, 55, 56, 57] ∧
    STRING_EXPONENT_DIGITS = [101, 69] ∧
    STRING_ESCAPE_CHARS = [34, 92, 47, 98, 102, 110, 114, 116, 117] ∧
    STRING_HEX_CHARS = [48, 49, 50, 51, 52, 53, 54, 55, 56, 57, 97, 98, 99, 100, 101, 102,
      65, 66, 67, 68, 69, 70] := by decide

theorem strchr_digit_0_9 (c : Nat) :
    strchr STRING_DIGIT_0_9 c = true ↔ c = 0 ∨ Ecma404.isDigit c := by
  rw [class_bytes.1]
  simp only [strchr, Ecma404.isDigit, Bool.or_eq_true, beq_iff_eq, List.contains_eq_any_beq,
    List.any_cons, List.any_nil, Bool.or_false]
  omega

theorem strchr_digit_1_9 (c : Nat) :
    strchr STRING_DIGIT_1_9 c = true ↔ c = 0 ∨ Ecma404.isOneNine c := by
  rw [class_bytes.2.1]
  simp only [strchr, Ecma404.isOneNine, Bool.or_eq_true, beq_iff_eq, List.contains_eq_any_beq,
    List.any_cons, List.any_nil, Bool.or_false]
  omega

theorem strchr_exponent (c : Nat) :
    strchr STRING_EXPONENT_DIGITS c = true ↔ c = 0 ∨ c = 101 ∨ c = 69 := by
  rw [class_bytes.2.2.1]
  simp only [strchr, Bool.or_eq_true, beq_iff_eq, List.contains_eq_any_beq,
    List.any_cons, List.any_nil, Bool.or_false]

theorem strchr_escape (c : Nat) :
    strchr STRING_ESCAPE_CHARS c = true ↔
      c = 0 ∨ c = 34 ∨ c = 92 ∨ c = 47 ∨ c = 98 ∨ c = 102 ∨ c = 110 ∨ c = 114 ∨ c = 116 ∨
        c = 117 := by
  rw [class_bytes.2.2.2.1]
  simp only [strchr, Bool.or_eq_true, beq_iff_eq, List.contains_eq_any_beq,
    List.any_cons, List.any_nil, Bool.or_false]

theorem strchr_hex (c : Nat) :
    strchr STRING_HEX_CHARS c = true ↔ c = 0 ∨ Ecma404.isHex c := by
  rw [class_bytes.2.2.2.2]
  simp only [strchr, Ecma404.isHex, Ecma404.isDigit, Bool.or_eq_true, beq_iff_eq,
    List.contains_eq_any_beq, List.any_cons, List.any_nil, Bool.or_false]
  omega

/-! ## `strlen` and the digit loop in a terminated array -/

theorem strlen_of_mem (p : List Nat) (h : 0 ∈ p) : ∃ n, strlen p = .done n := by
  induction p with
  | nil => cases h
  | cons c t ih =>
    by_cases hc : c = 0
    · exact ⟨0, by simp [strlen, hc]⟩
    · have ht : 0 ∈ t := by
        rcases List.mem_cons.mp h with e | e
        · exact absurd e.symm hc
        · exact e
      obtain ⟨n, hn⟩ := ih ht
      exact ⟨n + 1, by simp [strlen, hc, hn]⟩

theorem strlen_test (c : Nat) (t : List Nat) (h : 0 ∈ c :: t) :
    ((strlen (c :: t)).bind fun n => Run.done (decide (n ≠ 0))) = .done (decide (c ≠ 0)) := by
  by_cases hc : c = 0
  · simp [strlen, hc]
  · have ht : 0 ∈ t := by
      rcases List.mem_cons.mp h with e | e
      · exact absurd e.symm hc
      · exact e
    obtain ⟨n, hn⟩ := strlen_of_mem t ht
    simp [strlen, hc, hn]

/-- The digit loop stops at the byte `c` when `c` is no digit. -/
theorem digitLoop_stop (c : Nat) (t : List Nat) (hc : ¬Ecma404.isDigit c) (h0 : 0 ∈ c :: t) :
    digitLoop (c :: t) = .done (c :: t) := by
  simp only [digitLoop, Run.and, Run.bind_done]
  by_cases hs : strchr STRING_DIGIT_0_9 c = true
  · have hz : c = 0 := by
      rcases (strchr_digit_0_9 c).mp hs with e | e
      · exact e
      · exact absurd e hc
    subst hz
    simp [strlen]
  · simp [hs]

/-- The digit loop steps over digits. -/
theorem digitLoop_digits (d p : List Nat) (hd : ∀ c ∈ d, Ecma404.isDigit c) (h0 : 0 ∈ p) :
    digitLoop (d ++ p) = digitLoop p := by
  induction d with
  | nil => rfl
  | cons c d ih =>
    have hc : Ecma404.isDigit c := hd c (by simp)
    have hs : strchr STRING_DIGIT_0_9 c = true := (strchr_digit_0_9 c).mpr (Or.inr hc)
    have hne : c ≠ 0 := by have := hc.1; omega
    have h1 : 0 ∈ c :: (d ++ p) := by simp [h0]
    have h2 := strlen_test c (d ++ p) h1
    simp only [List.cons_append, digitLoop, Run.and, Run.bind_done, hs, if_true,
      List.append_eq]
    rw [h2]
    simp only [hne, ne_eq, not_false_eq_true, decide_True, Run.bind_done, if_true]
    exact ih (fun x hx => hd x (by simp [hx]))

/-! ## `ProcessNumber` on the numbers of the grammar -/

theorem Delim.head {R : List Nat} (h : Delim R) :
    ∃ c t, R = c :: t ∧ ¬Ecma404.isDigit c ∧ c ≠ 46 ∧ c ≠ 101 ∧ c ≠ 69 ∧ c ≠ 34 ∧
      c ≠ 92 ∧ 0 ∈ c :: t := by
  obtain ⟨⟨c, t, rfl, hc⟩, h0⟩ := h
  refine ⟨c, t, rfl, ?_, ?_, ?_, ?_, ?_, ?_, h0⟩ <;>
    first | (simp only [Ecma404.isDigit]; omega) | omega

theorem digitLoop_run (d R : List Nat) (hd : ∀ c ∈ d, Ecma404.isDigit c) (c : Nat)
    (t : List Nat) (hR : R = c :: t) (hc : ¬Ecma404.isDigit c) (h0 : 0 ∈ R) :
    digitLoop (d ++ R) = .done R := by
  rw [digitLoop_digits d R hd h0, hR]
  exact digitLoop_stop c t hc (hR ▸ h0)

theorem numberExponent_run (e R : List Nat) (he : Ecma404.Exponent e) (hR : Delim R)
    (result : json_result_t) (o : Option (List Nat)) :
    numberExponent result { index := e ++ R, ptr_invalid_json := o } =
      .done (result, { index := R, ptr_invalid_json := o }) := by
  obtain ⟨c, t, rfl, hcd, hc46, hc101, hc69, -, -, h0⟩ := Delim.head hR
  have key : ∀ (E : Nat) (s d : List Nat), (E = 69 ∨ E = 101) → Ecma404.Sign s →
      Ecma404.Digits d →
      numberExponent result { index := E :: (s ++ d) ++ c :: t, ptr_invalid_json := o } =
        .done (result, { index := c :: t, ptr_invalid_json := o }) := by
    intro E s d hE hs hd
    obtain ⟨x, d', rfl, hx, hd'⟩ := Ecma404.Digits_cons hd
    have hEs : strchr STRING_EXPONENT_DIGITS E = true :=
      (strchr_exponent E).mpr (by omega)
    have hE0 : E ≠ 0 := by omega
    have hmem : 0 ∈ E :: ((s ++ x :: d') ++ c :: t) := by simp [h0]
    have hlen := strlen_test E ((s ++ x :: d') ++ c :: t) hmem
    have hxs : strchr STRING_DIGIT_0_9 x = true := (strchr_digit_0_9 x).mpr (Or.inr hx)
    have hx43 : x ≠ 43 := by have := hx.1; omega
    have hx45 : x ≠ 45 := by have := hx.1; omega
    have hrun : digitLoop (d' ++ c :: t) = .done (c :: t) :=
      digitLoop_run d' (c :: t) hd' c t rfl hcd h0
    have hrun2 : digitLoop (x :: (d' ++ c :: t)) = .done (c :: t) :=
      digitLoop_run (x :: d') (c :: t) (fun y hy => by
        rcases List.mem_cons.mp hy with rfl | hy
        · exact hx
        · exact hd' y hy) c t rfl hcd h0
    simp only [numberExponent, Run.bind_eq, Run.pure_eq, List.cons_append, peek_cons,
      Run.bind_done, hEs, Run.and, if_true, List.drop_succ_cons, List.drop_zero]
    rw [hlen]
    simp only [hE0, ne_eq, not_false_eq_true, decide_True, Run.bind_done, if_true]
    cases hs with
    | none =>
      simp only [List.nil_append, List.cons_append, lit_bytes.2.2.2.2.2.2.2.2.1,
        lit_bytes.2.2.2.2.2.2.2.2.2.1, strncmp0_cons_one, Run.or, Run.bind_done, hx43, hx45,
        decide_False, peek_cons, hxs, if_true, List.drop_succ_cons, List.drop_zero, hrun,
        Bool.false_eq_true, if_false]
    | plus =>
      simp only [List.cons_append, List.nil_append, lit_bytes.2.2.2.2.2.2.2.2.1,
        strncmp0_cons_one, Run.or, Run.bind_done, decide_True, if_true,
        List.drop_succ_cons, List.drop_zero]
      rw [hrun2]
      rfl
    | minus =>
      simp only [List.cons_append, List.nil_append, lit_bytes.2.2.2.2.2.2.2.2.1,
        lit_bytes.2.2.2.2.2.2.2.2.2.1, strncmp0_cons_one, Run.or, Run.bind_done,
        decide_True, if_true, List.drop_succ_cons, List.drop_zero,
        show decide (45 = 43) = false from rfl, Bool.false_eq_true, if_false]
      rw [hrun2]
      rfl
  cases he with
  | none =>
    simp only [numberExponent, Run.bind_eq, Run.pure_eq, List.nil_append, peek_cons,
      Run.bind_done, Run.and]
    by_cases hz : c = 0
    · subst hz
      simp [strlen, strchr]
    · have hs : strchr STRING_EXPONENT_DIGITS c = false := by
        rw [Bool.eq_false_iff]
        intro h
        have := (strchr_exponent c).mp h
        omega
      simp [hs]
  | upper s d hs hd => exact key 69 s d (Or.inl rfl) hs hd
  | lower s d hs hd => exact key 101 s d (Or.inr rfl) hs hd

theorem numberFraction_run (f : List Nat) (hf : Ecma404.Fraction f) (c : Nat) (t : List Nat)
    (hc : ¬Ecma404.isDigit c) (hc46 : c ≠ 46) (h0 : 0 ∈ c :: t) (o : Option (List Nat)) :
    numberFraction { index := f ++ c :: t, ptr_invalid_json := o } =
      .done { index := c :: t, ptr_invalid_json := o } := by
  cases hf with
  | none =>
    simp only [numberFraction, Run.bind_eq, Run.pure_eq, List.nil_append,
      lit_bytes.2.2.2.2.2.2.2.2.2.2.1, strncmp0_cons_one, Run.bind_done, hc46, decide_False,
      Bool.false_eq_true, if_false]
  | some d hd =>
    have hrun : digitLoop (d ++ c :: t) = .done (c :: t) :=
      digitLoop_run d (c :: t) hd.2 c t rfl hc h0
    simp only [numberFraction, Run.bind_eq, Run.pure_eq, List.cons_append,
      lit_bytes.2.2.2.2.2.2.2.2.2.2.1, strncmp0_cons_one, Run.bind_done, decide_True, if_true,
      List.drop_succ_cons, List.drop_zero, hrun]

/-- The sign and the integer part: they are matched up to the byte that follows them,
except for a minus sign followed by a digit `1`-`9`, where the run is undefined. -/
theorem numberInteger_run (i : List Nat) (hi : Ecma404.Integer i) :
    (∀ (c : Nat) (t : List Nat) (o : Option (List Nat)), ¬Ecma404.isDigit c → 0 ∈ c :: t →
      numberInteger { index := i ++ c :: t, ptr_invalid_json := o } =
        .done (RESULT_JSON_SUCCESS, { index := c :: t, ptr_invalid_json := o })) ∨
    (∀ (c : Nat) (t : List Nat) (o : Option (List Nat)), ¬Ecma404.isDigit c → 0 ∈ c :: t →
      numberInteger { index := i ++ c :: t, ptr_invalid_json := o } = .undefined) := by
  cases hi with
  | digit x hx =>
    left
    intro c t o hc h0
    have hx45 : x ≠ 45 := by have h1 := hx.1; have h2 := hx.2; omega
    by_cases h19 : Ecma404.isOneNine x
    · have hs : strchr STRING_DIGIT_1_9 x = true := (strchr_digit_1_9 x).mpr (Or.inr h19)
      simp only [numberInteger, Run.bind_eq, Run.pure_eq, List.cons_append, List.nil_append,
        lit_bytes.2.2.2.2.2.2.2.2.2.1, strncmp0_cons_one, Run.bind_done, hx45, decide_False,
        Bool.false_eq_true, if_false, peek_cons, hs, if_true, List.drop_succ_cons,
        List.drop_zero, digitLoop_stop c t hc h0]
    · have hs : strchr STRING_DIGIT_1_9 x = false := by
        rw [Bool.eq_false_iff]
        intro h
        rcases (strchr_digit_1_9 x).mp h with e | e
        · have := hx.1; omega
        · exact h19 e
      simp only [numberInteger, Run.bind_eq, Run.pure_eq, List.cons_append, List.nil_append,
        lit_bytes.2.2.2.2.2.2.2.2.2.1, strncmp0_cons_one, Run.bind_done, hx45, decide_False,
        Bool.false_eq_true, if_false, peek_cons, hs, List.drop_succ_cons, List.drop_zero]
  | onenine x d hx hd =>
    left
    intro c t o hc h0
    have hx45 : x ≠ 45 := by have h1 := hx.1; have h2 := hx.2; omega
    have hs : strchr STRING_DIGIT_1_9 x = true := (strchr_digit_1_9 x).mpr (Or.inr hx)
    simp only [numberInteger, Run.bind_eq, Run.pure_eq, List.cons_append,
      lit_bytes.2.2.2.2.2.2.2.2.2.1, strncmp0_cons_one, Run.bind_done, hx45, decide_False,
      Bool.false_eq_true, if_false, peek_cons, hs, if_true, List.drop_succ_cons,
      List.drop_zero, digitLoop_run d (c :: t) hd.2 c t rfl hc h0]
  | neg_digit x hx =>
    by_cases h19 : Ecma404.isOneNine x
    · right
      intro c t o hc h0
      have hs : strchr STRING_DIGIT_1_9 x = true := (strchr_digit_1_9 x).mpr (Or.inr h19)
      simp only [numberInteger, Run.bind_eq, Run.pure_eq, List.cons_append, List.nil_append,
        lit_bytes.2.2.2.2.2.2.2.2.2.1, strncmp0_cons_one, Run.bind_done, decide_True,
        if_true, List.drop_succ_cons, List.drop_zero, peek_cons, hs]
    · left
      intro c t o hc h0
      have hx0 : x = 48 := by
        have h1 := hx.1
        have h2 := hx.2
        simp only [Ecma404.isOneNine] at h19
        omega
      subst hx0
      have hs : strchr STRING_DIGIT_1_9 48 = false := by decide
      simp only [numberInteger, Run.bind_eq, Run.pure_eq, List.cons_append, List.nil_append,
        lit_bytes.2.2.2.2.2.2.2.2.2.1, lit_bytes.2.2.2.2.2.2.2.2.2.2.2.1, strncmp0_cons_one,
        Run.bind_done, decide_True, if_true, List.drop_succ_cons, List.drop_zero, peek_cons,
        hs, Bool.false_eq_true, if_false]
  | neg_onenine x d hx hd =>
    right
    intro c t o hc h0
    have hs : strchr STRING_DIGIT_1_9 x = true := (strchr_digit_1_9 x).mpr (Or.inr hx)
    simp only [numberInteger, Run.bind_eq, Run.pure_eq, List.cons_append,
      lit_bytes.2.2.2.2.2.2.2.2.2.1, strncmp0_cons_one, Run.bind_done, decide_True,
      if_true, List.drop_succ_cons, List.drop_zero, peek_cons, hs]

theorem Ecma404.Exponent_head (e : List Nat) (he : Ecma404.Exponent e) (c : Nat)
    (t : List Nat) (hc : ¬Ecma404.isDigit c) (hc46 : c ≠ 46) :
    ∃ c' t', e ++ c :: t = c' :: t' ∧ ¬Ecma404.isDigit c' ∧ c' ≠ 46 := by
  cases he with
  | none => exact ⟨c, t, rfl, hc, hc46⟩
  | upper s d hs hd =>
    exact ⟨69, _, rfl, by simp only [Ecma404.isDigit]; omega, by omega⟩
  | lower s d hs hd =>
    exact ⟨101, _, rfl, by simp only [Ecma404.isDigit]; omega, by omega⟩

theorem Ecma404.Fraction_head (f : List Nat) (hf : Ecma404.Fraction f) (c : Nat)
    (t : List Nat) (hc : ¬Ecma404.isDigit c) :
    ∃ c' t', f ++ c :: t = c' :: t' ∧ ¬Ecma404.isDigit c' := by
  cases hf with
  | none => exact ⟨c, t, rfl, hc⟩
  | some d hd => exact ⟨46, _, rfl, by simp only [Ecma404.isDigit]; omega⟩

/-- `ProcessNumber` on a number of the grammar that is followed by a delimiter: it
matches the number up to the delimiter, except for a minus sign followed by a digit
`1`-`9`, where the run is undefined. -/
theorem ProcessNumber_run (n : List Nat) (hn : Ecma404.Number n) :
    (∀ (R : List Nat) (o : Option (List Nat)), Delim R →
      ProcessNumber { index := n ++ R, ptr_invalid_json := o } =
        .done (RESULT_JSON_SUCCESS, { index := R, ptr_invalid_json := o })) ∨
    (∀ (R : List Nat) (o : Option (List Nat)), Delim R →
      ProcessNumber { index := n ++ R, ptr_invalid_json := o } = .undefined) := by
  cases hn with
  | mk i f e hi hf he =>
    obtain ⟨x, ti, hxi, hx⟩ := Ecma404.Integer_head hi
    have hlead : ∀ (T : List Nat),
        ((strncmp0 (i ++ T) STRING_SIGN_NEG).or ((strncmp0 (i ++ T) STRING_0).or
          ((peek (i ++ T)).bind fun c => Run.done (strchr STRING_DIGIT_1_9 c)))) =
          .done true := by
      intro T
      rw [hxi]
      simp only [List.cons_append, lit_bytes.2.2.2.2.2.2.2.2.2.1,
        lit_bytes.2.2.2.2.2.2.2.2.2.2.2.1, strncmp0_cons_one, Run.or, Run.bind_done,
        peek_cons]
      rcases hx with rfl | hx
      · simp
      · by_cases h0 : x = 48
        · subst h0; simp
        · have h19 : Ecma404.isOneNine x := ⟨by have := hx.1; omega, hx.2⟩
          have hs := (strchr_digit_1_9 x).mpr (Or.inr h19)
          have hx45 : x ≠ 45 := by have h1 := hx.1; have h2 := hx.2; omega
          simp [hs, hx45, h0]
    have htail : ∀ R, Delim R → ∃ c t c' t', e ++ R = c :: t ∧ ¬Ecma404.isDigit c ∧ c ≠ 46 ∧
        0 ∈ c :: t ∧ f ++ c :: t = c' :: t' ∧ ¬Ecma404.isDigit c' ∧ 0 ∈ c' :: t' := by
      intro R hR
      obtain ⟨r, tr, rfl, hrd, hr46, -, -, -, -, h0⟩ := Delim.head hR
      obtain ⟨c, t, h1, h2, h3⟩ := Ecma404.Exponent_head e he r tr hrd hr46
      obtain ⟨c', t', h4, h5⟩ := Ecma404.Fraction_head f hf c t h2
      have h6 : 0 ∈ c :: t := by rw [← h1]; simp [h0]
      have h7 : 0 ∈ c' :: t' := by rw [← h4]; simp [h6]
      exact ⟨c, t, c', t', h1, h2, h3, h6, h4, h5, h7⟩
    rcases numberInteger_run i hi with hgood | hbad
    · left
      intro R o hR
      obtain ⟨c, t, c', t', h1, h2, h3, h6, h4, h5, h7⟩ := htail R hR
      have e1 : i ++ f ++ e ++ R = i ++ c' :: t' := by
        rw [List.append_assoc, List.append_assoc, h1, h4]
      have e2 := hgood c' t' o h5 h7
      have e3 := numberFraction_run f hf c t h2 h3 h6 o
      rw [h4] at e3
      have e4 := numberExponent_run e R he hR RESULT_JSON_SUCCESS o
      rw [h1] at e4
      have e5 := hlead (c' :: t')
      simp only [ProcessNumber, Run.bind_eq, Run.pure_eq, e1, e5, Run.bind_done, if_true, e2,
        e3, e4]
    · right
      intro R o hR
      obtain ⟨c, t, c', t', h1, h2, h3, h6, h4, h5, h7⟩ := htail R hR
      have e1 : i ++ f ++ e ++ R = i ++ c' :: t' := by
        rw [List.append_assoc, List.append_assoc, h1, h4]
      have e2 := hbad c' t' o h5 h7
      have e5 := hlead (c' :: t')
      simp only [ProcessNumber, Run.bind_eq, Run.pure_eq, e1, e5, Run.bind_done, if_true, e2,
        Run.bind_undefined]

/-! ## `ProcessString` on the strings of the grammar -/

theorem hexWindow_hex (a b c d : Nat) (t : List Nat) (ha : Ecma404.isHex a)
    (hb : Ecma404.isHex b) (hc : Ecma404.isHex c) (hd : Ecma404.isHex d) :
    hexWindow (a :: b :: c :: d :: t) = .done true := by
  have h1 := (strchr_hex a).mpr (Or.inr ha)
  have h2 := (strchr_hex b).mpr (Or.inr hb)
  have h3 := (strchr_hex c).mpr (Or.inr hc)
  have h4 := (strchr_hex d).mpr (Or.inr hd)
  simp [hexWindow, peekAt, h1, h2, h3, h4]

theorem stringLoop_run (cs : List Nat) (hcs : Ecma404.Characters cs) :
    ∀ (fuel : Nat) (rest : List Nat) (o : Option (List Nat)), cs.length < fuel →
      stringLoop fuel { index := cs ++ 34 :: rest, ptr_invalid_json := o } =
        .done (RESULT_JSON_SUCCESS, { index := 34 :: rest, ptr_invalid_json := o }) := by
  induction hcs with
  | nil =>
    intro fuel rest o hf
    obtain ⟨f, rfl⟩ : ∃ f, fuel = f + 1 := ⟨fuel - 1, by omega⟩
    rw [stringLoop_succ]
    simp [lit_bytes.2.2.2.2.2.1]
  | cons c cs hc hcs ih =>
    intro fuel rest o hf
    obtain ⟨f, rfl⟩ : ∃ f, fuel = f + 1 := ⟨fuel - 1, by omega⟩
    rw [stringLoop_succ]
    cases hc with
    | plain x h20 h34 h92 =>
      have hf' : cs.length < f := by simp at hf; omega
      simp only [List.cons_append, List.nil_append, lit_bytes.2.2.2.2.2.1, strncmp0_cons_one,
        Run.bind_done, h34, decide_False, Bool.false_eq_true, if_false, peek_cons, h92,
        List.drop_succ_cons, List.drop_zero]
      exact ih f rest o hf'
    | escape x hx =>
      have hf' : cs.length < f := by simp at hf; omega
      have hs : strchr STRING_ESCAPE_CHARS x = true := by
        rw [strchr_escape]
        simp only [List.mem_cons, List.mem_singleton, List.not_mem_nil, or_false] at hx
        omega
      have hu : x ≠ 117 := by
        simp only [List.mem_cons, List.mem_singleton, List.not_mem_nil, or_false] at hx
        omega
      simp only [List.cons_append, List.nil_append, lit_bytes.2.2.2.2.2.1, strncmp0_cons_one,
        Run.bind_done, show decide (92 = 34) = false from rfl, Bool.false_eq_true, if_false,
        peek_cons, if_true, List.drop_succ_cons, List.drop_zero, hs, hu]
      exact ih f rest o hf'
    | unicode a b c d ha hb hc hd =>
      have hf' : cs.length < f := by simp at hf; omega
      have hs : strchr STRING_ESCAPE_CHARS 117 = true := by decide
      simp only [List.cons_append, List.nil_append, lit_bytes.2.2.2.2.2.1, strncmp0_cons_one,
        Run.bind_done, show decide (92 = 34) = false from rfl, Bool.false_eq_true, if_false,
        peek_cons, if_true, List.drop_succ_cons, List.drop_zero, hs,
        hexWindow_hex a b c d _ ha hb hc hd]
      exact ih f rest o hf'

/-- `ProcessString` matches a string of the grammar, whatever follows it. -/
theorem ProcessString_run (s : List Nat) (hs : Ecma404.Str s) (R : List Nat)
    (o : Option (List Nat)) :
    ProcessString { index := s ++ R, ptr_invalid_json := o } =
      .done (RESULT_JSON_SUCCESS, { index := R, ptr_invalid_json := o }) := by
  cases hs with
  | mk cs hcs =>
    have h := stringLoop_run cs hcs ((cs ++ 34 :: R).length + 1) R o (by simp; omega)
    simp only [ProcessString, Run.bind_eq, Run.pure_eq, List.cons_append, List.append_assoc,
      lit_bytes.2.2.1, strncmp0_cons_one, Run.bind_done, decide_True, if_true,
      List.drop_succ_cons, List.drop_zero, List.singleton_append, List.nil_append, h]

/-! ## Steps of the matchers on known bytes -/

theorem ProcessValue_succ_leaves (fuel : Nat) (m : Machine) :
    ProcessValue (fuel + 1) m =
      (ProcessObject fuel m).bind fun x =>
        if x.1 ≠ RESULT_JSON_NOT_FOUND then .done x else
        (ProcessArray fuel x.2).bind fun x =>
          if x.1 ≠ RESULT_JSON_NOT_FOUND then .done x else valueLeaves x.2 := by
  rw [ProcessValue_succ]
  rfl

theorem ProcessObject_other (fuel c : Nat) (t : List Nat) (o : Option (List Nat))
    (hc : c ≠ 123) :
    ProcessObject (fuel + 1) { index := c :: t, ptr_invalid_json := o } =
      .done (RESULT_JSON_NOT_FOUND, { index := c :: t, ptr_invalid_json := o }) := by
  rw [ProcessObject_succ]
  simp [lit_bytes.1, hc]

theorem ProcessArray_other (fuel c : Nat) (t : List Nat) (o : Option (List Nat))
    (hc : c ≠ 91) :
    ProcessArray (fuel + 1) { index := c :: t, ptr_invalid_json := o } =
      .done (RESULT_JSON_NOT_FOUND, { index := c :: t, ptr_invalid_json := o }) := by
  rw [ProcessArray_succ]
  simp [lit_bytes.2.1, hc]

/-- With a lead byte other than `{` and `[`, `ProcessValue` goes on to the string,
the number and the literal names. -/
theorem ProcessValue_leaves (fuel c : Nat) (t : List Nat) (o : Option (List Nat))
    (h1 : c ≠ 123) (h2 : c ≠ 91) :
    ProcessValue (fuel + 2) { index := c :: t, ptr_invalid_json := o } =
      valueLeaves { index := c :: t, ptr_invalid_json := o } := by
  rw [ProcessValue_succ_leaves, ProcessObject_other _ _ _ _ h1]
  simp only [Run.bind_done, ne_eq, not_true_eq_false, if_false]
  rw [ProcessArray_other _ _ _ _ h2]
  simp only [Run.bind_done, ne_eq, not_true_eq_false, if_false]

theorem ProcessValue_one (m : Machine) : ProcessValue 1 m = .timeout := by
  rw [ProcessValue_succ]
  simp [ProcessObject]

theorem ProcessWhitespace_stop (c : Nat) (t : List Nat)
    (hc : ¬(c = 0x09 ∨ c = 0x0A ∨ c = 0x0D ∨ c = 0x20)) :
    ProcessWhitespace (c :: t) = .done (c :: t) := by
  simp only [ProcessWhitespace, CHAR_SPACE, CHAR_LINEFEED, CHAR_CARRIAGE_RETURN,
    CHAR_HORIZONTAL_TAB]
  rw [if_neg (by omega)]

theorem ProcessWhitespace_skip (w : List Nat) (hw : Ecma404.Ws w) (p : List Nat) :
    ProcessWhitespace (w ++ p) = ProcessWhitespace p := by
  induction w with
  | nil => rfl
  | cons c w ih =>
    have hc := hw c (by simp)
    simp only [List.cons_append, ProcessWhitespace, CHAR_SPACE, CHAR_LINEFEED,
      CHAR_CARRIAGE_RETURN, CHAR_HORIZONTAL_TAB]
    rw [if_pos (by omega)]
    exact ih (fun x hx => hw x (by simp [hx]))

theorem ProcessWhitespace_run (w : List Nat) (hw : Ecma404.Ws w) (c : Nat) (t : List Nat)
    (hc : ¬(c = 0x09 ∨ c = 0x0A ∨ c = 0x0D ∨ c = 0x20)) :
    ProcessWhitespace (w ++ c :: t) = .done (c :: t) := by
  rw [ProcessWhitespace_skip w hw, ProcessWhitespace_stop c t hc]

theorem LeadByte.not_ws {c : Nat} (h : LeadByte c) :
    ¬(c = 0x09 ∨ c = 0x0A ∨ c = 0x0D ∨ c = 0x20) ∧ c ≠ 93 ∧ c ≠ 125 ∧ c ≠ 44 ∧ c ≠ 0 ∧
      c ≠ 58 := by
  simp only [LeadByte, Ecma404.isDigit] at h
  omega

theorem loopGoesOn_cons (d : Nat) (result : json_result_t) (c : Nat) (t : List Nat)
    (o : Option (List Nat)) :
    loopGoesOn [d] result { index := c :: t, ptr_invalid_json := o } =
      .done (!decide (c = d) && decide (result = RESULT_JSON_SUCCESS)) := by
  by_cases h : c = d <;> simp [loopGoesOn, Run.and, h]

/-! ## Runs that do not end with `RESULT_JSON_SUCCESS` -/

theorem Fails.bind {α : Type} {x : Run α} {g : α → Run (json_result_t × Machine)}
    (h : ∀ a, x = .done a → Fails (g a)) : Fails (x.bind g) := by
  intro m hm
  rw [Run.bind_eq_done] at hm
  obtain ⟨a, ha, hg⟩ := hm
  exact h a ha m hg

theorem Fails.timeout : Fails .timeout := by
  intro m h; cases h

theorem Fails.undefined : Fails .undefined := by
  intro m h; cases h

theorem Fails.done {r : json_result_t} {m : Machine} (h : r ≠ RESULT_JSON_SUCCESS) :
    Fails (.done (r, m)) := by
  intro m' hm
  cases hm
  exact h rfl

theorem arrayLoop_stopped (fuel : Nat) (r : json_result_t) (m : Machine)
    (h : r ≠ RESULT_JSON_SUCCESS) : Fails (arrayLoop fuel r m) := by
  cases fuel with
  | zero => simp only [arrayLoop]; exact Fails.timeout
  | succ fuel =>
    rw [arrayLoop_succ]
    apply Fails.bind
    intro go hgo
    obtain ⟨e, -, rfl⟩ := loopGoesOn_eq_done hgo
    simp only [h, decide_False, Bool.and_false, Bool.false_eq_true, if_false]
    exact Fails.done h

theorem objectLoop_stopped (fuel : Nat) (r : json_result_t) (m : Machine)
    (h : r ≠ RESULT_JSON_SUCCESS) : Fails (objectLoop fuel r m) := by
  cases fuel with
  | zero => simp only [objectLoop]; exact Fails.timeout
  | succ fuel =>
    rw [objectLoop_succ]
    apply Fails.bind
    intro go hgo
    obtain ⟨e, -, rfl⟩ := loopGoesOn_eq_done hgo
    simp only [h, decide_False, Bool.and_false, Bool.false_eq_true, if_false]
    exact Fails.done h

/-- A turn of the array loop whose value is not matched ends the loop without
`RESULT_JSON_SUCCESS`. -/
theorem arrayTurn_fails (value : Machine → Run (json_result_t × Machine)) (m : Machine)
    (fuel : Nat) (h : Fails (value m)) :
    Fails ((arrayTurn value m).bind fun x => arrayLoop fuel x.1 x.2) := by
  apply Fails.bind
  intro x hx
  simp only [arrayTurn, Run.bind_eq, Run.pure_eq] at hx
  rw [Run.bind_eq_done] at hx
  obtain ⟨⟨r, m1⟩, h1, hx⟩ := hx
  have hr : r ≠ RESULT_JSON_SUCCESS := fun e => h m1 (e ▸ h1)
  simp only [hr, if_false] at hx
  cases hx
  exact arrayLoop_stopped _ _ _ hr

theorem arrayLoop_stop (fuel : Nat) (R : List Nat) (o : Option (List Nat)) :
    arrayLoop (fuel + 1) RESULT_JSON_SUCCESS { index := 93 :: R, ptr_invalid_json := o } =
      .done (RESULT_JSON_SUCCESS, { index := 93 :: R, ptr_invalid_json := o }) := by
  rw [arrayLoop_succ, lit_bytes.2.2.2.2.1, loopGoesOn_cons]
  simp

theorem arrayLoop_step (fuel c : Nat) (t : List Nat) (o : Option (List Nat)) (hc : c ≠ 93) :
    arrayLoop (fuel + 1) RESULT_JSON_SUCCESS { index := c :: t, ptr_invalid_json := o } =
      (arrayTurn (ProcessValue fuel) { index := c :: t, ptr_invalid_json := o }).bind
        fun x => arrayLoop fuel x.1 x.2 := by
  rw [arrayLoop_succ, lit_bytes.2.2.2.2.1, loopGoesOn_cons]
  simp [hc]

theorem objectLoop_stop (fuel : Nat) (R : List Nat) (o : Option (List Nat)) :
    objectLoop (fuel + 1) RESULT_JSON_SUCCESS { index := 125 :: R, ptr_invalid_json := o } =
      .done (RESULT_JSON_SUCCESS, { index := 125 :: R, ptr_invalid_json := o }) := by
  rw [objectLoop_succ, lit_bytes.2.2.2.1, loopGoesOn_cons]
  simp

theorem objectLoop_step (fuel c : Nat) (t : List Nat) (o : Option (List Nat))
    (hc : c ≠ 125) :
    objectLoop (fuel + 1) RESULT_JSON_SUCCESS { index := c :: t, ptr_invalid_json := o } =
      (objectTurn (ProcessValue fuel) { index := c :: t, ptr_invalid_json := o }).bind
        fun x => objectLoop fuel x.1 x.2 := by
  rw [objectLoop_succ, lit_bytes.2.2.2.1, loopGoesOn_cons]
  simp [hc]

/-- The last turn of the array loop: the value, whitespace, the closing bracket. -/
theorem arrayTurn_last (value : Machine → Run (json_result_t × Machine)) (m : Machine)
    (w2 R : List Nat) (o : Option (List Nat)) (hw2 : Ecma404.Ws w2)
    (hv : value m = .done (RESULT_JSON_SUCCESS,
      { index := w2 ++ 93 :: R, ptr_invalid_json := o })) :
    arrayTurn value m =
      .done (RESULT_JSON_SUCCESS, { index := 93 :: R, ptr_invalid_json := o }) := by
  simp only [arrayTurn, Run.bind_eq, Run.pure_eq, hv, Run.bind_done, if_true,
    ProcessWhitespace_run w2 hw2 93 R (by omega), lit_bytes.2.2.2.2.2.2.2.1,
    lit_bytes.2.2.2.2.1, strncmp0_cons_one, show decide (93 = 44) = false from rfl,
    Bool.false_eq_true, if_false, decide_True]

/-- A turn of the array loop that is followed by another one: the value, whitespace,
a comma, whitespace, the lead byte of the next value. -/
theorem arrayTurn_next (value : Machine → Run (json_result_t × Machine)) (m : Machine)
    (w2 w3 t : List Nat) (c : Nat) (o : Option (List Nat)) (hw2 : Ecma404.Ws w2)
    (hw3 : Ecma404.Ws w3) (hc : ¬(c = 0x09 ∨ c = 0x0A ∨ c = 0x0D ∨ c = 0x20))
    (hv : value m = .done (RESULT_JSON_SUCCESS,
      { index := w2 ++ 44 :: (w3 ++ c :: t), ptr_invalid_json := o })) :
    arrayTurn value m =
      .done (RESULT_JSON_SUCCESS, { index := c :: t, ptr_invalid_json := o }) := by
  simp only [arrayTurn, Run.bind_eq, Run.pure_eq, hv, Run.bind_done, if_true,
    ProcessWhitespace_run w2 hw2 44 _ (by omega), lit_bytes.2.2.2.2.2.2.2.1,
    strncmp0_cons_one, decide_True, List.drop_succ_cons, List.drop_zero,
    ProcessWhitespace_run w3 hw3 c t hc]

/-- The turn of the object loop up to the value: the name, whitespace, the colon. -/
theorem objectTurn_name (value : Machine → Run (json_result_t × Machine))
    (s w2 p : List Nat) (o : Option (List Nat)) (hs : Ecma404.Str s) (hw2 : Ecma404.Ws w2) :
    objectTurn value { index := s ++ (w2 ++ 58 :: p), ptr_invalid_json := o } =
      (value { index := p, ptr_invalid_json := o }).bind fun x =>
        if x.1 = RESULT_JSON_SUCCESS then
          (strncmp0 x.2.index STRING_COMMA).bind fun b =>
            if b then .done (x.1, { x.2 with index := x.2.index.drop 1 })
            else (strncmp0 x.2.index STRING_OBJECT_STOP).bind fun b =>
              if b then .done (x.1, x.2)
              else .done (RESULT_JSON_INVALID,
                { x.2 with ptr_invalid_json := some x.2.index })
        else .done (x.1, x.2) := by
  simp only [objectTurn, Run.bind_eq, Run.pure_eq, ProcessString_run s hs, Run.bind_done,
    if_true, ProcessWhitespace_run w2 hw2 58 p (by omega), lit_bytes.2.2.2.2.2.2.1,
    strncmp0_cons_one, decide_True, List.drop_succ_cons, List.drop_zero]

/-- A turn of the object loop whose value is not matched ends the loop without
`RESULT_JSON_SUCCESS`. -/
theorem objectTurn_fails (value : Machine → Run (json_result_t × Machine))
    (s w2 p : List Nat) (o : Option (List Nat)) (hs : Ecma404.Str s) (hw2 : Ecma404.Ws w2)
    (fuel : Nat) (h : Fails (value { index := p, ptr_invalid_json := o })) :
    Fails ((objectTurn value { index := s ++ (w2 ++ 58 :: p), ptr_invalid_json := o }).bind
      fun x => objectLoop fuel x.1 x.2) := by
  rw [objectTurn_name value s w2 p o hs hw2]
  apply Fails.bind
  intro x hx
  rw [Run.bind_eq_done] at hx
  obtain ⟨⟨r, m1⟩, h1, hx⟩ := hx
  have hr : r ≠ RESULT_JSON_SUCCESS := fun e => h m1 (e ▸ h1)
  simp only [hr, if_false] at hx
  cases hx
  exact objectLoop_stopped _ _ _ hr

/-- The last turn of the object loop: name, colon, value, closing brace. -/
theorem objectTurn_last (value : Machine → Run (json_result_t × Machine))
    (s w2 p R : List Nat) (o : Option (List Nat)) (hs : Ecma404.Str s)
    (hw2 : Ecma404.Ws w2)
    (hv : value { index := p, ptr_invalid_json := o } = .done (RESULT_JSON_SUCCESS,
      { index := 125 :: R, ptr_invalid_json := o })) :
    objectTurn value { index := s ++ (w2 ++ 58 :: p), ptr_invalid_json := o } =
      .done (RESULT_JSON_SUCCESS, { index := 125 :: R, ptr_invalid_json := o }) := by
  rw [objectTurn_name value s w2 p o hs hw2, hv]
  simp [lit_bytes.2.2.2.2.2.2.2.1, lit_bytes.2.2.2.1]

/-- A turn of the object loop that is followed by another one: name, colon, value,
comma. -/
theorem objectTurn_next (value : Machine → Run (json_result_t × Machine))
    (s w2 p R : List Nat) (o : Option (List Nat)) (hs : Ecma404.Str s)
    (hw2 : Ecma404.Ws w2)
    (hv : value { index := p, ptr_invalid_json := o } = .done (RESULT_JSON_SUCCESS,
      { index := 44 :: R, ptr_invalid_json := o })) :
    objectTurn value { index := s ++ (w2 ++ 58 :: p), ptr_invalid_json := o } =
      .done (RESULT_JSON_SUCCESS, { index := R, ptr_invalid_json := o }) := by
  rw [objectTurn_name value s w2 p o hs hw2, hv]
  simp [lit_bytes.2.2.2.2.2.2.2.1]

/-- Whitespace between a matched value and the comma or the closing brace ends the
object loop without `RESULT_JSON_SUCCESS`. -/
theorem objectTurn_space (value : Machine → Run (json_result_t × Machine))
    (s w2 p t : List Nat) (c : Nat) (o : Option (List Nat)) (hs : Ecma404.Str s)
    (hw2 : Ecma404.Ws w2) (fuel : Nat) (hc : c = 0x09 ∨ c = 0x0A ∨ c = 0x0D ∨ c = 0x20)
    (hv : value { index := p, ptr_invalid_json := o } = .done (RESULT_JSON_SUCCESS,
      { index := c :: t, ptr_invalid_json := o })) :
    Fails ((objectTurn value { index := s ++ (w2 ++ 58 :: p), ptr_invalid_json := o }).bind
      fun x => objectLoop fuel x.1 x.2) := by
  rw [objectTurn_name value s w2 p o hs hw2, hv]
  have h1 : c ≠ 44 := by omega
  have h2 : c ≠ 125 := by omega
  simp only [Run.bind_done, if_true, lit_bytes.2.2.2.2.2.2.2.1, lit_bytes.2.2.2.1,
    strncmp0_cons_one, h1, h2, decide_False, Bool.false_eq_true, if_false]
  exact objectLoop_stopped _ _ _ (by simp)

theorem ProcessString_other (c : Nat) (t : List Nat) (o : Option (List Nat)) (hc : c ≠ 34) :
    ProcessString { index := c :: t, ptr_invalid_json := o } =
      .done (RESULT_JSON_NOT_FOUND, { index := c :: t, ptr_invalid_json := o }) := by
  simp only [ProcessString, Run.bind_eq, Run.pure_eq, lit_bytes.2.2.1, strncmp0_cons_one, hc,
    decide_False, Run.bind_done, Bool.false_eq_true, if_false]

theorem ProcessNumber_other (c : Nat) (t : List Nat) (o : Option (List Nat)) (h45 : c ≠ 45)
    (h0 : c ≠ 0) (hd : ¬Ecma404.isDigit c) :
    ProcessNumber { index := c :: t, ptr_invalid_json := o } =
      .done (RESULT_JSON_NOT_FOUND, { index := c :: t, ptr_invalid_json := o }) := by
  have h48 : c ≠ 48 := fun e => hd (by rw [e]; exact ⟨by omega, by omega⟩)
  have hs : strchr STRING_DIGIT_1_9 c = false := by
    rw [Bool.eq_false_iff]
    intro h
    rcases (strchr_digit_1_9 c).mp h with e | e
    · exact h0 e
    · exact hd ⟨by have := e.1; omega, e.2⟩
  simp only [ProcessNumber, Run.bind_eq, Run.pure_eq, lit_bytes.2.2.2.2.2.2.2.2.2.1,
    lit_bytes.2.2.2.2.2.2.2.2.2.2.2.1, strncmp0_cons_one, Run.or, Run.bind_done, peek_cons,
    h45, h48, hs, decide_False, Bool.false_eq_true, if_false]

theorem strncmp0_head_ne (c d : Nat) (t lit : List Nat) (h : c ≠ d) :
    strncmp0 (c :: t) (d :: lit) = .done false := by
  simp [strncmp0, h]

theorem strncmp0_self (lit R : List Nat) : strncmp0 (lit ++ R) lit = .done true := by
  induction lit with
  | nil => cases R <;> rfl
  | cons d lit ih => simp [strncmp0, ih]

theorem valueLeaves_space (c : Nat) (t : List Nat) (o : Option (List Nat))
    (hc : c = 0x09 ∨ c = 0x0A ∨ c = 0x0D ∨ c = 0x20) :
    Fails (valueLeaves { index := c :: t, ptr_invalid_json := o }) := by
  have e : valueLeaves { index := c :: t, ptr_invalid_json := o } =
      .done (RESULT_JSON_INVALID,
        { index := c :: t, ptr_invalid_json := some (c :: t) }) := by
    simp only [valueLeaves, ProcessString_other c t o (by omega),
      ProcessNumber_other c t o (by omega) (by omega)
        (by simp only [Ecma404.isDigit]; omega),
      Run.bind_done, ne_eq, not_true_eq_false, if_false,
      lit_bytes.2.2.2.2.2.2.2.2.2.2.2.2.1, lit_bytes.2.2.2.2.2.2.2.2.2.2.2.2.2.1,
      lit_bytes.2.2.2.2.2.2.2.2.2.2.2.2.2.2,
      strncmp0_head_ne c 102 t _ (by omega), strncmp0_head_ne c 116 t _ (by omega),
      strncmp0_head_ne c 110 t _ (by omega), Bool.false_eq_true]
  rw [e]
  exact Fails.done (by simp)

/-- `ProcessValue` does not match at a whitespace byte. -/
theorem ProcessValue_space (fuel c : Nat) (t : List Nat) (o : Option (List Nat))
    (hc : c = 0x09 ∨ c = 0x0A ∨ c = 0x0D ∨ c = 0x20) :
    Fails (ProcessValue fuel { index := c :: t, ptr_invalid_json := o }) := by
  cases fuel with
  | zero => simp only [ProcessValue]; exact Fails.timeout
  | succ fuel =>
    cases fuel with
    | zero => rw [ProcessValue_one]; exact Fails.timeout
    | succ fuel =>
      rw [ProcessValue_leaves _ _ _ _ (by omega) (by omega)]
      exact valueLeaves_space c t o hc

/-- The loop of `ProcessObject` does not get past a whitespace byte where a name
should start. -/
theorem objectLoop_space (fuel c : Nat) (t : List Nat) (o : Option (List Nat))
    (hc : c = 0x09 ∨ c = 0x0A ∨ c = 0x0D ∨ c = 0x20) :
    Fails (objectLoop fuel RESULT_JSON_SUCCESS { index := c :: t, ptr_invalid_json := o }) := by
  cases fuel with
  | zero => simp only [objectLoop]; exact Fails.timeout
  | succ fuel =>
    rw [objectLoop_step _ _ _ _ (by omega)]
    have e : objectTurn (ProcessValue fuel) { index := c :: t, ptr_invalid_json := o } =
        .done (RESULT_JSON_INVALID,
          { index := c :: t, ptr_invalid_json := some (c :: t) }) := by
      simp only [objectTurn, ProcessString_other c t o (by omega), Run.bind_eq, Run.pure_eq,
        Run.bind_done]
      rfl
    rw [e]
    exact objectLoop_stopped _ _ _ (by simp)

/-! ## The matchers on the values of the grammar -/

theorem Delim.nonempty : ∃ R, Delim R := ⟨[0], ⟨0, [], rfl, by omega⟩, by simp⟩

theorem Delim.of_ws_cons (w : List Nat) (hw : Ecma404.Ws w) (c : Nat) (R : List Nat)
    (hc : c = 44 ∨ c = 93 ∨ c = 125) (h0 : 0 ∈ R) : Delim (w ++ c :: R) := by
  refine ⟨?_, by simp [h0]⟩
  cases w with
  | nil => exact ⟨c, R, rfl, by omega⟩
  | cons x w =>
    have := hw x (by simp)
    exact ⟨x, w ++ c :: R, rfl, by omega⟩

/-- A value whose lead byte is neither `{` nor `[`: what `valueLeaves` does decides. -/
theorem Tracks.of_leaves (c : Nat) (tv : List Nat) (h1 : c ≠ 123) (h2 : c ≠ 91)
    (h : (∀ R o, Delim R → valueLeaves { index := (c :: tv) ++ R, ptr_invalid_json := o } =
          .done (RESULT_JSON_SUCCESS, { index := R, ptr_invalid_json := o })) ∨
        (∀ R o, Delim R →
          Fails (valueLeaves { index := (c :: tv) ++ R, ptr_invalid_json := o }))) :
    Tracks .value (c :: tv) := by
  intro fuel o
  cases fuel with
  | zero => right; intro R _; exact Fails.timeout
  | succ fuel =>
    cases fuel with
    | zero =>
      right
      intro R _
      show Fails (ProcessValue 1 _)
      rw [ProcessValue_one]
      exact Fails.timeout
    | succ fuel =>
      rcases h with h | h
      · left
        intro R hR
        show ProcessValue (fuel + 2) { index := c :: (tv ++ R), ptr_invalid_json := o } = _
        rw [ProcessValue_leaves _ _ _ _ h1 h2]
        exact h R o hR
      · right
        intro R hR
        show Fails (ProcessValue (fuel + 2) { index := c :: (tv ++ R), ptr_invalid_json := o })
        rw [ProcessValue_leaves _ _ _ _ h1 h2]
        exact h R o hR

theorem Tracks.lit_true : Tracks .value [116, 114, 117, 101] := by
  apply Tracks.of_leaves 116 [114, 117, 101] (by omega) (by omega)
  left
  intro R o _
  have e1 := strncmp0_self [116, 114, 117, 101] R
  simp only [List.cons_append, List.nil_append] at e1 ⊢
  simp only [valueLeaves, ProcessString_other 116 _ o (by omega),
    ProcessNumber_other 116 _ o (by omega) (by omega)
      (by simp only [Ecma404.isDigit]; omega),
    Run.bind_done, ne_eq, not_true_eq_false, if_false,
    lit_bytes.2.2.2.2.2.2.2.2.2.2.2.2.1, lit_bytes.2.2.2.2.2.2.2.2.2.2.2.2.2.1,
    strncmp0_head_ne 116 102 _ _ (by omega), Bool.false_eq_true, e1, if_true,
    List.length_cons, List.length_nil, List.drop_succ_cons, List.drop_zero]

theorem Tracks.lit_false : Tracks .value [102, 97, 108, 115, 101] := by
  apply Tracks.of_leaves 102 [97, 108, 115, 101] (by omega) (by omega)
  left
  intro R o _
  have e1 := strncmp0_self [102, 97, 108, 115, 101] R
  simp only [List.cons_append, List.nil_append] at e1 ⊢
  simp only [valueLeaves, ProcessString_other 102 _ o (by omega),
    ProcessNumber_other 102 _ o (by omega) (by omega)
      (by simp only [Ecma404.isDigit]; omega),
    Run.bind_done, ne_eq, not_true_eq_false, if_false,
    lit_bytes.2.2.2.2.2.2.2.2.2.2.2.2.1, e1, if_true,
    List.length_cons, List.length_nil, List.drop_succ_cons, List.drop_zero]

theorem Tracks.lit_null : Tracks .value [110, 117, 108, 108] := by
  apply Tracks.of_leaves 110 [117, 108, 108] (by omega) (by omega)
  left
  intro R o _
  have e1 := strncmp0_self [110, 117, 108, 108] R
  simp only [List.cons_append, List.nil_append] at e1 ⊢
  simp only [valueLeaves, ProcessString_other 110 _ o (by omega),
    ProcessNumber_other 110 _ o (by omega) (by omega)
      (by simp only [Ecma404.isDigit]; omega),
    Run.bind_done, ne_eq, not_true_eq_false, if_false,
    lit_bytes.2.2.2.2.2.2.2.2.2.2.2.2.1, lit_bytes.2.2.2.2.2.2.2.2.2.2.2.2.2.1,
    lit_bytes.2.2.2.2.2.2.2.2.2.2.2.2.2.2,
    strncmp0_head_ne 110 102 _ _ (by omega), strncmp0_head_ne 110 116 _ _ (by omega),
    Bool.false_eq_true, e1, if_true,
    List.length_cons, List.length_nil, List.drop_succ_cons, List.drop_zero]

theorem Tracks.string (s : List Nat) (hs : Ecma404.Str s) : Tracks .value s := by
  have hs' := hs
  cases hs with
  | mk cs hcs =>
    apply Tracks.of_leaves 34 (cs ++ [34]) (by omega) (by omega)
    left
    intro R o _
    simp only [valueLeaves, ProcessString_run _ hs' R o, Run.bind_done, ne_eq,
      reduceCtorEq, not_false_eq_true, if_true]

theorem Tracks.number (n : List Nat) (hn : Ecma404.Number n) : Tracks .value n := by
  obtain ⟨c, tn, rfl, hc⟩ := Ecma404.Number_head hn
  have h34 : c ≠ 34 := by
    rcases hc with e | e
    · omega
    · have := e.1; omega
  have h123 : c ≠ 123 := by
    rcases hc with e | e
    · omega
    · have := e.2; omega
  have h91 : c ≠ 91 := by
    rcases hc with e | e
    · omega
    · have := e.2; omega
  apply Tracks.of_leaves c tn h123 h91
  rcases ProcessNumber_run _ hn with h | h
  · left
    intro R o hR
    have e := h R o hR
    simp only [List.cons_append] at e ⊢
    simp only [valueLeaves, ProcessString_other c _ o h34, Run.bind_done, ne_eq,
      not_true_eq_false, if_false, e, reduceCtorEq, not_false_eq_true, if_true]
  · right
    intro R o hR
    have e := h R o hR
    simp only [List.cons_append] at e ⊢
    simp only [valueLeaves, ProcessString_other c _ o h34, Run.bind_done, ne_eq,
      not_true_eq_false, if_false, e, Run.bind_undefined]
    exact Fails.undefined

/-! ## Arrays and objects of the grammar -/

theorem ProcessValue_array (fuel : Nat) (t : List Nat) (o : Option (List Nat)) :
    ProcessValue (fuel + 2) { index := 91 :: t, ptr_invalid_json := o } =
      (ProcessWhitespace t).bind fun p =>
        (arrayLoop fuel RESULT_JSON_SUCCESS { index := p, ptr_invalid_json := o }).bind
          fun x =>
            if x.1 = RESULT_JSON_SUCCESS then
              .done (x.1, { x.2 with index := x.2.index.drop 1 })
            else if x.1 ≠ RESULT_JSON_NOT_FOUND then .done x
            else valueLeaves x.2 := by
  rw [ProcessValue_succ_leaves, ProcessObject_other _ _ _ _ (by omega)]
  simp only [Run.bind_done, ne_eq, not_true_eq_false, if_false]
  rw [ProcessArray_succ]
  simp only [lit_bytes.2.1, lit_bytes.2.2.2.2.1, strncmp0_cons_one, decide_True,
    Run.bind_done, if_true, List.length_cons, List.length_nil, List.drop_succ_cons,
    List.drop_zero]
  cases ProcessWhitespace t with
  | done p =>
    simp only [Run.bind_done]
    cases arrayLoop fuel RESULT_JSON_SUCCESS { index := p, ptr_invalid_json := o } with
    | done x =>
      simp only [Run.bind_done]
      by_cases hx : x.1 = RESULT_JSON_SUCCESS
      · simp [hx]
      · simp [hx]
    | undefined => rfl
    | timeout => rfl
  | undefined => rfl
  | timeout => rfl

theorem ProcessValue_object (fuel : Nat) (t : List Nat) (o : Option (List Nat)) :
    ProcessValue (fuel + 2) { index := 123 :: t, ptr_invalid_json := o } =
      (ProcessWhitespace t).bind fun p =>
        (objectLoop fuel RESULT_JSON_SUCCESS { index := p, ptr_invalid_json := o }).bind
          fun x =>
            if x.1 ≠ RESULT_JSON_NOT_FOUND then
              .done (x.1, { x.2 with index := x.2.index.drop 1 })
            else
              (ProcessArray (fuel + 1) { x.2 with index := x.2.index.drop 1 }).bind fun x =>
                if x.1 ≠ RESULT_JSON_NOT_FOUND then .done x else valueLeaves x.2 := by
  rw [ProcessValue_succ_leaves, ProcessObject_succ]
  simp only [lit_bytes.1, lit_bytes.2.2.2.1, strncmp0_cons_one, decide_True,
    Run.bind_done, if_true, List.length_cons, List.length_nil, List.drop_succ_cons,
    List.drop_zero]
  cases ProcessWhitespace t with
  | done p =>
    simp only [Run.bind_done]
    cases objectLoop fuel RESULT_JSON_SUCCESS { index := p, ptr_invalid_json := o } with
    | done x => simp only [Run.bind_done]
    | undefined => rfl
    | timeout => rfl
  | undefined => rfl
  | timeout => rfl

theorem ProcessValue_array_success (fuel : Nat) (t p R : List Nat) (o : Option (List Nat))
    (hp : ProcessWhitespace t = .done p)
    (h : arrayLoop fuel RESULT_JSON_SUCCESS { index := p, ptr_invalid_json := o } =
      .done (RESULT_JSON_SUCCESS, { index := 93 :: R, ptr_invalid_json := o })) :
    ProcessValue (fuel + 2) { index := 91 :: t, ptr_invalid_json := o } =
      .done (RESULT_JSON_SUCCESS, { index := R, ptr_invalid_json := o }) := by
  rw [ProcessValue_array, hp]
  simp [h]

theorem ProcessValue_array_fails (fuel : Nat) (t p : List Nat) (o : Option (List Nat))
    (hp : ProcessWhitespace t = .done p)
    (h : Fails (arrayLoop fuel RESULT_JSON_SUCCESS { index := p, ptr_invalid_json := o })) :
    Fails (ProcessValue (fuel + 2) { index := 91 :: t, ptr_invalid_json := o }) := by
  rw [ProcessValue_array, hp]
  simp only [Run.bind_done]
  apply Fails.bind
  intro x hx
  have hs : x.1 ≠ RESULT_JSON_SUCCESS := fun e => h x.2 (by rw [hx, ← e])
  have hn : x.1 ≠ RESULT_JSON_NOT_FOUND :=
    ((matchers_agree fuel).2.2.2.2 o _ _ _ hx (by simp) (by simp [Agrees])).1
  simp only [hs, if_false, ne_eq, hn, not_false_eq_true, if_true]
  exact Fails.done hs

theorem ProcessValue_object_success (fuel : Nat) (t p R : List Nat)
    (o : Option (List Nat)) (hp : ProcessWhitespace t = .done p)
    (h : objectLoop fuel RESULT_JSON_SUCCESS { index := p, ptr_invalid_json := o } =
      .done (RESULT_JSON_SUCCESS, { index := 125 :: R, ptr_invalid_json := o })) :
    ProcessValue (fuel + 2) { index := 123 :: t, ptr_invalid_json := o } =
      .done (RESULT_JSON_SUCCESS, { index := R, ptr_invalid_json := o }) := by
  rw [ProcessValue_object, hp]
  simp [h]

theorem ProcessValue_object_fails (fuel : Nat) (t p : List Nat) (o : Option (List Nat))
    (hp : ProcessWhitespace t = .done p)
    (h : Fails (objectLoop fuel RESULT_JSON_SUCCESS { index := p, ptr_invalid_json := o })) :
    Fails (ProcessValue (fuel + 2) { index := 123 :: t, ptr_invalid_json := o }) := by
  rw [ProcessValue_object, hp]
  simp only [Run.bind_done]
  apply Fails.bind
  intro x hx
  have hs : x.1 ≠ RESULT_JSON_SUCCESS := fun e => h x.2 (by rw [hx, ← e])
  have hn : x.1 ≠ RESULT_JSON_NOT_FOUND :=
    ((matchers_agree fuel).2.2.1 o _ _ _ hx (by simp) (by simp [Agrees])).1
  simp only [ne_eq, hn, not_false_eq_true, if_true]
  exact Fails.done hs

/-- A value that starts with `[` or `{`: the loop after the opening token and the
whitespace decides. -/
theorem Tracks.of_loop (open_ close : Nat) (body core : List Nat)
    (hoc : (open_ = 91 ∧ close = 93) ∨ (open_ = 123 ∧ close = 125))
    (hskip : ∀ R, ProcessWhitespace (body ++ close :: R) = .done (core ++ close :: R))
    (hloop : ∀ (fuel : Nat) (o : Option (List Nat)),
      Uniform (fun R => 0 ∈ R)
        (fun R => (if open_ = 91 then arrayLoop else objectLoop) fuel RESULT_JSON_SUCCESS
          { index := core ++ close :: R, ptr_invalid_json := o })
        (fun R => { index := close :: R, ptr_invalid_json := o })) :
    Tracks .value (open_ :: (body ++ [close])) := by
  intro fuel o
  cases fuel with
  | zero => right; intro R _; exact Fails.timeout
  | succ fuel =>
    cases fuel with
    | zero =>
      right
      intro R _
      show Fails (ProcessValue 1 _)
      rw [ProcessValue_one]
      exact Fails.timeout
    | succ fuel =>
      have e : ∀ R, (open_ :: (body ++ [close])) ++ R = open_ :: (body ++ close :: R) := by
        intro R; simp
      rcases hoc with ⟨rfl, rfl⟩ | ⟨rfl, rfl⟩
      · rcases hloop fuel o with h | h
        · left
          intro R hR
          show ProcessValue (fuel + 2) { index := _, ptr_invalid_json := o } = _
          rw [e R]
          exact ProcessValue_array_success fuel _ _ R o (hskip R)
            (by simpa using h R hR.2)
        · right
          intro R hR
          show Fails (ProcessValue (fuel + 2) { index := _, ptr_invalid_json := o })
          rw [e R]
          exact ProcessValue_array_fails fuel _ _ o (hskip R) (by simpa using h R hR.2)
      · rcases hloop fuel o with h | h
        · left
          intro R hR
          show ProcessValue (fuel + 2) { index := _, ptr_invalid_json := o } = _
          rw [e R]
          exact ProcessValue_object_success fuel _ _ R o (hskip R)
            (by simpa using h R hR.2)
        · right
          intro R hR
          show Fails (ProcessValue (fuel + 2) { index := _, ptr_invalid_json := o })
          rw [e R]
          exact ProcessValue_object_fails fuel _ _ o (hskip R) (by simpa using h R hR.2)

theorem Uniform.loop_stop (open_ close : Nat)
    (hoc : (open_ = 91 ∧ close = 93) ∨ (open_ = 123 ∧ close = 125))
    (fuel : Nat) (o : Option (List Nat)) :
    Uniform (fun R => 0 ∈ R)
      (fun R => (if open_ = 91 then arrayLoop else objectLoop) fuel RESULT_JSON_SUCCESS
        { index := [] ++ close :: R, ptr_invalid_json := o })
      (fun R => { index := close :: R, ptr_invalid_json := o }) := by
  cases fuel with
  | zero =>
    right
    intro R _
    rcases hoc with ⟨rfl, rfl⟩ | ⟨rfl, rfl⟩ <;> exact Fails.timeout
  | succ fuel =>
    left
    intro R _
    rcases hoc with ⟨rfl, rfl⟩ | ⟨rfl, rfl⟩
    · exact arrayLoop_stop fuel R o
    · exact objectLoop_stop fuel R o

theorem Uniform.fuel_pos {D : List Nat → Prop} {v : List Nat} {o : Option (List Nat)}
    {fuel : Nat} {stop : List Nat → Machine} (R0 : List Nat) (hR0 : D R0)
    (h : ∀ R, D R → ProcessValue fuel { index := v ++ R, ptr_invalid_json := o } =
      .done (RESULT_JSON_SUCCESS, stop R)) : ∃ f, fuel = f + 1 := by
  cases fuel with
  | zero =>
    have := h R0 hR0
    simp [ProcessValue] at this
  | succ f => exact ⟨f, rfl⟩

/-- One value between the brackets. -/
theorem Tracks.elements_one (w1 v w2 : List Nat) (hw1 : Ecma404.Ws w1)
    (hv : Ecma404.Derives .value v) (hw2 : Ecma404.Ws w2) (ih : Tracks .value v) :
    Tracks .elements (w1 ++ v ++ w2) := by
  obtain ⟨c, tv, rfl, hc⟩ := Ecma404.value_head hv rfl
  have hcn := LeadByte.not_ws hc
  refine ⟨w1, (c :: tv) ++ w2, by simp, hw1, ⟨c, tv ++ w2, rfl, hc⟩, ?_⟩
  intro fuel o
  have e : ∀ R, ((c :: tv) ++ w2) ++ 93 :: R = c :: (tv ++ (w2 ++ 93 :: R)) := by
    intro R; simp
  have hD : ∀ R, 0 ∈ R → Delim (w2 ++ 93 :: R) :=
    fun R h0 => Delim.of_ws_cons w2 hw2 93 R (by omega) h0
  cases fuel with
  | zero => right; intro R _; exact Fails.timeout
  | succ fuel =>
    rcases ih fuel o with hL | hR
    · obtain ⟨f, rfl⟩ := Uniform.fuel_pos (w2 ++ 93 :: [0]) (hD [0] (by simp)) hL
      left
      intro R h0
      show arrayLoop (f + 1 + 1) RESULT_JSON_SUCCESS { index := _, ptr_invalid_json := o } = _
      rw [e R, arrayLoop_step _ _ _ _ hcn.2.1]
      have h1 := hL (w2 ++ 93 :: R) (hD R h0)
      simp only [List.cons_append] at h1
      rw [arrayTurn_last _ _ w2 R o hw2 h1]
      exact arrayLoop_stop f R o
    · right
      intro R h0
      show Fails (arrayLoop (fuel + 1) RESULT_JSON_SUCCESS
        { index := _, ptr_invalid_json := o })
      rw [e R, arrayLoop_step _ _ _ _ hcn.2.1]
      have h1 := hR (w2 ++ 93 :: R) (hD R h0)
      simp only [List.cons_append] at h1
      exact arrayTurn_fails _ _ _ h1

/-- A value, a comma, and more values between the brackets. -/
theorem Tracks.elements_cons (w1 v w2 es : List Nat) (hw1 : Ecma404.Ws w1)
    (hv : Ecma404.Derives .value v) (hw2 : Ecma404.Ws w2) (ihv : Tracks .value v)
    (ihes : Tracks .elements es) : Tracks .elements (w1 ++ v ++ w2 ++ 44 :: es) := by
  obtain ⟨c, tv, rfl, hc⟩ := Ecma404.value_head hv rfl
  have hcn := LeadByte.not_ws hc
  obtain ⟨w3, core, rfl, hw3, ⟨c2, tl, rfl, hc2⟩, hU⟩ := ihes
  have hcn2 := LeadByte.not_ws hc2
  refine ⟨w1, (c :: tv) ++ w2 ++ 44 :: (w3 ++ c2 :: tl), by simp, hw1,
    ⟨c, tv ++ w2 ++ 44 :: (w3 ++ c2 :: tl), by simp, hc⟩, ?_⟩
  intro fuel o
  have e : ∀ R, ((c :: tv) ++ w2 ++ 44 :: (w3 ++ c2 :: tl)) ++ 93 :: R =
      c :: (tv ++ (w2 ++ 44 :: (w3 ++ c2 :: (tl ++ 93 :: R)))) := by
    intro R; simp
  have hD : ∀ R, 0 ∈ R → Delim (w2 ++ 44 :: (w3 ++ c2 :: (tl ++ 93 :: R))) :=
    fun R h0 => Delim.of_ws_cons w2 hw2 44 _ (by omega) (by simp [h0])
  cases fuel with
  | zero => right; intro R _; exact Fails.timeout
  | succ fuel =>
    rcases ihv fuel o with hL | hR
    · rcases hU fuel o with hL2 | hR2
      · left
        intro R h0
        show arrayLoop (fuel + 1) RESULT_JSON_SUCCESS
          { index := _, ptr_invalid_json := o } = _
        rw [e R, arrayLoop_step _ _ _ _ hcn.2.1]
        have h1 := hL _ (hD R h0)
        simp only [List.cons_append] at h1
        rw [arrayTurn_next _ _ w2 w3 _ c2 o hw2 hw3 hcn2.1 h1]
        have h2 := hL2 R h0
        simp only [List.cons_append] at h2
        exact h2
      · right
        intro R h0
        show Fails (arrayLoop (fuel + 1) RESULT_JSON_SUCCESS
          { index := _, ptr_invalid_json := o })
        rw [e R, arrayLoop_step _ _ _ _ hcn.2.1]
        have h1 := hL _ (hD R h0)
        simp only [List.cons_append] at h1
        rw [arrayTurn_next _ _ w2 w3 _ c2 o hw2 hw3 hcn2.1 h1]
        have h2 := hR2 R h0
        simp only [List.cons_append] at h2
        exact h2
    · right
      intro R h0
      show Fails (arrayLoop (fuel + 1) RESULT_JSON_SUCCESS
        { index := _, ptr_invalid_json := o })
      rw [e R, arrayLoop_step _ _ _ _ hcn.2.1]
      have h1 := hR _ (hD R h0)
      simp only [List.cons_append] at h1
      exact arrayTurn_fails _ _ _ h1

/-- The run of the object loop on a member `name : value` that is followed by the
tail `T`: decided by what `ProcessValue` does after the colon. -/
theorem objectLoop_member (fuel : Nat) (s w2 p : List Nat) (o : Option (List Nat))
    (hs : Ecma404.Str s) (hw2 : Ecma404.Ws w2) :
    objectLoop (fuel + 1) RESULT_JSON_SUCCESS
        { index := s ++ (w2 ++ 58 :: p), ptr_invalid_json := o } =
      (objectTurn (ProcessValue fuel)
          { index := s ++ (w2 ++ 58 :: p), ptr_invalid_json := o }).bind
        fun x => objectLoop fuel x.1 x.2 := by
  cases hs with
  | mk cs hcs =>
    simp only [List.cons_append]
    exact objectLoop_step _ _ _ _ (by omega)

/-- One member between the braces. -/
theorem Tracks.members_one (w1 s w2 w3 v w4 : List Nat) (hw1 : Ecma404.Ws w1)
    (hs : Ecma404.Str s) (hw2 : Ecma404.Ws w2) (hw3 : Ecma404.Ws w3)
    (hv : Ecma404.Derives .value v) (hw4 : Ecma404.Ws w4) (ih : Tracks .value v) :
    Tracks .members (w1 ++ s ++ w2 ++ 58 :: (w3 ++ v ++ w4)) := by
  have hs' := hs
  obtain ⟨cs, hcs⟩ : ∃ cs, s = 34 :: (cs ++ [34]) := by
    cases hs with
    | mk cs _ => exact ⟨cs, rfl⟩
  refine ⟨w1, s ++ w2 ++ 58 :: (w3 ++ v ++ w4), by simp, hw1,
    ⟨cs ++ [34] ++ w2 ++ 58 :: (w3 ++ v ++ w4), by simp [hcs]⟩, ?_⟩
  intro fuel o
  have hD : ∀ R, 0 ∈ R → Delim (w4 ++ 125 :: R) :=
    fun R h0 => Delim.of_ws_cons w4 hw4 125 R (by omega) h0
  cases fuel with
  | zero => right; intro R _; exact Fails.timeout
  | succ fuel =>
    cases w3 with
    | cons x w3 =>
      right
      intro R h0
      show Fails (objectLoop (fuel + 1) RESULT_JSON_SUCCESS
        { index := _, ptr_invalid_json := o })
      simp only [List.append_assoc, List.cons_append, List.nil_append]
      rw [objectLoop_member _ _ _ _ _ hs' hw2]
      apply objectTurn_fails _ _ _ _ _ hs' hw2
      exact ProcessValue_space _ _ _ _ (hw3 x (by simp))
    | nil =>
      rcases ih fuel o with hL | hR
      · obtain ⟨f, rfl⟩ := Uniform.fuel_pos (w4 ++ 125 :: [0]) (hD [0] (by simp)) hL
        cases w4 with
        | cons y w4 =>
          right
          intro R h0
          show Fails (objectLoop (f + 1 + 1) RESULT_JSON_SUCCESS
            { index := _, ptr_invalid_json := o })
          simp only [List.append_assoc, List.cons_append, List.nil_append]
          rw [objectLoop_member _ _ _ _ _ hs' hw2]
          have h1 := hL _ (hD R h0)
          simp only [List.cons_append] at h1
          exact objectTurn_space _ _ _ _ _ _ _ hs' hw2 _ (hw4 y (by simp)) h1
        | nil =>
          left
          intro R h0
          show objectLoop (f + 1 + 1) RESULT_JSON_SUCCESS
            { index := _, ptr_invalid_json := o } = _
          simp only [List.append_assoc, List.cons_append, List.nil_append]
          rw [objectLoop_member _ _ _ _ _ hs' hw2]
          have h1 := hL _ (hD R h0)
          simp only [List.nil_append] at h1
          rw [objectTurn_last _ _ _ _ R o hs' hw2 h1]
          exact objectLoop_stop f R o
      · right
        intro R h0
        show Fails (objectLoop (fuel + 1) RESULT_JSON_SUCCESS
          { index := _, ptr_invalid_json := o })
        simp only [List.append_assoc, List.cons_append, List.nil_append]
        rw [objectLoop_member _ _ _ _ _ hs' hw2]
        exact objectTurn_fails _ _ _ _ _ hs' hw2 _ (hR _ (hD R h0))

/-- A member, a comma, and more members between the braces. -/
theorem Tracks.members_cons (w1 s w2 w3 v w4 ms : List Nat) (hw1 : Ecma404.Ws w1)
    (hs : Ecma404.Str s) (hw2 : Ecma404.Ws w2) (hw3 : Ecma404.Ws w3)
    (hv : Ecma404.Derives .value v) (hw4 : Ecma404.Ws w4) (ihv : Tracks .value v)
    (ihms : Tracks .members ms) :
    Tracks .members (w1 ++ s ++ w2 ++ 58 :: (w3 ++ v ++ w4) ++ 44 :: ms) := by
  have hs' := hs
  obtain ⟨cs, hcs⟩ : ∃ cs, s = 34 :: (cs ++ [34]) := by
    cases hs with
    | mk cs _ => exact ⟨cs, rfl⟩
  obtain ⟨w5, core, rfl, hw5, ⟨tl, rfl⟩, hU⟩ := ihms
  refine ⟨w1, s ++ w2 ++ 58 :: (w3 ++ v ++ w4) ++ 44 :: (w5 ++ 34 :: tl), by simp, hw1,
    ⟨cs ++ [34] ++ w2 ++ 58 :: (w3 ++ v ++ w4) ++ 44 :: (w5 ++ 34 :: tl), by simp [hcs]⟩,
    ?_⟩
  intro fuel o
  have hD : ∀ R, 0 ∈ R → Delim (w4 ++ 44 :: (w5 ++ 34 :: (tl ++ 125 :: R))) :=
    fun R h0 => Delim.of_ws_cons w4 hw4 44 _ (by omega) (by simp [h0])
  cases fuel with
  | zero => right; intro R _; exact Fails.timeout
  | succ fuel =>
    cases w3 with
    | cons x w3 =>
      right
      intro R h0
      show Fails (objectLoop (fuel + 1) RESULT_JSON_SUCCESS
        { index := _, ptr_invalid_json := o })
      simp only [List.append_assoc, List.cons_append, List.nil_append]
      rw [objectLoop_member _ _ _ _ _ hs' hw2]
      apply objectTurn_fails _ _ _ _ _ hs' hw2
      exact ProcessValue_space _ _ _ _ (hw3 x (by simp))
    | nil =>
      rcases ihv fuel o with hL | hR
      · cases w4 with
        | cons y w4 =>
          right
          intro R h0
          show Fails (objectLoop (fuel + 1) RESULT_JSON_SUCCESS
            { index := _, ptr_invalid_json := o })
          simp only [List.append_assoc, List.cons_append, List.nil_append]
          rw [objectLoop_member _ _ _ _ _ hs' hw2]
          have h1 := hL _ (hD R h0)
          simp only [List.cons_append] at h1
          exact objectTurn_space _ _ _ _ _ _ _ hs' hw2 _ (hw4 y (by simp)) h1
        | nil =>
          cases w5 with
          | cons z w5 =>
            right
            intro R h0
            show Fails (objectLoop (fuel + 1) RESULT_JSON_SUCCESS
              { index := _, ptr_invalid_json := o })
            simp only [List.append_assoc, List.cons_append, List.nil_append]
            rw [objectLoop_member _ _ _ _ _ hs' hw2]
            have h1 := hL _ (hD R h0)
            simp only [List.nil_append, List.cons_append] at h1
            rw [objectTurn_next _ _ _ _ _ o hs' hw2 h1]
            simp only [Run.bind_done]
            exact objectLoop_space _ _ _ _ (hw5 z (by simp))
          | nil =>
            rcases hU fuel o with hL2 | hR2
            · left
              intro R h0
              show objectLoop (fuel + 1) RESULT_JSON_SUCCESS
                { index := _, ptr_invalid_json := o } = _
              simp only [List.append_assoc, List.cons_append, List.nil_append]
              rw [objectLoop_member _ _ _ _ _ hs' hw2]
              have h1 := hL _ (hD R h0)
              simp only [List.nil_append, List.cons_append] at h1
              rw [objectTurn_next _ _ _ _ _ o hs' hw2 h1]
              have h2 := hL2 R h0
              simp only [List.cons_append] at h2
              exact h2
            · right
              intro R h0
              show Fails (objectLoop (fuel + 1) RESULT_JSON_SUCCESS
                { index := _, ptr_invalid_json := o })
              simp only [List.append_assoc, List.cons_append, List.nil_append]
              rw [objectLoop_member _ _ _ _ _ hs' hw2]
              have h1 := hL _ (hD R h0)
              simp only [List.nil_append, List.cons_append] at h1
              rw [objectTurn_next _ _ _ _ _ o hs' hw2 h1]
              have h2 := hR2 R h0
              simp only [List.cons_append] at h2
              exact h2
      · right
        intro R h0
        show Fails (objectLoop (fuel + 1) RESULT_JSON_SUCCESS
          { index := _, ptr_invalid_json := o })
        simp only [List.append_assoc, List.cons_append, List.nil_append]
        rw [objectLoop_member _ _ _ _ _ hs' hw2]
        exact objectTurn_fails _ _ _ _ _ hs' hw2 _ (hR _ (hD R h0))

/-- On every text of the grammar the matchers behave in the same way whatever
follows the text: see `Tracks`. -/
theorem derives_tracks {s : Ecma404.Sym} {t : List Nat} (h : Ecma404.Derives s t) :
    Tracks s t := by
  induction h with
  | lit_true => exact Tracks.lit_true
  | lit_false => exact Tracks.lit_false
  | lit_null => exact Tracks.lit_null
  | number n hn => exact Tracks.number n hn
  | string s hs => exact Tracks.string s hs
  | array_empty w hw =>
    exact Tracks.of_loop 91 93 w [] (Or.inl ⟨rfl, rfl⟩)
      (fun R => ProcessWhitespace_run w hw 93 R (by omega))
      (Uniform.loop_stop 91 93 (Or.inl ⟨rfl, rfl⟩))
  | array es hes ih =>
    obtain ⟨w, core, rfl, hw, ⟨c, tl, rfl, hc⟩, hU⟩ := ih
    refine Tracks.of_loop 91 93 (w ++ c :: tl) (c :: tl) (Or.inl ⟨rfl, rfl⟩) ?_ ?_
    · intro R
      have := ProcessWhitespace_run w hw c (tl ++ 93 :: R) (LeadByte.not_ws hc).1
      simpa using this
    · intro fuel o
      simpa using hU fuel o
  | object_empty w hw =>
    exact Tracks.of_loop 123 125 w [] (Or.inr ⟨rfl, rfl⟩)
      (fun R => ProcessWhitespace_run w hw 125 R (by omega))
      (Uniform.loop_stop 123 125 (Or.inr ⟨rfl, rfl⟩))
  | object ms hms ih =>
    obtain ⟨w, core, rfl, hw, ⟨tl, rfl⟩, hU⟩ := ih
    refine Tracks.of_loop 123 125 (w ++ 34 :: tl) (34 :: tl) (Or.inr ⟨rfl, rfl⟩) ?_ ?_
    · intro R
      have := ProcessWhitespace_run w hw 34 (tl ++ 125 :: R) (by omega)
      simpa using this
    · intro fuel o
      simpa using hU fuel o
  | elements_one w1 v w2 hw1 hv hw2 ih => exact Tracks.elements_one w1 v w2 hw1 hv hw2 ih
  | elements_cons w1 v w2 es hw1 hv hw2 hes ihv ihes =>
    exact Tracks.elements_cons w1 v w2 es hw1 hv hw2 ihv ihes
  | members_one w1 s w2 w3 v w4 hw1 hs hw2 hw3 hv hw4 ih =>
    exact Tracks.members_one w1 s w2 w3 v w4 hw1 hs hw2 hw3 hv hw4 ih
  | members_cons w1 s w2 w3 v w4 ms hw1 hs hw2 hw3 hv hw4 hms ihv ihms =>
    exact Tracks.members_cons w1 s w2 w3 v w4 ms hw1 hs hw2 hw3 hv hw4 ihv ihms

/-! ## No byte of a JSON text is NUL -/

theorem Ecma404.Ws_no_zero {w : List Nat} (hw : Ecma404.Ws w) : 0 ∉ w := by
  intro h
  have := hw 0 h
  omega

theorem Ecma404.Digits_no_zero {d : List Nat} (hd : Ecma404.Digits d) : 0 ∉ d := by
  intro h
  have := (hd.2 0 h).1
  omega

theorem Ecma404.Number_no_zero {n : List Nat} (hn : Ecma404.Number n) : 0 ∉ n := by
  cases hn with
  | mk i f e hi hf he =>
    have h1 : 0 ∉ i := by
      cases hi with
      | digit c hc => have := hc.1; simp; omega
      | onenine c d hc hd =>
        have := hc.1
        have := Ecma404.Digits_no_zero hd
        simp; exact ⟨by omega, this⟩
      | neg_digit c hc => have := hc.1; simp; omega
      | neg_onenine c d hc hd =>
        have := hc.1
        have := Ecma404.Digits_no_zero hd
        simp; exact ⟨by omega, this⟩
    have h2 : 0 ∉ f := by
      cases hf with
      | none => simp
      | some d hd => have := Ecma404.Digits_no_zero hd; simp [this]
    have h3 : 0 ∉ e := by
      cases he with
      | none => simp
      | upper s d hs hd =>
        have := Ecma404.Digits_no_zero hd
        cases hs <;> simp [this]
      | lower s d hs hd =>
        have := Ecma404.Digits_no_zero hd
        cases hs <;> simp [this]
    simp [h1, h2, h3]

theorem Ecma404.Characters_no_zero {cs : List Nat} (h : Ecma404.Characters cs) : 0 ∉ cs := by
  induction h with
  | nil => simp
  | cons c cs hc hcs ih =>
    have h1 : 0 ∉ c := by
      cases hc with
      | plain x h20 _ _ => simp; omega
      | escape x hx =>
        simp only [List.mem_cons, List.mem_singleton, List.not_mem_nil, or_false] at hx
        simp; omega
      | unicode a b c d ha hb hc hd =>
        simp only [Ecma404.isHex, Ecma404.isDigit] at ha hb hc hd
        simp; omega
    simp [h1, ih]

theorem Ecma404.derives_no_zero {s : Ecma404.Sym} {t : List Nat}
    (h : Ecma404.Derives s t) : 0 ∉ t := by
  induction h with
  | lit_true => simp
  | lit_false => simp
  | lit_null => simp
  | number n hn => exact Ecma404.Number_no_zero hn
  | string s hs =>
    cases hs with
    | mk cs hcs => have := Ecma404.Characters_no_zero hcs; simp [this]
  | array_empty w hw => have := Ecma404.Ws_no_zero hw; simp [this]
  | array es hes ih => simp [ih]
  | object_empty w hw => have := Ecma404.Ws_no_zero hw; simp [this]
  | object ms hms ih => simp [ih]
  | elements_one w1 v w2 hw1 hv hw2 ih =>
    have := Ecma404.Ws_no_zero hw1
    have := Ecma404.Ws_no_zero hw2
    simp [*]
  | elements_cons w1 v w2 es hw1 hv hw2 hes ihv ihes =>
    have := Ecma404.Ws_no_zero hw1
    have := Ecma404.Ws_no_zero hw2
    simp [*]
  | members_one w1 s w2 w3 v w4 hw1 hs hw2 hw3 hv hw4 ih =>
    have := Ecma404.Ws_no_zero hw1
    have := Ecma404.Ws_no_zero hw2
    have := Ecma404.Ws_no_zero hw3
    have := Ecma404.Ws_no_zero hw4
    have : 0 ∉ s := by
      cases hs with
      | mk cs hcs => have := Ecma404.Characters_no_zero hcs; simp [this]
    simp [*]
  | members_cons w1 s w2 w3 v w4 ms hw1 hs hw2 hw3 hv hw4 hms ihv ihms =>
    have := Ecma404.Ws_no_zero hw1
    have := Ecma404.Ws_no_zero hw2
    have := Ecma404.Ws_no_zero hw3
    have := Ecma404.Ws_no_zero hw4
    have : 0 ∉ s := by
      cases hs with
      | mk cs hcs => have := Ecma404.Characters_no_zero hcs; simp [this]
    simp [*]

/-! ## The verdict of `LintJSON` from the run of `ProcessValue` -/

theorem Delim.of_ws_end (w : List Nat) (hw : Ecma404.Ws w) : Delim (w ++ [0]) := by
  refine ⟨?_, by simp⟩
  cases w with
  | nil => exact ⟨0, [], rfl, by omega⟩
  | cons x w =>
    have := hw x (by simp)
    exact ⟨x, w ++ [0], List.cons_append _ _ _, by omega⟩

theorem LintJSON_of_success (text p q : List Nat) (hne : text ≠ []) (hz : 0 ∉ text)
    (hp : ProcessWhitespace (cstr text) = .done p)
    (hv : ProcessValue (lintFuel (cstr text)) { index := p, ptr_invalid_json := none } =
      .done (RESULT_JSON_SUCCESS, { index := q, ptr_invalid_json := none }))
    (hq : ProcessWhitespace q = .done [0]) : Accepts text := by
  cases text with
  | nil => exact absurd rfl hne
  | cons c t =>
    have hc : c ≠ 0 := fun e => hz (by simp [e])
    refine ⟨none, ?_⟩
    have hlen := strlen_cstr (c :: t) hz
    simp only [LintJSON, Run.bind_eq, Run.pure_eq]
    rw [show peek (cstr (c :: t)) = .done c from rfl]
    simp only [Run.bind_done, ne_eq, hc, not_false_eq_true, if_true, hp, hv, hq, hlen]
    simp [cstr]

theorem LintJSON_of_fails (text p : List Nat)
    (hp : ProcessWhitespace (cstr text) = .done p)
    (hv : Fails (ProcessValue (lintFuel (cstr text))
      { index := p, ptr_invalid_json := none })) : ¬Accepts text := by
  rintro ⟨e, h⟩
  simp only [LintJSON, Run.bind_eq, Run.pure_eq] at h
  rw [Run.bind_eq_done] at h
  obtain ⟨c, -, h⟩ := h
  split at h
  · rw [hp] at h
    simp only [Run.bind_done] at h
    rw [Run.bind_eq_done] at h
    obtain ⟨⟨r, m⟩, hrun, h⟩ := h
    have hr : r ≠ RESULT_JSON_SUCCESS := fun e => hv m (e ▸ hrun)
    simp only [hr, if_false] at h
    cases h
  · cases h

/-- The verdict on a value between whitespace, from the run of `ProcessValue` on the
value. -/
theorem LintJSON_plain (w1 tv w2 : List Nat) (c : Nat) (hw1 : Ecma404.Ws w1)
    (hw2 : Ecma404.Ws w2) (hc : LeadByte c) (hz : 0 ∉ w1 ++ c :: tv ++ w2) :
    (ProcessValue (lintFuel (cstr (w1 ++ c :: tv ++ w2)))
        { index := c :: (tv ++ (w2 ++ [0])), ptr_invalid_json := none } =
        .done (RESULT_JSON_SUCCESS, { index := w2 ++ [0], ptr_invalid_json := none }) →
      Accepts (w1 ++ c :: tv ++ w2)) ∧
    (Fails (ProcessValue (lintFuel (cstr (w1 ++ c :: tv ++ w2)))
        { index := c :: (tv ++ (w2 ++ [0])), ptr_invalid_json := none }) →
      ¬Accepts (w1 ++ c :: tv ++ w2)) := by
  have hp : ProcessWhitespace (cstr (w1 ++ c :: tv ++ w2)) =
      .done (c :: (tv ++ (w2 ++ [0]))) := by
    have := ProcessWhitespace_run w1 hw1 c (tv ++ (w2 ++ [0])) (LeadByte.not_ws hc).1
    simpa [cstr] using this
  constructor
  · intro h
    exact LintJSON_of_success _ _ _ (by simp) hz hp h
      (ProcessWhitespace_run w2 hw2 0 [] (by omega))
  · intro h
    exact LintJSON_of_fails _ _ hp h

/-- The verdict on a value between whitespace and brackets, from the run of
`ProcessValue` on the value. -/
theorem LintJSON_wrapped (w1 tv w2 : List Nat) (c : Nat) (hw1 : Ecma404.Ws w1)
    (hw2 : Ecma404.Ws w2) (hc : LeadByte c) (hz : 0 ∉ w1 ++ c :: tv ++ w2) :
    (ProcessValue (3 * (w1 ++ c :: tv ++ w2).length + 9)
        { index := c :: (tv ++ (w2 ++ 93 :: [0])), ptr_invalid_json := none } =
        .done (RESULT_JSON_SUCCESS,
          { index := w2 ++ 93 :: [0], ptr_invalid_json := none }) →
      Accepts (91 :: (w1 ++ c :: tv ++ w2) ++ [93])) ∧
    (Fails (ProcessValue (3 * (w1 ++ c :: tv ++ w2).length + 9)
        { index := c :: (tv ++ (w2 ++ 93 :: [0])), ptr_invalid_json := none }) →
      ¬Accepts (91 :: (w1 ++ c :: tv ++ w2) ++ [93])) := by
  have hf : lintFuel (cstr (91 :: (w1 ++ c :: tv ++ w2) ++ [93])) =
      (3 * (w1 ++ c :: tv ++ w2).length + 9 + 1) + 2 := by
    simp only [lintFuel, cstr, List.length_append, List.length_cons, List.length_nil]
    omega
  have hp : ProcessWhitespace (cstr (91 :: (w1 ++ c :: tv ++ w2) ++ [93])) =
      .done (91 :: (w1 ++ c :: (tv ++ (w2 ++ 93 :: [0])))) := by
    have := ProcessWhitespace_stop 91 (w1 ++ c :: (tv ++ (w2 ++ 93 :: [0]))) (by omega)
    simpa [cstr] using this
  have hin : ProcessWhitespace (w1 ++ c :: (tv ++ (w2 ++ 93 :: [0]))) =
      .done (c :: (tv ++ (w2 ++ 93 :: [0]))) :=
    ProcessWhitespace_run w1 hw1 c _ (LeadByte.not_ws hc).1
  have hc93 : c ≠ 93 := (LeadByte.not_ws hc).2.1
  constructor
  · intro h
    have hz2 : 0 ∉ 91 :: (w1 ++ c :: tv ++ w2) ++ [93] := by
      generalize w1 ++ c :: tv ++ w2 = X at hz
      simp [hz]
    refine LintJSON_of_success _ _ [0] (by simp) hz2 hp ?_ (ProcessWhitespace_stop 0 []
      (by omega))
    rw [hf]
    refine ProcessValue_array_success _ _ _ [0] none hin ?_
    rw [arrayLoop_step _ _ _ _ hc93,
      arrayTurn_last _ _ w2 [0] none hw2 h]
    exact arrayLoop_stop _ _ _
  · intro h
    refine LintJSON_of_fails _ _ hp ?_
    rw [hf]
    refine ProcessValue_array_fails _ _ _ none hin ?_
    rw [arrayLoop_step _ _ _ _ hc93]
    exact arrayTurn_fails _ _ _ h


/-- C7: nesting symmetry.  For every JSON text `X` of ECMA-404 (one value, with
whitespace allowed before and after it), `LintJSON` returns
`RESULT_JSON_LINT_SUCCESS` on `[` ++ `X` ++ `]` if and only if it returns
`RESULT_JSON_LINT_SUCCESS` on `X`; each text is held in an array of exactly its bytes
and the terminator.  In particular the brackets around an accepted text give an
accepted text. -/
theorem C7_nesting_symmetry (X : List Nat) (hX : Ecma404.JsonText X) :
    Accepts (91 :: X ++ [93]) ↔ Accepts X := by
  cases hX with
  | mk w1 v w2 hw1 hv hw2 =>
    obtain ⟨c, tv, rfl, hc⟩ := Ecma404.value_head hv rfl
    have hz : 0 ∉ w1 ++ c :: tv ++ w2 := by
      intro hm
      rw [List.mem_append, List.mem_append] at hm
      rcases hm with (h | h) | h
      · exact Ecma404.Ws_no_zero hw1 h
      · exact Ecma404.derives_no_zero hv h
      · exact Ecma404.Ws_no_zero hw2 h
    have hT : Uniform Delim
        (fun R => ProcessValue (3 * (w1 ++ c :: tv ++ w2).length + 9)
          { index := (c :: tv) ++ R, ptr_invalid_json := none })
        (fun R => { index := R, ptr_invalid_json := none }) :=
      derives_tracks hv _ none
    have hfuel : ProcessValue (lintFuel (cstr (w1 ++ c :: tv ++ w2)))
          { index := c :: (tv ++ (w2 ++ [0])), ptr_invalid_json := none } =
        ProcessValue (3 * (w1 ++ c :: tv ++ w2).length + 9)
          { index := c :: (tv ++ (w2 ++ [0])), ptr_invalid_json := none } := by
      apply ProcessValue_fuel_irrelevant
      · simp only [List.length_append, List.length_cons, List.length_nil]
        omega
      · simp only [lintFuel, cstr, List.length_append, List.length_cons, List.length_nil]
        omega
    have hplain := LintJSON_plain w1 tv w2 c hw1 hw2 hc hz
    have hwrapped := LintJSON_wrapped w1 tv w2 c hw1 hw2 hc hz
    rw [hfuel] at hplain
    have d1 : Delim (w2 ++ 93 :: [0]) :=
      Delim.of_ws_cons w2 hw2 93 [0] (by omega) (by simp)
    have d2 : Delim (w2 ++ [0]) := Delim.of_ws_end w2 hw2
    rcases hT with hS | hF
    · exact ⟨fun _ => hplain.1 (hS _ d2), fun _ => hwrapped.1 (hS _ d1)⟩
    · exact ⟨fun h => absurd h (hwrapped.2 (hF _ d1)),
        fun h => absurd h (hplain.2 (hF _ d2))⟩

theorem C7_nesting_symmetry_witness :
    Ecma404.JsonText ([32] ++ [116, 114, 117, 101] ++ [32]) ∧
      (Accepts (91 :: ([32] ++ [116, 114, 117, 101] ++ [32]) ++ [93]) ↔
        Accepts ([32] ++ [116, 114, 117, 101] ++ [32])) :=
  ⟨Ecma404.JsonText.mk [32] [116, 114, 117, 101] [32] (by simp [Ecma404.Ws])
      Ecma404.Derives.lit_true (by simp [Ecma404.Ws]),
    C7_nesting_symmetry _ (Ecma404.JsonText.mk [32] [116, 114, 117, 101] [32]
      (by simp [Ecma404.Ws]) Ecma404.Derives.lit_true (by simp [Ecma404.Ws]))⟩


/-! ## Strings that are not closed -/

/-- The string loop steps over bytes that are neither `"` nor `\`, one unit of fuel
for each of them. -/
theorem stringLoop_walk (s : List Nat) (hs : ∀ c ∈ s, c ≠ 34 ∧ c ≠ 92) :
    ∀ (fuel : Nat) (R : List Nat) (o : Option (List Nat)),
      stringLoop (fuel + s.length) { index := s ++ R, ptr_invalid_json := o } =
        stringLoop fuel { index := R, ptr_invalid_json := o } := by
  induction s with
  | nil => intro fuel R o; rfl
  | cons c s ih =>
    intro fuel R o
    have hc := hs c (by simp)
    have h34 : c ≠ 34 := hc.1
    have h92 : c ≠ 92 := hc.2
    have ih2 := ih (fun x hx => hs x (by simp [hx])) fuel R o
    rw [show fuel + (c :: s).length = (fuel + s.length) + 1 by simp; omega, stringLoop_succ]
    simp only [List.cons_append, lit_bytes.2.2.2.2.2.1, strncmp0_cons_one, h34, decide_False,
      Run.bind_done, Bool.false_eq_true, if_false, peek_cons, h92, List.drop_succ_cons,
      List.drop_zero]
    exact ih2

/-- At the terminator the string loop takes the NUL for a character of the string,
steps over it and reads the byte after the end of the array. -/
theorem stringLoop_terminator (fuel : Nat) (o : Option (List Nat)) :
    stringLoop (fuel + 2) { index := [0], ptr_invalid_json := o } = .undefined := by
  rw [stringLoop_succ]
  simp only [lit_bytes.2.2.2.2.2.1, strncmp0_cons_one, show decide (0 = 34) = false from rfl,
    Run.bind_done, Bool.false_eq_true, if_false, peek_cons, show (0 : Nat) ≠ 92 by omega,
    List.drop_succ_cons, List.drop_zero, List.drop_nil]
  rw [stringLoop_succ]
  simp [lit_bytes.2.2.2.2.2.1]

/-- C11: unterminated string.  On every text that is a quotation mark followed by
bytes none of which is `"` or `\`, held in an array of exactly its bytes and the
terminator, `ProcessString` does not return `RESULT_JSON_INVALID`: its loop (lines
382-408) steps over the terminator as over a character of the string and reads the byte
after the end of the array, which is undefined; and so is the run of `LintJSON`. -/
theorem C11_unterminated_string_reads_past_end (s : List Nat)
    (hs : ∀ c ∈ s, c ≠ 34 ∧ c ≠ 92) :
    (∀ o, ProcessString { index := cstr (34 :: s), ptr_invalid_json := o } = .undefined) ∧
      LintJSON (cstr (34 :: s)) = .undefined := by
  have hstr : ∀ o, ProcessString { index := cstr (34 :: s), ptr_invalid_json := o } =
      .undefined := by
    intro o
    have h := stringLoop_walk s hs 2 [0] o
    rw [stringLoop_terminator] at h
    simp only [ProcessString, Run.bind_eq, Run.pure_eq, cstr, List.cons_append,
      lit_bytes.2.2.1, strncmp0_cons_one, decide_True, Run.bind_done, if_true,
      List.drop_succ_cons, List.drop_zero, List.length_append, List.length_cons,
      List.length_nil]
    rw [show s.length + (0 + 1) + 1 = 2 + s.length by omega, h]
    rfl
  refine ⟨hstr, ?_⟩
  have hv : ProcessValue (lintFuel (cstr (34 :: s)))
      { index := cstr (34 :: s), ptr_invalid_json := none } = .undefined := by
    have e : lintFuel (cstr (34 :: s)) = (3 * (cstr (34 :: s)).length + 1) + 2 := rfl
    rw [e]
    have hl := ProcessValue_leaves (3 * (cstr (34 :: s)).length + 1) 34 (s ++ [0]) none
      (by omega) (by omega)
    have hs2 := hstr none
    simp only [cstr, List.cons_append] at hl hs2 ⊢
    rw [hl]
    simp only [valueLeaves, hs2, Run.bind_undefined]
  simp only [LintJSON, Run.bind_eq, Run.pure_eq]
  rw [show peek (cstr (34 :: s)) = .done 34 from rfl]
  simp only [Run.bind_done, ne_eq, show (34 : Nat) ≠ 0 by omega, not_false_eq_true, if_true]
  rw [show ProcessWhitespace (cstr (34 :: s)) = .done (cstr (34 :: s)) by
    simpa [cstr] using ProcessWhitespace_stop 34 (s ++ [0]) (by omega)]
  simp only [Run.bind_done, hv, Run.bind_undefined]

theorem C11_unterminated_string_reads_past_end_witness :
    (∀ c ∈ [97, 98, 99], c ≠ 34 ∧ c ≠ 92) ∧
      ((∀ o, ProcessString { index := cstr (34 :: [97, 98, 99]), ptr_invalid_json := o } =
          .undefined) ∧
        LintJSON (cstr (34 :: [97, 98, 99])) = .undefined) :=
  ⟨by decide, C11_unterminated_string_reads_past_end [97, 98, 99] (by decide)⟩


/-! ## Leading zeros -/

/-- `ProcessNumber` on a `0` that is followed by a digit: only the `0` is consumed. -/
theorem ProcessNumber_zero_digit (d : Nat) (t : List Nat) (o : Option (List Nat))
    (hd : Ecma404.isDigit d) :
    ProcessNumber { index := 48 :: d :: t, ptr_invalid_json := o } =
      .done (RESULT_JSON_SUCCESS, { index := d :: t, ptr_invalid_json := o }) := by
  have h1 := hd.1
  have h2 := hd.2
  have hs : strchr STRING_DIGIT_1_9 48 = false := by decide
  have he : strchr STRING_EXPONENT_DIGITS d = false := by
    rw [Bool.eq_false_iff]
    intro h
    have := (strchr_exponent d).mp h
    omega
  have h46 : d ≠ 46 := by omega
  simp only [ProcessNumber, numberInteger, numberFraction, numberExponent, Run.bind_eq,
    Run.pure_eq, Run.or, Run.and, lit_bytes.2.2.2.2.2.2.2.2.2.1,
    lit_bytes.2.2.2.2.2.2.2.2.2.2.1, lit_bytes.2.2.2.2.2.2.2.2.2.2.2.1, strncmp0_cons_one,
    show decide (48 = 45) = false from rfl, decide_True, Run.bind_done, Bool.false_eq_true,
    if_false, if_true, peek_cons, hs, List.drop_succ_cons, List.drop_zero, h46, decide_False,
    he]

/-- C12: leading zeros.  On every text that is the digit `0` followed by one or more
digits, held in an array of exactly its bytes and the terminator, `ProcessNumber`
returns `RESULT_JSON_SUCCESS` with the cursor on the second byte (only the first `0`
is consumed), and `LintJSON` returns `RESULT_JSON_LINT_INVALID` with `ptr_invalid_json`
at offset 1. -/
theorem C12_leading_zeros_rejected (ds : List Nat) (hne : ds ≠ [])
    (hd : ∀ c ∈ ds, Ecma404.isDigit c) :
    (∀ o, ProcessNumber { index := cstr (48 :: ds), ptr_invalid_json := o } =
        .done (RESULT_JSON_SUCCESS, { index := cstr ds, ptr_invalid_json := o })) ∧
      LintJSON (cstr (48 :: ds)) = .done (RESULT_JSON_LINT_INVALID, some (cstr ds)) ∧
      error_offset (cstr (48 :: ds)) (cstr ds) = 1 := by
  cases ds with
  | nil => exact absurd rfl hne
  | cons d t =>
    have hdd : Ecma404.isDigit d := hd d (by simp)
    have hd1 := hdd.1
    have hnum : ∀ o, ProcessNumber { index := cstr (48 :: d :: t), ptr_invalid_json := o } =
        .done (RESULT_JSON_SUCCESS, { index := cstr (d :: t), ptr_invalid_json := o }) := by
      intro o
      simpa [cstr] using ProcessNumber_zero_digit d (t ++ [0]) o hdd
    refine ⟨hnum, ?_, ?_⟩
    · have hz : 0 ∉ 48 :: d :: t := by
        intro hm
        rcases List.mem_cons.mp hm with e | hm
        · omega
        · have := (hd 0 hm).1
          omega
      have hlen := strlen_cstr (48 :: d :: t) hz
      have hv : ProcessValue (lintFuel (cstr (48 :: d :: t)))
          { index := cstr (48 :: d :: t), ptr_invalid_json := none } =
          .done (RESULT_JSON_SUCCESS,
            { index := cstr (d :: t), ptr_invalid_json := none }) := by
        have e : lintFuel (cstr (48 :: d :: t)) =
            (3 * (cstr (48 :: d :: t)).length + 1) + 2 := rfl
        rw [e]
        have hl := ProcessValue_leaves (3 * (cstr (48 :: d :: t)).length + 1) 48
          (d :: t ++ [0]) none (by omega) (by omega)
        have hs := ProcessString_other 48 (d :: t ++ [0]) none (by omega)
        have hn := hnum none
        simp only [cstr, List.cons_append] at hl hs hn ⊢
        rw [hl]
        simp only [valueLeaves, hs, hn, Run.bind_done, ne_eq, not_true_eq_false, if_false,
          reduceCtorEq, not_false_eq_true, if_true]
      have hw1 : ProcessWhitespace (cstr (48 :: d :: t)) = .done (cstr (48 :: d :: t)) := by
        simpa [cstr] using ProcessWhitespace_stop 48 (d :: t ++ [0]) (by omega)
      have hw2 : ProcessWhitespace (cstr (d :: t)) = .done (cstr (d :: t)) := by
        simpa [cstr] using ProcessWhitespace_stop d (t ++ [0]) (by omega)
      simp only [LintJSON, Run.bind_eq, Run.pure_eq]
      rw [show peek (cstr (48 :: d :: t)) = .done 48 from rfl]
      simp only [Run.bind_done, ne_eq, show (48 : Nat) ≠ 0 by omega, not_false_eq_true,
        if_true, hw1, hv, hw2, hlen]
      simp [cstr]
    · simp [error_offset, cstr]

theorem C12_leading_zeros_rejected_witness :
    [48, 48, 48] ≠ [] ∧ (∀ c ∈ [48, 48, 48], Ecma404.isDigit c) ∧
      ((∀ o, ProcessNumber { index := cstr (48 :: [48, 48, 48]), ptr_invalid_json := o } =
          .done (RESULT_JSON_SUCCESS, { index := cstr [48, 48, 48], ptr_invalid_json := o })) ∧
        LintJSON (cstr (48 :: [48, 48, 48])) =
          .done (RESULT_JSON_LINT_INVALID, some (cstr [48, 48, 48])) ∧
        error_offset (cstr (48 :: [48, 48, 48])) (cstr [48, 48, 48]) = 1) :=
  ⟨by decide, by simp [Ecma404.isDigit],
    C12_leading_zeros_rejected [48, 48, 48] (by decide) (by simp [Ecma404.isDigit])⟩


/-! ## The terminator taken for a character, exponents without digits, the closing brace -/

/-- C13: the terminator is consumed.  On the text `1e` the test of lines 473-475 is made
with the cursor on the terminator and comes out true (`strchr` finds NUL in every
literal), line 476 moves the cursor past the terminator to offset 3, and the loop of
line 477 reads there: the run of `ProcessNumber` and of `LintJSON` is undefined.  On
the text `"\` the terminator passes for an escape character (line 386) and is stepped
over at line 399, with the same end. -/
theorem C13_terminator_is_consumed :
    ((strncmp0 [0] STRING_SIGN_POS).or ((strncmp0 [0] STRING_SIGN_NEG).or
        ((peek [0]).bind fun c => .done (strchr STRING_DIGIT_0_9 c)))) = .done true ∧
      ProcessNumber { index := cstr (bytes "1e"), ptr_invalid_json := none } = .undefined ∧
      lint "1e" = .undefined ∧
      strchr STRING_ESCAPE_CHARS 0 = true ∧
      ProcessString { index := cstr (bytes "\"\\"), ptr_invalid_json := none } = .undefined ∧
      lint "\"\\" = .undefined := by
  refine ⟨?_, ?_, ?_, ?_, ?_, ?_⟩ <;> decide!

/-- C14: an exponent without digits is accepted.  On `1e+`, on `[1e-]` and on `9.e+`
the exponent marker and its sign are followed by no digit, and `LintJSON` returns
`RESULT_JSON_LINT_SUCCESS`: after the sign (line 476) the loop of line 477 takes zero
or more digits. -/
theorem C14_exponent_without_digits_accepted :
    ProcessNumber { index := cstr (bytes "1e+"), ptr_invalid_json := none } =
        .done (RESULT_JSON_SUCCESS, { index := [0], ptr_invalid_json := none }) ∧
      lint "1e+" = .done (RESULT_JSON_LINT_SUCCESS, none) ∧
      lint "[1e-]" = .done (RESULT_JSON_LINT_SUCCESS, none) ∧
      lint "9.e+" = .done (RESULT_JSON_LINT_SUCCESS, none) := by
  refine ⟨?_, ?_, ?_, ?_⟩ <;> decide!

/-- C15: the closing brace is consumed on error.  On the text `{"a"}` the violation is
at offset 4, where the colon is missing, and `ProcessObject` returns
`RESULT_JSON_INVALID` with `ptr_invalid_json` at offset 4 and the cursor at offset 5:
line 298 has stepped over the closing brace although the loop ended with an error. -/
theorem C15_closing_brace_consumed_on_error (fuel : Nat) :
    ProcessObject (fuel + 3)
        { index := cstr (bytes "\x7b\"a\"\x7d"), ptr_invalid_json := none } =
      .done (RESULT_JSON_INVALID, { index := [0], ptr_invalid_json := some [125, 0] }) ∧
    error_offset (cstr (bytes "\x7b\"a\"\x7d")) [125, 0] = 4 ∧
    error_offset (cstr (bytes "\x7b\"a\"\x7d")) [0] = 5 := by
  refine ⟨?_, by decide, by decide⟩
  induction fuel with
  | zero => decide!
  | succ fuel ih =>
    rw [(matchers_mono (fuel + 3)).2.1 _ (by rw [ih]; exact fun h => by cases h)]
    exact ih


/-! ## No value at the cursor -/

/-- In an array that holds a NUL after the bytes `t`, the comparison with a literal
without NUL ends inside the array: it tells whether `t` begins with the literal. -/
theorem strncmp0_prefix (lit : List Nat) (hl : 0 ∉ lit) :
    ∀ (t r : List Nat), strncmp0 (t ++ 0 :: r) lit = .done (decide (lit <+: t)) := by
  induction lit with
  | nil => intro t r; cases t <;> simp [strncmp0]
  | cons d lit ih =>
    intro t r
    have hd : d ≠ 0 := fun e => hl (by simp [e])
    have hl2 : 0 ∉ lit := fun e => hl (by simp [e])
    cases t with
    | nil => simp [strncmp0, Ne.symm hd]
    | cons c t =>
      by_cases hcd : c = d
      · subst hcd
        simp only [List.cons_append, strncmp0, if_true, List.cons_prefix_cons, true_and]
        exact ih hl2 t r
      · have : ¬(d :: lit <+: c :: t) := by
          rw [List.cons_prefix_cons]
          exact fun h => hcd h.1.symm
        simp [strncmp0, hcd, this]

/-- C16: no value here.  Let the text be whitespace `w` followed by a byte `c` and the
bytes `rest`, where `c` is no whitespace, not NUL, none of `{`, `[`, `"`, `-` and the
digits, and `c :: rest` does not begin with `false`, `true` or `null`.  Then
`ProcessValue`, called with the cursor on `c`, returns `RESULT_JSON_INVALID`, leaves
the cursor where it was and sets `ptr_invalid_json` to it; and `LintJSON` returns
`RESULT_JSON_LINT_INVALID` with `ptr_invalid_json` at the offset that is the number of
the whitespace bytes. -/
theorem C16_no_value_here (w rest : List Nat) (c : Nat) (hw : Ecma404.Ws w)
    (hns : ¬(c = 0x09 ∨ c = 0x0A ∨ c = 0x0D ∨ c = 0x20)) (hc0 : c ≠ 0)
    (hlead : c ≠ 123 ∧ c ≠ 91 ∧ c ≠ 34 ∧ c ≠ 45 ∧ ¬Ecma404.isDigit c)
    (hf : ¬STRING_FALSE <+: c :: rest) (ht : ¬STRING_TRUE <+: c :: rest)
    (hn : ¬STRING_NULL <+: c :: rest) :
    (∀ fuel o, ProcessValue (fuel + 2) { index := cstr (c :: rest), ptr_invalid_json := o } =
        .done (RESULT_JSON_INVALID,
          { index := cstr (c :: rest), ptr_invalid_json := some (cstr (c :: rest)) })) ∧
      LintJSON (cstr (w ++ c :: rest)) =
        .done (RESULT_JSON_LINT_INVALID, some (cstr (c :: rest))) ∧
      error_offset (cstr (w ++ c :: rest)) (cstr (c :: rest)) = w.length := by
  obtain ⟨h123, h91, h34, h45, hdig⟩ := hlead
  have hF : strncmp0 (c :: (rest ++ [0])) STRING_FALSE = .done false := by
    have := strncmp0_prefix STRING_FALSE (by decide) (c :: rest) []
    simpa [hf] using this
  have hT : strncmp0 (c :: (rest ++ [0])) STRING_TRUE = .done false := by
    have := strncmp0_prefix STRING_TRUE (by decide) (c :: rest) []
    simpa [ht] using this
  have hN : strncmp0 (c :: (rest ++ [0])) STRING_NULL = .done false := by
    have := strncmp0_prefix STRING_NULL (by decide) (c :: rest) []
    simpa [hn] using this
  have hval : ∀ fuel o,
      ProcessValue (fuel + 2) { index := cstr (c :: rest), ptr_invalid_json := o } =
        .done (RESULT_JSON_INVALID,
          { index := cstr (c :: rest), ptr_invalid_json := some (cstr (c :: rest)) }) := by
    intro fuel o
    have hl := ProcessValue_leaves fuel c (rest ++ [0]) o h123 h91
    simp only [cstr, List.cons_append]
    rw [hl]
    simp only [valueLeaves, ProcessString_other c (rest ++ [0]) o h34,
      ProcessNumber_other c (rest ++ [0]) o h45 hc0 hdig, Run.bind_done, ne_eq,
      not_true_eq_false, if_false, hF, hT, hN, Bool.false_eq_true]
  refine ⟨hval, ?_, ?_⟩
  · obtain ⟨h, tl, hbuf, hh⟩ : ∃ h tl, cstr (w ++ c :: rest) = h :: tl ∧ h ≠ 0 := by
      cases w with
      | nil => exact ⟨c, rest ++ [0], by simp [cstr], hc0⟩
      | cons x w =>
        have := hw x (by simp)
        exact ⟨x, w ++ c :: rest ++ [0], by simp [cstr], by omega⟩
    have hpeek : peek (cstr (w ++ c :: rest)) = .done h := by rw [hbuf]; rfl
    have hskip : ProcessWhitespace (cstr (w ++ c :: rest)) = .done (cstr (c :: rest)) := by
      simpa [cstr] using ProcessWhitespace_run w hw c (rest ++ [0]) hns
    have e : lintFuel (cstr (w ++ c :: rest)) =
        (3 * (cstr (w ++ c :: rest)).length + 1) + 2 := rfl
    simp only [LintJSON, Run.bind_eq, Run.pure_eq, hpeek, Run.bind_done, ne_eq, hh,
      not_false_eq_true, if_true, hskip]
    rw [e, hval]
    simp
  · simp [error_offset, cstr]

theorem C16_no_value_here_witness :
    Ecma404.Ws [32, 32] ∧ ¬((116 : Nat) = 0x09 ∨ (116 : Nat) = 0x0A ∨ (116 : Nat) = 0x0D ∨
        (116 : Nat) = 0x20) ∧ (116 : Nat) ≠ 0 ∧
      ((116 : Nat) ≠ 123 ∧ (116 : Nat) ≠ 91 ∧ (116 : Nat) ≠ 34 ∧ (116 : Nat) ≠ 45 ∧
        ¬Ecma404.isDigit 116) ∧
      ¬STRING_FALSE <+: 116 :: [82, 117, 101] ∧ ¬STRING_TRUE <+: 116 :: [82, 117, 101] ∧
      ¬STRING_NULL <+: 116 :: [82, 117, 101] ∧
      ((∀ fuel o, ProcessValue (fuel + 2)
          { index := cstr (116 :: [82, 117, 101]), ptr_invalid_json := o } =
          .done (RESULT_JSON_INVALID,
            { index := cstr (116 :: [82, 117, 101]),
              ptr_invalid_json := some (cstr (116 :: [82, 117, 101])) })) ∧
        LintJSON (cstr ([32, 32] ++ 116 :: [82, 117, 101])) =
          .done (RESULT_JSON_LINT_INVALID, some (cstr (116 :: [82, 117, 101]))) ∧
        error_offset (cstr ([32, 32] ++ 116 :: [82, 117, 101]))
          (cstr (116 :: [82, 117, 101])) = [32, 32].length) :=
  ⟨by simp [Ecma404.Ws], by omega, by omega,
    ⟨by omega, by omega, by omega, by omega, by simp [Ecma404.isDigit]⟩,
    by decide, by decide, by decide,
    C16_no_value_here [32, 32] [82, 117, 101] 116 (by simp [Ecma404.Ws]) (by omega) (by omega)
      ⟨by omega, by omega, by omega, by omega, by simp [Ecma404.isDigit]⟩
      (by decide) (by decide) (by decide)⟩


/-! ## `RESULT_JSON_NOT_FOUND` -/

/-- With `{` at the cursor `ProcessObject` does not return `RESULT_JSON_NOT_FOUND`. -/
theorem ProcessObject_lead (fuel : Nat) (t : List Nat) (o : Option (List Nat))
    (m' : Machine) :
    ProcessObject fuel { index := 123 :: t, ptr_invalid_json := o } ≠
      .done (RESULT_JSON_NOT_FOUND, m') := by
  intro h
  cases fuel with
  | zero => simp [ProcessObject] at h
  | succ fuel =>
    rw [ProcessObject_succ] at h
    simp only [lit_bytes.1, strncmp0_cons_one, decide_True, Run.bind_done, if_true] at h
    rw [Run.bind_eq_done] at h
    obtain ⟨p, -, h⟩ := h
    rw [Run.bind_eq_done] at h
    obtain ⟨⟨r, m1⟩, hx, h⟩ := h
    have hn := ((matchers_agree fuel).2.2.1 o _ _ _ hx (by simp) (by simp [Agrees])).1
    simp only [Run.done.injEq, Prod.mk.injEq] at h
    exact hn h.1

/-- With `[` at the cursor `ProcessArray` does not return `RESULT_JSON_NOT_FOUND`. -/
theorem ProcessArray_lead (fuel : Nat) (t : List Nat) (o : Option (List Nat))
    (m' : Machine) :
    ProcessArray fuel { index := 91 :: t, ptr_invalid_json := o } ≠
      .done (RESULT_JSON_NOT_FOUND, m') := by
  intro h
  cases fuel with
  | zero => simp [ProcessArray] at h
  | succ fuel =>
    rw [ProcessArray_succ] at h
    simp only [lit_bytes.2.1, strncmp0_cons_one, decide_True, Run.bind_done, if_true] at h
    rw [Run.bind_eq_done] at h
    obtain ⟨p, -, h⟩ := h
    rw [Run.bind_eq_done] at h
    obtain ⟨⟨r, m1⟩, hx, h⟩ := h
    have hn := ((matchers_agree fuel).2.2.2.2 o _ _ _ hx (by simp) (by simp [Agrees])).1
    split at h <;> simp only [Run.done.injEq, Prod.mk.injEq] at h <;> exact hn h.1

/-- With `"` at the cursor `ProcessString` does not return `RESULT_JSON_NOT_FOUND`. -/
theorem ProcessString_lead (t : List Nat) (o : Option (List Nat)) (m' : Machine) :
    ProcessString { index := 34 :: t, ptr_invalid_json := o } ≠
      .done (RESULT_JSON_NOT_FOUND, m') := by
  intro h
  simp only [ProcessString, Run.bind_eq, Run.pure_eq, lit_bytes.2.2.1, strncmp0_cons_one,
    decide_True, Run.bind_done, if_true] at h
  rw [Run.bind_eq_done] at h
  obtain ⟨⟨r, m1⟩, hx, h⟩ := h
  have hn := (stringLoop_agrees _ _ _ hx).1
  split at h <;> simp only [Run.done.injEq, Prod.mk.injEq] at h <;> exact hn h.1

/-- With `-` or a digit at the cursor `ProcessNumber` does not return
`RESULT_JSON_NOT_FOUND`. -/
theorem ProcessNumber_lead (c : Nat) (t : List Nat) (o : Option (List Nat)) (m' : Machine)
    (hc : c = 45 ∨ Ecma404.isDigit c) :
    ProcessNumber { index := c :: t, ptr_invalid_json := o } ≠
      .done (RESULT_JSON_NOT_FOUND, m') := by
  intro h
  have htest : ((strncmp0 (c :: t) STRING_SIGN_NEG).or ((strncmp0 (c :: t) STRING_0).or
      ((peek (c :: t)).bind fun c => .done (strchr STRING_DIGIT_1_9 c)))) = .done true := by
    simp only [lit_bytes.2.2.2.2.2.2.2.2.2.1, lit_bytes.2.2.2.2.2.2.2.2.2.2.2.1,
      strncmp0_cons_one, Run.or, Run.bind_done, peek_cons]
    rcases hc with rfl | hd
    · simp
    · by_cases h45 : c = 45
      · simp [h45]
      · by_cases h48 : c = 48
        · simp [h48]
        · have hs : strchr STRING_DIGIT_1_9 c = true :=
            (strchr_digit_1_9 c).mpr (Or.inr ⟨by have := hd.1; omega, hd.2⟩)
          simp [h45, h48, hs]
  simp only [ProcessNumber, Run.bind_eq, Run.pure_eq, htest, Run.bind_done, if_true] at h
  rw [Run.bind_eq_done] at h
  obtain ⟨⟨r1, m1⟩, h1, h⟩ := h
  rw [Run.bind_eq_done] at h
  obtain ⟨m2, -, h⟩ := h
  have a1 := (numberInteger_agrees _ _ h1).1
  rcases numberExponent_agrees _ _ _ h with ⟨e, -⟩ | ⟨e, -⟩
  · exact a1 e.symm
  · cases e

/-- C17: `RESULT_JSON_NOT_FOUND` is free of side effects.  For each of `ProcessObject`,
`ProcessArray`, `ProcessString` and `ProcessNumber` and every machine `m` (cursor and
`ptr_invalid_json`): when the matcher returns `RESULT_JSON_NOT_FOUND`, the machine it
leaves is `m`; and with its lead byte at the cursor (`{`, `[`, `"`, and `-` or a digit)
the matcher does not return `RESULT_JSON_NOT_FOUND`. -/
theorem C17_not_found_is_side_effect_free (fuel : Nat) (m m' : Machine) :
    (ProcessObject fuel m = .done (RESULT_JSON_NOT_FOUND, m') → m' = m) ∧
    (ProcessArray fuel m = .done (RESULT_JSON_NOT_FOUND, m') → m' = m) ∧
    (ProcessString m = .done (RESULT_JSON_NOT_FOUND, m') → m' = m) ∧
    (ProcessNumber m = .done (RESULT_JSON_NOT_FOUND, m') → m' = m) ∧
    (∀ t, m.index = 123 :: t → ProcessObject fuel m ≠ .done (RESULT_JSON_NOT_FOUND, m')) ∧
    (∀ t, m.index = 91 :: t → ProcessArray fuel m ≠ .done (RESULT_JSON_NOT_FOUND, m')) ∧
    (∀ t, m.index = 34 :: t → ProcessString m ≠ .done (RESULT_JSON_NOT_FOUND, m')) ∧
    (∀ c t, m.index = c :: t → c = 45 ∨ Ecma404.isDigit c →
      ProcessNumber m ≠ .done (RESULT_JSON_NOT_FOUND, m')) := by
  obtain ⟨index, o⟩ := m
  refine ⟨?_, ?_, ?_, ?_, ?_, ?_, ?_, ?_⟩
  · intro h
    exact ((matchers_agree fuel).2.1 _ _ h).2 rfl
  · intro h
    exact ((matchers_agree fuel).2.2.2.1 _ _ h).2 rfl
  · intro h
    exact (ProcessString_agrees _ _ h).2 rfl
  · intro h
    exact (ProcessNumber_agrees _ _ h).2 rfl
  · intro t e
    simp only at e
    subst e
    exact ProcessObject_lead fuel t o m'
  · intro t e
    simp only at e
    subst e
    exact ProcessArray_lead fuel t o m'
  · intro t e
    simp only at e
    subst e
    exact ProcessString_lead t o m'
  · intro c t e hc
    simp only at e
    subst e
    exact ProcessNumber_lead c t o m' hc

theorem C17_not_found_is_side_effect_free_witness :
    ProcessString { index := [49, 0], ptr_invalid_json := some [0] } =
        .done (RESULT_JSON_NOT_FOUND, { index := [49, 0], ptr_invalid_json := some [0] }) ∧
      ProcessNumber { index := [34, 34, 0], ptr_invalid_json := none } =
        .done (RESULT_JSON_NOT_FOUND, { index := [34, 34, 0], ptr_invalid_json := none }) ∧
      ProcessString { index := [34, 34, 0], ptr_invalid_json := none } ≠
        .done (RESULT_JSON_NOT_FOUND, { index := [34, 34, 0], ptr_invalid_json := none }) :=
  ⟨by decide!, by decide!,
    (C17_not_found_is_side_effect_free 0 { index := [34, 34, 0], ptr_invalid_json := none }
      { index := [34, 34, 0], ptr_invalid_json := none }).2.2.2.2.2.2.1 [34, 0] rfl⟩


/-! ## Escapes -/

/-- C18: a bad escape is located at the escape character.  For every text of the form
`"` `s` `\` `c` `r`, where `s` holds no `"` and no `\`, and `c` is not NUL and none of
`"`, `\`, `/`, `b`, `f`, `n`, `r`, `t`, `u`: `ProcessString` returns
`RESULT_JSON_INVALID` with the cursor and `ptr_invalid_json` on `c`, and `LintJSON`
returns `RESULT_JSON_LINT_INVALID` with `ptr_invalid_json` at the offset of `c`, which
is the length of `s` plus 2. -/
theorem C18_bad_escape_located (s r : List Nat) (c : Nat) (hs : ∀ x ∈ s, x ≠ 34 ∧ x ≠ 92)
    (hc0 : c ≠ 0)
    (hc : c ≠ 34 ∧ c ≠ 92 ∧ c ≠ 47 ∧ c ≠ 98 ∧ c ≠ 102 ∧ c ≠ 110 ∧ c ≠ 114 ∧ c ≠ 116 ∧
      c ≠ 117) :
    (∀ o, ProcessString { index := cstr (34 :: s ++ 92 :: c :: r), ptr_invalid_json := o } =
        .done (RESULT_JSON_INVALID,
          { index := cstr (c :: r), ptr_invalid_json := some (cstr (c :: r)) })) ∧
      LintJSON (cstr (34 :: s ++ 92 :: c :: r)) =
        .done (RESULT_JSON_LINT_INVALID, some (cstr (c :: r))) ∧
      error_offset (cstr (34 :: s ++ 92 :: c :: r)) (cstr (c :: r)) = s.length + 2 := by
  have hesc : strchr STRING_ESCAPE_CHARS c = false := by
    rw [Bool.eq_false_iff]
    intro h
    have := (strchr_escape c).mp h
    omega
  have hbuf : cstr (34 :: s ++ 92 :: c :: r) = 34 :: (s ++ 92 :: c :: (r ++ [0])) := by
    simp [cstr]
  have hcr : cstr (c :: r) = c :: (r ++ [0]) := by simp [cstr]
  have hstr : ∀ o,
      ProcessString { index := cstr (34 :: s ++ 92 :: c :: r), ptr_invalid_json := o } =
        .done (RESULT_JSON_INVALID,
          { index := cstr (c :: r), ptr_invalid_json := some (cstr (c :: r)) }) := by
    intro o
    have hwalk := stringLoop_walk s hs ((92 :: c :: (r ++ [0])).length + 1)
      (92 :: c :: (r ++ [0])) o
    have hstep : stringLoop ((92 :: c :: (r ++ [0])).length + 1)
        { index := 92 :: c :: (r ++ [0]), ptr_invalid_json := o } =
        .done (RESULT_JSON_INVALID,
          { index := c :: (r ++ [0]), ptr_invalid_json := some (c :: (r ++ [0])) }) := by
      rw [stringLoop_succ]
      simp only [lit_bytes.2.2.2.2.2.1, strncmp0_cons_one,
        show decide (92 = 34) = false from rfl, Run.bind_done, Bool.false_eq_true, if_false,
        peek_cons, if_true, List.drop_succ_cons, List.drop_zero, hesc]
    rw [hstep] at hwalk
    rw [hbuf, hcr]
    simp only [ProcessString, Run.bind_eq, Run.pure_eq, lit_bytes.2.2.1, strncmp0_cons_one,
      decide_True, Run.bind_done, if_true, List.drop_succ_cons, List.drop_zero]
    rw [show (s ++ 92 :: c :: (r ++ [0])).length + 1 =
      (92 :: c :: (r ++ [0])).length + 1 + s.length by
        simp only [List.length_append, List.length_cons]; omega, hwalk]
    simp
  refine ⟨hstr, ?_, ?_⟩
  · have e : lintFuel (cstr (34 :: s ++ 92 :: c :: r)) =
        (3 * (cstr (34 :: s ++ 92 :: c :: r)).length + 1) + 2 := rfl
    have hv : ProcessValue (lintFuel (cstr (34 :: s ++ 92 :: c :: r)))
        { index := cstr (34 :: s ++ 92 :: c :: r), ptr_invalid_json := none } =
        .done (RESULT_JSON_INVALID,
          { index := cstr (c :: r), ptr_invalid_json := some (cstr (c :: r)) }) := by
      have hl := ProcessValue_leaves (3 * (cstr (34 :: s ++ 92 :: c :: r)).length + 1) 34
        (s ++ 92 :: c :: (r ++ [0])) none (by omega) (by omega)
      have h1 := hstr none
      rw [e]
      rw [hbuf] at h1 hl ⊢
      rw [hl]
      simp only [valueLeaves, h1, Run.bind_done, ne_eq, reduceCtorEq, not_false_eq_true,
        if_true]
    have hw : ProcessWhitespace (cstr (34 :: s ++ 92 :: c :: r)) =
        .done (cstr (34 :: s ++ 92 :: c :: r)) := by
      rw [hbuf]
      exact ProcessWhitespace_stop 34 _ (by omega)
    have hpeek : peek (cstr (34 :: s ++ 92 :: c :: r)) = .done 34 := by rw [hbuf]; rfl
    simp only [LintJSON, Run.bind_eq, Run.pure_eq, hpeek, Run.bind_done, ne_eq,
      show (34 : Nat) ≠ 0 by omega, not_false_eq_true, if_true, hw, hv, reduceCtorEq,
      if_false]
  · rw [hbuf, hcr]
    simp only [error_offset, List.length_cons, List.length_append, List.length_nil]
    omega

theorem C18_bad_escape_located_witness :
    (∀ x ∈ [97, 98], x ≠ 34 ∧ x ≠ 92) ∧ (113 : Nat) ≠ 0 ∧
      ((113 : Nat) ≠ 34 ∧ (113 : Nat) ≠ 92 ∧ (113 : Nat) ≠ 47 ∧ (113 : Nat) ≠ 98 ∧
        (113 : Nat) ≠ 102 ∧ (113 : Nat) ≠ 110 ∧ (113 : Nat) ≠ 114 ∧ (113 : Nat) ≠ 116 ∧
        (113 : Nat) ≠ 117) ∧
      ((∀ o, ProcessString
          { index := cstr (34 :: [97, 98] ++ 92 :: 113 :: [99, 100, 34]),
            ptr_invalid_json := o } =
          .done (RESULT_JSON_INVALID,
            { index := cstr (113 :: [99, 100, 34]),
              ptr_invalid_json := some (cstr (113 :: [99, 100, 34])) })) ∧
        LintJSON (cstr (34 :: [97, 98] ++ 92 :: 113 :: [99, 100, 34])) =
          .done (RESULT_JSON_LINT_INVALID, some (cstr (113 :: [99, 100, 34]))) ∧
        error_offset (cstr (34 :: [97, 98] ++ 92 :: 113 :: [99, 100, 34]))
          (cstr (113 :: [99, 100, 34])) = [97, 98].length + 2) :=
  ⟨by decide, by decide, by decide,
    C18_bad_escape_located [97, 98] [99, 100, 34] 113 (by decide) (by decide) (by decide)⟩


/-- The test of lines 389-392 on four bytes of the array. -/
theorem hexWindow_eq (a b c d : Nat) (t : List Nat) :
    hexWindow (a :: b :: c :: d :: t) =
      .done (strchr STRING_HEX_CHARS a && strchr STRING_HEX_CHARS b &&
        strchr STRING_HEX_CHARS c && strchr STRING_HEX_CHARS d) := by
  cases ha : strchr STRING_HEX_CHARS a <;> cases hb : strchr STRING_HEX_CHARS b <;>
    cases hc : strchr STRING_HEX_CHARS c <;> cases hd : strchr STRING_HEX_CHARS d <;>
    simp [hexWindow, peekAt, ha, hb, hc, hd]

/-- `ProcessString` on the string `"\u` `h1 h2 h3 h4` `"`. -/
theorem ProcessString_unicode (h1 h2 h3 h4 : Nat) (R : List Nat) (o : Option (List Nat)) :
    ProcessString
        { index := 34 :: 92 :: 117 :: h1 :: h2 :: h3 :: h4 :: 34 :: R,
          ptr_invalid_json := o } =
      if (strchr STRING_HEX_CHARS h1 && strchr STRING_HEX_CHARS h2 &&
        strchr STRING_HEX_CHARS h3 && strchr STRING_HEX_CHARS h4) = true then
        .done (RESULT_JSON_SUCCESS, { index := R, ptr_invalid_json := o })
      else
        .done (RESULT_JSON_INVALID,
          { index := h1 :: h2 :: h3 :: h4 :: 34 :: R,
            ptr_invalid_json := some (h1 :: h2 :: h3 :: h4 :: 34 :: R) }) := by
  have hu : strchr STRING_ESCAPE_CHARS 117 = true := by decide
  simp only [ProcessString, Run.bind_eq, Run.pure_eq, lit_bytes.2.2.1, strncmp0_cons_one,
    decide_True, Run.bind_done, if_true, List.drop_succ_cons, List.drop_zero,
    List.length_cons]
  rw [stringLoop_succ]
  simp only [lit_bytes.2.2.2.2.2.1, strncmp0_cons_one, show decide (92 = 34) = false from rfl,
    Run.bind_done, Bool.false_eq_true, if_false, peek_cons, if_true, List.drop_succ_cons,
    List.drop_zero, hu, hexWindow_eq]
  split
  · rw [stringLoop_succ]
    simp [lit_bytes.2.2.2.2.2.1]
  · simp

/-- C19: a unicode escape needs four hexadecimal digits.  For every four bytes
`h1 h2 h3 h4`, none of them NUL, `LintJSON` returns on the text `"\u` `h1 h2 h3 h4` `"`,
and it returns `RESULT_JSON_LINT_SUCCESS` if and only if each of the four bytes is one
of `0`-`9`, `a`-`f`, `A`-`F`. -/
theorem C19_unicode_escape_four_hex (h1 h2 h3 h4 : Nat) (n1 : h1 ≠ 0) (n2 : h2 ≠ 0)
    (n3 : h3 ≠ 0) (n4 : h4 ≠ 0) :
    ∃ r, LintJSON (cstr [34, 92, 117, h1, h2, h3, h4, 34]) = .done r ∧
      (r.1 = RESULT_JSON_LINT_SUCCESS ↔
        Ecma404.isHex h1 ∧ Ecma404.isHex h2 ∧ Ecma404.isHex h3 ∧ Ecma404.isHex h4) := by
  have hx : ∀ h, h ≠ 0 → (strchr STRING_HEX_CHARS h = true ↔ Ecma404.isHex h) := by
    intro h hn
    rw [strchr_hex]
    exact ⟨fun e => e.resolve_left hn, Or.inr⟩
  have hb : (strchr STRING_HEX_CHARS h1 && strchr STRING_HEX_CHARS h2 &&
      strchr STRING_HEX_CHARS h3 && strchr STRING_HEX_CHARS h4) = true ↔
      Ecma404.isHex h1 ∧ Ecma404.isHex h2 ∧ Ecma404.isHex h3 ∧ Ecma404.isHex h4 := by
    simp only [Bool.and_eq_true, hx h1 n1, hx h2 n2, hx h3 n3, hx h4 n4, and_assoc]
  have hz : 0 ∉ [34, 92, 117, h1, h2, h3, h4, 34] := by
    simp only [List.mem_cons, List.mem_singleton, List.not_mem_nil, or_false, not_or]
    omega
  have hlen := strlen_cstr _ hz
  have hbuf : cstr [34, 92, 117, h1, h2, h3, h4, 34] =
      34 :: 92 :: 117 :: h1 :: h2 :: h3 :: h4 :: 34 :: [0] := rfl
  have hstr := ProcessString_unicode h1 h2 h3 h4 [0] none
  have hl := ProcessValue_leaves (3 * (cstr [34, 92, 117, h1, h2, h3, h4, 34]).length + 1) 34
    (92 :: 117 :: h1 :: h2 :: h3 :: h4 :: 34 :: [0]) none (by omega) (by omega)
  have e : lintFuel (cstr [34, 92, 117, h1, h2, h3, h4, 34]) =
      (3 * (cstr [34, 92, 117, h1, h2, h3, h4, 34]).length + 1) + 2 := rfl
  have hw : ProcessWhitespace (cstr [34, 92, 117, h1, h2, h3, h4, 34]) =
      .done (cstr [34, 92, 117, h1, h2, h3, h4, 34]) :=
    ProcessWhitespace_stop 34 _ (by omega)
  have hpeek : peek (cstr [34, 92, 117, h1, h2, h3, h4, 34]) = .done 34 := rfl
  have hw0 : ProcessWhitespace [0] = .done [0] := ProcessWhitespace_stop 0 [] (by omega)
  by_cases hall : (strchr STRING_HEX_CHARS h1 && strchr STRING_HEX_CHARS h2 &&
      strchr STRING_HEX_CHARS h3 && strchr STRING_HEX_CHARS h4) = true
  · rw [if_pos hall] at hstr
    have hv : ProcessValue (lintFuel (cstr [34, 92, 117, h1, h2, h3, h4, 34]))
        { index := cstr [34, 92, 117, h1, h2, h3, h4, 34], ptr_invalid_json := none } =
        .done (RESULT_JSON_SUCCESS, { index := [0], ptr_invalid_json := none }) := by
      rw [e]
      rw [hbuf] at hl ⊢
      rw [hl]
      simp only [valueLeaves, hstr, Run.bind_done, ne_eq, reduceCtorEq, not_false_eq_true,
        if_true]
    refine ⟨(RESULT_JSON_LINT_SUCCESS, none), ?_, ?_⟩
    · simp only [LintJSON, Run.bind_eq, Run.pure_eq, hpeek, Run.bind_done, ne_eq,
        show (34 : Nat) ≠ 0 by omega, not_false_eq_true, if_true, hw, hv, hw0, hlen]
      simp [cstr]
    · exact ⟨fun _ => hb.mp hall, fun _ => rfl⟩
  · rw [if_neg hall] at hstr
    have hv : ProcessValue (lintFuel (cstr [34, 92, 117, h1, h2, h3, h4, 34]))
        { index := cstr [34, 92, 117, h1, h2, h3, h4, 34], ptr_invalid_json := none } =
        .done (RESULT_JSON_INVALID,
          { index := h1 :: h2 :: h3 :: h4 :: 34 :: [0],
            ptr_invalid_json := some (h1 :: h2 :: h3 :: h4 :: 34 :: [0]) }) := by
      rw [e]
      rw [hbuf] at hl ⊢
      rw [hl]
      simp only [valueLeaves, hstr, Run.bind_done, ne_eq, reduceCtorEq, not_false_eq_true,
        if_true]
    refine ⟨(RESULT_JSON_LINT_INVALID, some (h1 :: h2 :: h3 :: h4 :: 34 :: [0])), ?_, ?_⟩
    · simp only [LintJSON, Run.bind_eq, Run.pure_eq, hpeek, Run.bind_done, ne_eq,
        show (34 : Nat) ≠ 0 by omega, not_false_eq_true, if_true, hw, hv, reduceCtorEq,
        if_false]
    · constructor
      · intro h; cases h
      · intro h; exact absurd (hb.mpr h) hall

theorem C19_unicode_escape_four_hex_witness :
    (49 : Nat) ≠ 0 ∧ (50 : Nat) ≠ 0 ∧ (97 : Nat) ≠ 0 ∧ (70 : Nat) ≠ 0 ∧
      ∃ r, LintJSON (cstr [34, 92, 117, 49, 50, 97, 70, 34]) = .done r ∧
        (r.1 = RESULT_JSON_LINT_SUCCESS ↔
          Ecma404.isHex 49 ∧ Ecma404.isHex 50 ∧ Ecma404.isHex 97 ∧ Ecma404.isHex 70) :=
  ⟨by decide, by decide, by decide, by decide,
    C19_unicode_escape_four_hex 49 50 97 70 (by decide) (by decide) (by decide) (by decide)⟩


/-! ## A decimal point without fraction digits -/

/-- The integer part without sign: `0`, or a digit `1`-`9` followed by digits. -/
theorem numberInteger_unsigned (i : List Nat)
    (hi : i = [48] ∨ ∃ c d, Ecma404.isOneNine c ∧ (∀ x ∈ d, Ecma404.isDigit x) ∧ i = c :: d)
    (c : Nat) (t : List Nat) (o : Option (List Nat)) (hc : ¬Ecma404.isDigit c)
    (h0 : 0 ∈ c :: t) :
    numberInteger { index := i ++ c :: t, ptr_invalid_json := o } =
      .done (RESULT_JSON_SUCCESS, { index := c :: t, ptr_invalid_json := o }) := by
  rcases hi with rfl | ⟨x, d, hx, hd, rfl⟩
  · have hs : strchr STRING_DIGIT_1_9 48 = false := by decide
    simp only [numberInteger, Run.bind_eq, Run.pure_eq, List.cons_append, List.nil_append,
      lit_bytes.2.2.2.2.2.2.2.2.2.1, strncmp0_cons_one, Run.bind_done,
      show decide (48 = 45) = false from rfl, Bool.false_eq_true, if_false, peek_cons, hs,
      List.drop_succ_cons, List.drop_zero]
  · have hx45 : x ≠ 45 := by have h1 := hx.1; have h2 := hx.2; omega
    have hs : strchr STRING_DIGIT_1_9 x = true := (strchr_digit_1_9 x).mpr (Or.inr hx)
    simp only [numberInteger, Run.bind_eq, Run.pure_eq, List.cons_append,
      lit_bytes.2.2.2.2.2.2.2.2.2.1, strncmp0_cons_one, Run.bind_done, hx45, decide_False,
      Bool.false_eq_true, if_false, peek_cons, hs, if_true, List.drop_succ_cons,
      List.drop_zero, digitLoop_run d (c :: t) hd c t rfl hc h0]

/-- The fraction code on a decimal point that no digit follows: the point is
consumed. -/
theorem numberFraction_point (c : Nat) (t : List Nat) (o : Option (List Nat))
    (hc : ¬Ecma404.isDigit c) (h0 : 0 ∈ c :: t) :
    numberFraction { index := 46 :: c :: t, ptr_invalid_json := o } =
      .done { index := c :: t, ptr_invalid_json := o } := by
  simp only [numberFraction, Run.bind_eq, Run.pure_eq, lit_bytes.2.2.2.2.2.2.2.2.2.2.1,
    strncmp0_cons_one, Run.bind_done, decide_True, if_true, List.drop_succ_cons,
    List.drop_zero, digitLoop_stop c t hc h0]

/-- `ProcessNumber` on an integer part without sign, a decimal point, no fraction
digit and an optional exponent, up to the terminator. -/
theorem ProcessNumber_point (i e : List Nat)
    (hi : i = [48] ∨ ∃ c d, Ecma404.isOneNine c ∧ (∀ x ∈ d, Ecma404.isDigit x) ∧ i = c :: d)
    (he : Ecma404.Exponent e) (o : Option (List Nat)) :
    ProcessNumber { index := i ++ 46 :: (e ++ [0]), ptr_invalid_json := o } =
      .done (RESULT_JSON_SUCCESS, { index := [0], ptr_invalid_json := o }) := by
  have hd0 : ¬Ecma404.isDigit 0 := by simp [Ecma404.isDigit]
  have hd46 : ¬Ecma404.isDigit 46 := by simp [Ecma404.isDigit]
  obtain ⟨c, t, hct, hc, -⟩ := Ecma404.Exponent_head e he 0 [] hd0 (by omega)
  have hmem : 0 ∈ c :: t := by rw [← hct]; simp
  have hint := numberInteger_unsigned i hi 46 (e ++ [0]) o hd46 (by simp)
  have hfrac := numberFraction_point c t o hc hmem
  have hexp := numberExponent_run e [0] he ⟨⟨0, [], rfl, by omega⟩, by simp⟩
    RESULT_JSON_SUCCESS o
  have hlead : ((strncmp0 (i ++ 46 :: (e ++ [0])) STRING_SIGN_NEG).or
      ((strncmp0 (i ++ 46 :: (e ++ [0])) STRING_0).or
        ((peek (i ++ 46 :: (e ++ [0]))).bind fun c =>
          Run.done (strchr STRING_DIGIT_1_9 c)))) = .done true := by
    rcases hi with rfl | ⟨x, d, hx, hd, rfl⟩
    · simp [lit_bytes.2.2.2.2.2.2.2.2.2.1, lit_bytes.2.2.2.2.2.2.2.2.2.2.2.1, Run.or]
    · have hs := (strchr_digit_1_9 x).mpr (Or.inr hx)
      have hx45 : x ≠ 45 := by have h1 := hx.1; have h2 := hx.2; omega
      have hx48 : x ≠ 48 := by have h1 := hx.1; omega
      simp [lit_bytes.2.2.2.2.2.2.2.2.2.1, lit_bytes.2.2.2.2.2.2.2.2.2.2.2.1, Run.or,
        peek_cons, hs, hx45, hx48]
  simp only [ProcessNumber, Run.bind_eq, Run.pure_eq, hlead, Run.bind_done, if_true, hint]
  rw [hct, hfrac]
  simp only [Run.bind_done]
  rw [← hct, hexp]

/-- C20: lenient fraction.  For every text made of an integer part (the digit `0`, or
a digit `1`-`9` followed by digits), a decimal point with no digit after it, and an
optional exponent of the grammar (`e` or `E`, an optional sign, one or more digits),
held in an array of exactly its bytes and the terminator: `ProcessNumber` returns
`RESULT_JSON_SUCCESS` with the cursor on the terminator, and `LintJSON` returns
`RESULT_JSON_LINT_SUCCESS`. -/
theorem C20_lenient_fraction (i e : List Nat)
    (hi : i = [48] ∨ ∃ c d, Ecma404.isOneNine c ∧ (∀ x ∈ d, Ecma404.isDigit x) ∧ i = c :: d)
    (he : Ecma404.Exponent e) :
    (∀ o, ProcessNumber { index := cstr (i ++ 46 :: e), ptr_invalid_json := o } =
        .done (RESULT_JSON_SUCCESS, { index := [0], ptr_invalid_json := o })) ∧
      LintJSON (cstr (i ++ 46 :: e)) = .done (RESULT_JSON_LINT_SUCCESS, none) := by
  have hbuf : cstr (i ++ 46 :: e) = i ++ 46 :: (e ++ [0]) := by simp [cstr]
  have hnum : ∀ o, ProcessNumber { index := cstr (i ++ 46 :: e), ptr_invalid_json := o } =
      .done (RESULT_JSON_SUCCESS, { index := [0], ptr_invalid_json := o }) := by
    intro o
    rw [hbuf]
    exact ProcessNumber_point i e hi he o
  refine ⟨hnum, ?_⟩
  obtain ⟨x, ti, hxi, hx⟩ : ∃ x ti, i = x :: ti ∧ Ecma404.isDigit x := by
    rcases hi with rfl | ⟨x, d, hx, hd, rfl⟩
    · exact ⟨48, [], rfl, by simp [Ecma404.isDigit]⟩
    · exact ⟨x, d, rfl, by have := hx.1; exact ⟨by omega, hx.2⟩⟩
  have hx1 := hx.1
  have hx2 := hx.2
  have hzi : 0 ∉ i := by
    rcases hi with rfl | ⟨y, d, hy, hd, rfl⟩
    · simp
    · intro hm
      rcases List.mem_cons.mp hm with e0 | hm
      · have := hy.1; omega
      · have := (hd 0 hm).1; omega
  have hze : 0 ∉ e := by
    have := Ecma404.Number_no_zero
      (Ecma404.Number.mk [48] [] e (Ecma404.Integer.digit 48 (by simp [Ecma404.isDigit]))
        Ecma404.Fraction.none he)
    intro hm
    exact this (by simp [hm])
  have hz : 0 ∉ i ++ 46 :: e := by
    intro hm
    rcases List.mem_append.mp hm with h | h
    · exact hzi h
    · rcases List.mem_cons.mp h with h | h
      · omega
      · exact hze h
  have hlen := strlen_cstr _ hz
  have hhead : cstr (i ++ 46 :: e) = x :: (ti ++ 46 :: (e ++ [0])) := by
    rw [hbuf, hxi]; rfl
  have hpeek : peek (cstr (i ++ 46 :: e)) = .done x := by rw [hhead]; rfl
  have hw : ProcessWhitespace (cstr (i ++ 46 :: e)) = .done (cstr (i ++ 46 :: e)) := by
    rw [hhead]
    exact ProcessWhitespace_stop x _ (by omega)
  have hw0 : ProcessWhitespace [0] = .done [0] := ProcessWhitespace_stop 0 [] (by omega)
  have hv : ProcessValue (lintFuel (cstr (i ++ 46 :: e)))
      { index := cstr (i ++ 46 :: e), ptr_invalid_json := none } =
      .done (RESULT_JSON_SUCCESS, { index := [0], ptr_invalid_json := none }) := by
    have e1 : lintFuel (cstr (i ++ 46 :: e)) = (3 * (cstr (i ++ 46 :: e)).length + 1) + 2 :=
      rfl
    have hl := ProcessValue_leaves (3 * (cstr (i ++ 46 :: e)).length + 1) x
      (ti ++ 46 :: (e ++ [0])) none (by omega) (by omega)
    have hs := ProcessString_other x (ti ++ 46 :: (e ++ [0])) none (by omega)
    have hn := hnum none
    rw [e1]
    rw [hhead] at hn hl ⊢
    rw [hl]
    simp only [valueLeaves, hs, hn, Run.bind_done, ne_eq, not_true_eq_false, if_false,
      reduceCtorEq, not_false_eq_true, if_true]
  simp only [LintJSON, Run.bind_eq, Run.pure_eq, hpeek, Run.bind_done, ne_eq,
    show x ≠ 0 by omega, not_false_eq_true, if_true, hw, hv, hw0, hlen]
  simp [cstr]

theorem C20_lenient_fraction_witness :
    ([57] = [48] ∨
        ∃ c d, Ecma404.isOneNine c ∧ (∀ x ∈ d, Ecma404.isDigit x) ∧ [57] = c :: d) ∧
      Ecma404.Exponent (101 :: ([] ++ [53, 52])) ∧
      ((∀ o, ProcessNumber
          { index := cstr ([57] ++ 46 :: 101 :: ([] ++ [53, 52])), ptr_invalid_json := o } =
          .done (RESULT_JSON_SUCCESS, { index := [0], ptr_invalid_json := o })) ∧
        LintJSON (cstr ([57] ++ 46 :: 101 :: ([] ++ [53, 52]))) =
          .done (RESULT_JSON_LINT_SUCCESS, none)) :=
  ⟨Or.inr ⟨57, [], by simp [Ecma404.isOneNine], by simp, rfl⟩,
    Ecma404.Exponent.lower [] [53, 52] Ecma404.Sign.none
      ⟨by simp, by simp [Ecma404.isDigit]⟩,
    C20_lenient_fraction [57] (101 :: ([] ++ [53, 52]))
      (Or.inr ⟨57, [], by simp [Ecma404.isOneNine], by simp, rfl⟩)
      (Ecma404.Exponent.lower [] [53, 52] Ecma404.Sign.none
        ⟨by simp, by simp [Ecma404.isDigit]⟩)⟩


/-! ## The whitespace skipper -/

/-- C21: the whitespace skipper.  For every cursor `p` in an array with a terminator
at or after the cursor, `ProcessWhitespace` returns the cursor `q` such that the bytes
from `p` up to `q` are all whitespace (space `0x20`, tab `0x09`, `0x0A`, `0x0D`) and
the byte at `q` is not: the smallest position from `p` on whose byte is no whitespace.
The function works on the cursor alone.  Calling it again at `q` returns `q`. -/
theorem C21_whitespace_skipper (p : List Nat) (h0 : 0 ∈ p) :
    ∃ w q, p = w ++ q ∧ Ecma404.Ws w ∧
      (∃ c t, q = c :: t ∧ ¬(c = 0x09 ∨ c = 0x0A ∨ c = 0x0D ∨ c = 0x20)) ∧
      ProcessWhitespace p = .done q ∧ ProcessWhitespace q = .done q := by
  induction p with
  | nil => cases h0
  | cons c t ih =>
    by_cases hc : c = 0x09 ∨ c = 0x0A ∨ c = 0x0D ∨ c = 0x20
    · have ht : 0 ∈ t := by
        rcases List.mem_cons.mp h0 with e | e
        · omega
        · exact e
      obtain ⟨w, q, rfl, hw, hq, h1, h2⟩ := ih ht
      refine ⟨c :: w, q, rfl, Ecma404.Ws_cons hc hw, hq, ?_, h2⟩
      rw [← h1]
      exact ProcessWhitespace_skip [c] (by intro x hx; simp at hx; subst hx; exact hc) _
    · exact ⟨[], c :: t, rfl, Ecma404.Ws_nil, ⟨c, t, rfl, hc⟩,
        ProcessWhitespace_stop c t hc, ProcessWhitespace_stop c t hc⟩

theorem C21_whitespace_skipper_witness :
    0 ∈ [32, 9, 10, 13, 49, 32, 0] ∧
      ∃ w q, [32, 9, 10, 13, 49, 32, 0] = w ++ q ∧ Ecma404.Ws w ∧
        (∃ c t, q = c :: t ∧ ¬(c = 0x09 ∨ c = 0x0A ∨ c = 0x0D ∨ c = 0x20)) ∧
        ProcessWhitespace [32, 9, 10, 13, 49, 32, 0] = .done q ∧
        ProcessWhitespace q = .done q :=
  ⟨by decide, C21_whitespace_skipper [32, 9, 10, 13, 49, 32, 0] (by decide)⟩


/-! ## Whitespace after the colon of a member -/

/-- At a whitespace byte `ProcessValue` returns `RESULT_JSON_INVALID` and records the
cursor. -/
theorem ProcessValue_at_space (fuel c : Nat) (t : List Nat) (o : Option (List Nat))
    (hc : c = 0x09 ∨ c = 0x0A ∨ c = 0x0D ∨ c = 0x20) :
    ProcessValue (fuel + 2) { index := c :: t, ptr_invalid_json := o } =
      .done (RESULT_JSON_INVALID, { index := c :: t, ptr_invalid_json := some (c :: t) }) := by
  rw [ProcessValue_leaves _ _ _ _ (by omega) (by omega)]
  simp only [valueLeaves, ProcessString_other c t o (by omega),
    ProcessNumber_other c t o (by omega) (by omega)
      (by simp only [Ecma404.isDigit]; omega),
    Run.bind_done, ne_eq, not_true_eq_false, if_false,
    lit_bytes.2.2.2.2.2.2.2.2.2.2.2.2.1, lit_bytes.2.2.2.2.2.2.2.2.2.2.2.2.2.1,
    lit_bytes.2.2.2.2.2.2.2.2.2.2.2.2.2.2,
    strncmp0_head_ne c 102 t _ (by omega), strncmp0_head_ne c 116 t _ (by omega),
    strncmp0_head_ne c 110 t _ (by omega), Bool.false_eq_true]

/-- The loop of `ProcessObject` ends when `result` is not `RESULT_JSON_SUCCESS`. -/
theorem objectLoop_exit (fuel c : Nat) (t : List Nat) (o : Option (List Nat))
    (r : json_result_t) (hr : r ≠ RESULT_JSON_SUCCESS) :
    objectLoop (fuel + 1) r { index := c :: t, ptr_invalid_json := o } =
      .done (r, { index := c :: t, ptr_invalid_json := o }) := by
  rw [objectLoop_succ, lit_bytes.2.2.2.1, loopGoesOn_cons]
  simp [hr]

/-- A text that `ProcessString` matches starts with the quotation mark. -/
theorem ProcessString_success_head (k R : List Nat) (c : Nat) (o : Option (List Nat))
    (m : Machine) (hc : c ≠ 34)
    (h : ProcessString { index := k ++ c :: R, ptr_invalid_json := o } =
      .done (RESULT_JSON_SUCCESS, m)) : ∃ k', k = 34 :: k' := by
  cases k with
  | nil =>
    rw [List.nil_append, ProcessString_other c R o hc] at h
    cases h
  | cons x k' =>
    by_cases hx : x = 34
    · exact ⟨k', by rw [hx]⟩
    · rw [List.cons_append, ProcessString_other x _ o hx] at h
      cases h

/-- C23: whitespace after the colon of a member is rejected.  For every key `k`
that `ProcessString` matches (it returns `RESULT_JSON_SUCCESS` with the cursor on the
colon), every whitespace byte `w` and every remainder `r`: on the text `{` `k` `:` `w`
`r` `LintJSON` returns `RESULT_JSON_LINT_INVALID` with `ptr_invalid_json` on the byte
`w` after the colon, whose offset is the length of `k` plus 2 (offset 5 on
`{"a": 1}`): `ProcessObject` calls `ProcessValue` right after the colon (lines
278-279). -/
theorem C23_whitespace_after_colon_rejected (k r : List Nat) (w : Nat)
    (hw : w = 0x09 ∨ w = 0x0A ∨ w = 0x0D ∨ w = 0x20)
    (hk : ProcessString { index := k ++ 58 :: w :: (r ++ [0]), ptr_invalid_json := none } =
      .done (RESULT_JSON_SUCCESS,
        { index := 58 :: w :: (r ++ [0]), ptr_invalid_json := none })) :
    LintJSON (cstr (123 :: k ++ 58 :: w :: r)) =
        .done (RESULT_JSON_LINT_INVALID, some (cstr (w :: r))) ∧
      error_offset (cstr (123 :: k ++ 58 :: w :: r)) (cstr (w :: r)) = k.length + 2 := by
  have hbuf : cstr (123 :: k ++ 58 :: w :: r) = 123 :: (k ++ 58 :: w :: (r ++ [0])) := by
    simp [cstr]
  have hwr : cstr (w :: r) = w :: (r ++ [0]) := by simp [cstr]
  obtain ⟨k', hk'⟩ := ProcessString_success_head k _ 58 none _ (by omega) hk
  have hturn : ∀ fuel, objectTurn (ProcessValue (fuel + 2))
      { index := k ++ 58 :: w :: (r ++ [0]), ptr_invalid_json := none } =
      .done (RESULT_JSON_INVALID,
        { index := w :: (r ++ [0]), ptr_invalid_json := some (w :: (r ++ [0])) }) := by
    intro fuel
    simp only [objectTurn, Run.bind_eq, Run.pure_eq, hk, Run.bind_done, if_true,
      ProcessWhitespace_stop 58 _ (by omega), lit_bytes.2.2.2.2.2.2.1, strncmp0_cons_one,
      decide_True, List.drop_succ_cons, List.drop_zero,
      ProcessValue_at_space fuel w (r ++ [0]) none hw, reduceCtorEq, if_false]
  have hloop : ∀ fuel, objectLoop (fuel + 3) RESULT_JSON_SUCCESS
      { index := k ++ 58 :: w :: (r ++ [0]), ptr_invalid_json := none } =
      .done (RESULT_JSON_INVALID,
        { index := w :: (r ++ [0]), ptr_invalid_json := some (w :: (r ++ [0])) }) := by
    intro fuel
    have hs := objectLoop_step (fuel + 2) 34 (k' ++ 58 :: w :: (r ++ [0])) none (by omega)
    rw [hk']
    rw [hk'] at hturn
    simp only [List.cons_append] at hturn ⊢
    rw [hs, hturn fuel]
    simp only [Run.bind_done]
    exact objectLoop_exit (fuel + 1) w (r ++ [0]) _ RESULT_JSON_INVALID (by simp)
  have hval : ∀ fuel, ProcessValue (fuel + 3 + 2)
      { index := 123 :: (k ++ 58 :: w :: (r ++ [0])), ptr_invalid_json := none } =
      .done (RESULT_JSON_INVALID,
        { index := r ++ [0], ptr_invalid_json := some (w :: (r ++ [0])) }) := by
    intro fuel
    have hskip : ProcessWhitespace (k ++ 58 :: w :: (r ++ [0])) =
        .done (k ++ 58 :: w :: (r ++ [0])) := by
      rw [hk']
      exact ProcessWhitespace_stop 34 _ (by omega)
    rw [ProcessValue_object, hskip]
    simp only [Run.bind_done, hloop fuel, ne_eq, reduceCtorEq, not_false_eq_true, if_true,
      List.drop_succ_cons, List.drop_zero]
  constructor
  · obtain ⟨f, hf⟩ : ∃ f, lintFuel (cstr (123 :: k ++ 58 :: w :: r)) = f + 3 + 2 := by
      refine ⟨3 * (cstr (123 :: k ++ 58 :: w :: r)).length - 2, ?_⟩
      simp only [lintFuel, hbuf, List.length_cons, List.length_append]
      omega
    have hpeek : peek (cstr (123 :: k ++ 58 :: w :: r)) = .done 123 := by rw [hbuf]; rfl
    have hws : ProcessWhitespace (cstr (123 :: k ++ 58 :: w :: r)) =
        .done (cstr (123 :: k ++ 58 :: w :: r)) := by
      rw [hbuf]
      exact ProcessWhitespace_stop 123 _ (by omega)
    have hv := hval f
    rw [← hbuf, ← hf] at hv
    simp only [LintJSON, Run.bind_eq, Run.pure_eq, hpeek, Run.bind_done, ne_eq,
      show (123 : Nat) ≠ 0 by omega, not_false_eq_true, if_true, hws, hv, reduceCtorEq,
      if_false, hwr]
  · rw [hbuf, hwr]
    simp only [error_offset, List.length_cons, List.length_append, List.length_nil]
    omega

theorem C23_whitespace_after_colon_rejected_witness :
    ((32 : Nat) = 0x09 ∨ (32 : Nat) = 0x0A ∨ (32 : Nat) = 0x0D ∨ (32 : Nat) = 0x20) ∧
      ProcessString
          { index := [34, 97, 34] ++ 58 :: 32 :: ([49, 125] ++ [0]),
            ptr_invalid_json := none } =
        .done (RESULT_JSON_SUCCESS,
          { index := 58 :: 32 :: ([49, 125] ++ [0]), ptr_invalid_json := none }) ∧
      LintJSON (cstr (123 :: [34, 97, 34] ++ 58 :: 32 :: [49, 125])) =
        .done (RESULT_JSON_LINT_INVALID, some (cstr (32 :: [49, 125]))) ∧
      error_offset (cstr (123 :: [34, 97, 34] ++ 58 :: 32 :: [49, 125]))
        (cstr (32 :: [49, 125])) = [34, 97, 34].length + 2 :=
  ⟨by decide, by decide!,
    C23_whitespace_after_colon_rejected [34, 97, 34] [49, 125] 32 (by decide) (by decide!)⟩


/-! ## A comma before the closing bracket or brace -/

theorem Fails.of_timeout_zero_array (r : json_result_t) (m : Machine) :
    Fails (arrayLoop 0 r m) := by
  simp only [arrayLoop]; exact Fails.timeout

theorem Fails.of_timeout_zero_object (r : json_result_t) (m : Machine) :
    Fails (objectLoop 0 r m) := by
  simp only [objectLoop]; exact Fails.timeout

/-- The loop of `ProcessArray` on a last value of the grammar: when it gets through
with the closing bracket after the value, it gets through with a comma and the
closing bracket after it, and stops on the bracket. -/
theorem arrayLoop_comma_one (v w2 : List Nat) (hv : Ecma404.Derives .value v)
    (hw2 : Ecma404.Ws w2) (fuel : Nat) (o : Option (List Nat)) (R : List Nat) (h0 : 0 ∈ R)
    (hnf : ¬Fails (arrayLoop fuel RESULT_JSON_SUCCESS
      { index := v ++ (w2 ++ 93 :: R), ptr_invalid_json := o })) :
    arrayLoop fuel RESULT_JSON_SUCCESS
        { index := v ++ (w2 ++ 44 :: 93 :: R), ptr_invalid_json := o } =
      .done (RESULT_JSON_SUCCESS, { index := 93 :: R, ptr_invalid_json := o }) := by
  have ih : Tracks .value v := derives_tracks hv
  obtain ⟨c, tv, rfl, hc⟩ := Ecma404.value_head hv rfl
  have hcn := LeadByte.not_ws hc
  cases fuel with
  | zero => exact absurd (Fails.of_timeout_zero_array _ _) hnf
  | succ fuel =>
    simp only [List.cons_append] at hnf ⊢
    rw [arrayLoop_step _ _ _ _ hcn.2.1] at hnf ⊢
    rcases ih fuel o with hL | hR
    · obtain ⟨f, rfl⟩ := Uniform.fuel_pos (w2 ++ 93 :: R)
        (Delim.of_ws_cons w2 hw2 93 R (by omega) h0) hL
      have h1 := hL (w2 ++ 44 :: 93 :: R)
        (Delim.of_ws_cons w2 hw2 44 (93 :: R) (by omega) (by simp [h0]))
      simp only [List.cons_append] at h1
      rw [arrayTurn_next _ _ w2 [] R 93 o hw2 Ecma404.Ws_nil (by omega) h1]
      exact arrayLoop_stop f R o
    · have h1 := hR (w2 ++ 93 :: R) (Delim.of_ws_cons w2 hw2 93 R (by omega) h0)
      simp only [List.cons_append] at h1
      exact absurd (arrayTurn_fails _ _ _ h1) hnf

/-- The same for a value that is followed by a comma and more values, given the
property for the values that follow. -/
theorem arrayLoop_comma_cons (v w2 w3 tl : List Nat) (c2 : Nat)
    (hv : Ecma404.Derives .value v) (hw2 : Ecma404.Ws w2) (hw3 : Ecma404.Ws w3)
    (hc2 : LeadByte c2)
    (ih : ∀ (fuel : Nat) (o : Option (List Nat)) (R : List Nat), 0 ∈ R →
      ¬Fails (arrayLoop fuel RESULT_JSON_SUCCESS
        { index := (c2 :: tl) ++ 93 :: R, ptr_invalid_json := o }) →
      arrayLoop fuel RESULT_JSON_SUCCESS
          { index := (c2 :: tl) ++ 44 :: 93 :: R, ptr_invalid_json := o } =
        .done (RESULT_JSON_SUCCESS, { index := 93 :: R, ptr_invalid_json := o }))
    (fuel : Nat) (o : Option (List Nat)) (R : List Nat) (h0 : 0 ∈ R)
    (hnf : ¬Fails (arrayLoop fuel RESULT_JSON_SUCCESS
      { index := v ++ (w2 ++ 44 :: (w3 ++ ((c2 :: tl) ++ 93 :: R))),
        ptr_invalid_json := o })) :
    arrayLoop fuel RESULT_JSON_SUCCESS
        { index := v ++ (w2 ++ 44 :: (w3 ++ ((c2 :: tl) ++ 44 :: 93 :: R))),
          ptr_invalid_json := o } =
      .done (RESULT_JSON_SUCCESS, { index := 93 :: R, ptr_invalid_json := o }) := by
  have ihv : Tracks .value v := derives_tracks hv
  obtain ⟨c, tv, rfl, hc⟩ := Ecma404.value_head hv rfl
  have hcn := LeadByte.not_ws hc
  have hcn2 := LeadByte.not_ws hc2
  cases fuel with
  | zero => exact absurd (Fails.of_timeout_zero_array _ _) hnf
  | succ fuel =>
    simp only [List.cons_append] at hnf ⊢
    rw [arrayLoop_step _ _ _ _ hcn.2.1] at hnf ⊢
    rcases ihv fuel o with hL | hR
    · have h1 := hL (w2 ++ 44 :: (w3 ++ c2 :: (tl ++ 93 :: R)))
        (Delim.of_ws_cons w2 hw2 44 _ (by omega) (by simp [h0]))
      have h2 := hL (w2 ++ 44 :: (w3 ++ c2 :: (tl ++ 44 :: 93 :: R)))
        (Delim.of_ws_cons w2 hw2 44 _ (by omega) (by simp [h0]))
      simp only [List.cons_append] at h1 h2
      rw [arrayTurn_next _ _ w2 w3 _ c2 o hw2 hw3 hcn2.1 h1] at hnf
      rw [arrayTurn_next _ _ w2 w3 _ c2 o hw2 hw3 hcn2.1 h2]
      simp only [Run.bind_done] at hnf ⊢
      have := ih fuel o R h0 (by simpa using hnf)
      simpa using this
    · have h1 := hR (w2 ++ 44 :: (w3 ++ c2 :: (tl ++ 93 :: R)))
        (Delim.of_ws_cons w2 hw2 44 _ (by omega) (by simp [h0]))
      simp only [List.cons_append] at h1
      exact absurd (arrayTurn_fails _ _ _ h1) hnf

/-- The loop of `ProcessObject` on a last member of the grammar: when it gets through
with the closing brace after the member, it gets through with a comma and the closing
brace after it, and stops on the brace. -/
theorem objectLoop_comma_one (s w2 w3 v w4 : List Nat) (hs : Ecma404.Str s)
    (hw2 : Ecma404.Ws w2) (hw3 : Ecma404.Ws w3) (hv : Ecma404.Derives .value v)
    (hw4 : Ecma404.Ws w4) (fuel : Nat) (o : Option (List Nat)) (R : List Nat) (h0 : 0 ∈ R)
    (hnf : ¬Fails (objectLoop fuel RESULT_JSON_SUCCESS
      { index := s ++ (w2 ++ 58 :: (w3 ++ (v ++ (w4 ++ 125 :: R)))),
        ptr_invalid_json := o })) :
    objectLoop fuel RESULT_JSON_SUCCESS
        { index := s ++ (w2 ++ 58 :: (w3 ++ (v ++ (w4 ++ 44 :: 125 :: R)))),
          ptr_invalid_json := o } =
      .done (RESULT_JSON_SUCCESS, { index := 125 :: R, ptr_invalid_json := o }) := by
  have ih : Tracks .value v := derives_tracks hv
  cases fuel with
  | zero => exact absurd (Fails.of_timeout_zero_object _ _) hnf
  | succ fuel =>
    rw [objectLoop_member _ _ _ _ _ hs hw2] at hnf ⊢
    cases w3 with
    | cons x w3 =>
      simp only [List.cons_append] at hnf
      exact absurd (objectTurn_fails _ _ _ _ _ hs hw2 _
        (ProcessValue_space _ _ _ _ (hw3 x (by simp)))) hnf
    | nil =>
      simp only [List.nil_append] at hnf ⊢
      rcases ih fuel o with hL | hR
      · cases w4 with
        | cons y w4 =>
          have h1 := hL ((y :: w4) ++ 125 :: R)
            (Delim.of_ws_cons (y :: w4) hw4 125 R (by omega) h0)
          simp only [List.cons_append] at h1 hnf
          exact absurd (objectTurn_space _ _ _ _ _ _ _ hs hw2 _ (hw4 y (by simp)) h1) hnf
        | nil =>
          simp only [List.nil_append] at hnf ⊢
          obtain ⟨f, rfl⟩ := Uniform.fuel_pos (125 :: R)
            (Delim.of_ws_cons [] Ecma404.Ws_nil 125 R (by omega) h0) hL
          have h2 := hL (44 :: 125 :: R)
            (Delim.of_ws_cons [] Ecma404.Ws_nil 44 (125 :: R) (by omega) (by simp [h0]))
          rw [objectTurn_next _ _ _ _ (125 :: R) o hs hw2 h2]
          exact objectLoop_stop f R o
      · exact absurd (objectTurn_fails _ _ _ _ _ hs hw2 _
          (hR _ (Delim.of_ws_cons w4 hw4 125 R (by omega) h0))) hnf

/-- The same for a member that is followed by a comma and more members, given the
property for the members that follow. -/
theorem objectLoop_comma_cons (s w2 w3 v w4 w5 tl : List Nat) (hs : Ecma404.Str s)
    (hw2 : Ecma404.Ws w2) (hw3 : Ecma404.Ws w3) (hv : Ecma404.Derives .value v)
    (hw4 : Ecma404.Ws w4) (hw5 : Ecma404.Ws w5)
    (ih : ∀ (fuel : Nat) (o : Option (List Nat)) (R : List Nat), 0 ∈ R →
      ¬Fails (objectLoop fuel RESULT_JSON_SUCCESS
        { index := (34 :: tl) ++ 125 :: R, ptr_invalid_json := o }) →
      objectLoop fuel RESULT_JSON_SUCCESS
          { index := (34 :: tl) ++ 44 :: 125 :: R, ptr_invalid_json := o } =
        .done (RESULT_JSON_SUCCESS, { index := 125 :: R, ptr_invalid_json := o }))
    (fuel : Nat) (o : Option (List Nat)) (R : List Nat) (h0 : 0 ∈ R)
    (hnf : ¬Fails (objectLoop fuel RESULT_JSON_SUCCESS
      { index := s ++ (w2 ++ 58 :: (w3 ++ (v ++ (w4 ++ 44 ::
          (w5 ++ ((34 :: tl) ++ 125 :: R)))))),
        ptr_invalid_json := o })) :
    objectLoop fuel RESULT_JSON_SUCCESS
        { index := s ++ (w2 ++ 58 :: (w3 ++ (v ++ (w4 ++ 44 ::
            (w5 ++ ((34 :: tl) ++ 44 :: 125 :: R)))))),
          ptr_invalid_json := o } =
      .done (RESULT_JSON_SUCCESS, { index := 125 :: R, ptr_invalid_json := o }) := by
  have ihv : Tracks .value v := derives_tracks hv
  cases fuel with
  | zero => exact absurd (Fails.of_timeout_zero_object _ _) hnf
  | succ fuel =>
    rw [objectLoop_member _ _ _ _ _ hs hw2] at hnf ⊢
    cases w3 with
    | cons x w3 =>
      simp only [List.cons_append] at hnf
      exact absurd (objectTurn_fails _ _ _ _ _ hs hw2 _
        (ProcessValue_space _ _ _ _ (hw3 x (by simp)))) hnf
    | nil =>
      simp only [List.nil_append] at hnf ⊢
      rcases ihv fuel o with hL | hR
      · cases w4 with
        | cons y w4 =>
          have h1 := hL ((y :: w4) ++ 44 :: (w5 ++ ((34 :: tl) ++ 125 :: R)))
            (Delim.of_ws_cons (y :: w4) hw4 44 _ (by omega) (by simp [h0]))
          simp only [List.cons_append] at h1 hnf
          exact absurd (objectTurn_space _ _ _ _ _ _ _ hs hw2 _ (hw4 y (by simp)) h1) hnf
        | nil =>
          simp only [List.nil_append] at hnf ⊢
          have h1 := hL (44 :: (w5 ++ ((34 :: tl) ++ 125 :: R)))
            (Delim.of_ws_cons [] Ecma404.Ws_nil 44 _ (by omega) (by simp [h0]))
          have h2 := hL (44 :: (w5 ++ ((34 :: tl) ++ 44 :: 125 :: R)))
            (Delim.of_ws_cons [] Ecma404.Ws_nil 44 _ (by omega) (by simp [h0]))
          rw [objectTurn_next _ _ _ _ _ o hs hw2 h1] at hnf
          rw [objectTurn_next _ _ _ _ _ o hs hw2 h2]
          simp only [Run.bind_done] at hnf ⊢
          cases w5 with
          | cons z w5 =>
            simp only [List.cons_append] at hnf
            exact absurd (objectLoop_space _ _ _ _ (hw5 z (by simp))) hnf
          | nil =>
            simp only [List.nil_append] at hnf ⊢
            exact ih fuel o R h0 hnf
      · exact absurd (objectTurn_fails _ _ _ _ _ hs hw2 _
          (hR _ (Delim.of_ws_cons w4 hw4 44 _ (by omega) (by simp [h0])))) hnf


/-- On the values between the brackets of an array of the grammar, and on the members
between the braces of an object of the grammar: when the loop gets through with the
closing token after them, it gets through with a comma before the closing token. -/
theorem comma_tracks {s : Ecma404.Sym} {t : List Nat} (h : Ecma404.Derives s t) :
    (s = .elements → ∃ w core, t = w ++ core ∧ Ecma404.Ws w ∧
      (∃ c tl, core = c :: tl ∧ LeadByte c) ∧
      ∀ (fuel : Nat) (o : Option (List Nat)) (R : List Nat), 0 ∈ R →
        ¬Fails (arrayLoop fuel RESULT_JSON_SUCCESS
          { index := core ++ 93 :: R, ptr_invalid_json := o }) →
        arrayLoop fuel RESULT_JSON_SUCCESS
            { index := core ++ 44 :: 93 :: R, ptr_invalid_json := o } =
          .done (RESULT_JSON_SUCCESS, { index := 93 :: R, ptr_invalid_json := o })) ∧
    (s = .members → ∃ w core, t = w ++ core ∧ Ecma404.Ws w ∧ (∃ tl, core = 34 :: tl) ∧
      ∀ (fuel : Nat) (o : Option (List Nat)) (R : List Nat), 0 ∈ R →
        ¬Fails (objectLoop fuel RESULT_JSON_SUCCESS
          { index := core ++ 125 :: R, ptr_invalid_json := o }) →
        objectLoop fuel RESULT_JSON_SUCCESS
            { index := core ++ 44 :: 125 :: R, ptr_invalid_json := o } =
          .done (RESULT_JSON_SUCCESS, { index := 125 :: R, ptr_invalid_json := o })) := by
  induction h with
  | elements_one w1 v w2 hw1 hv hw2 _ =>
    refine ⟨fun _ => ?_, fun e => nomatch e⟩
    obtain ⟨c, tv, hcv, hc⟩ := Ecma404.value_head hv rfl
    refine ⟨w1, v ++ w2, by simp, hw1, ⟨c, tv ++ w2, by simp [hcv], hc⟩, ?_⟩
    intro fuel o R h0 hnf
    have := arrayLoop_comma_one v w2 hv hw2 fuel o R h0 (by simpa using hnf)
    simpa using this
  | elements_cons w1 v w2 es hw1 hv hw2 hes _ ihes =>
    refine ⟨fun _ => ?_, fun e => nomatch e⟩
    obtain ⟨w3, core, rfl, hw3, ⟨c2, tl, rfl, hc2⟩, hI⟩ := ihes.1 rfl
    obtain ⟨c, tv, hcv, hc⟩ := Ecma404.value_head hv rfl
    refine ⟨w1, v ++ w2 ++ 44 :: (w3 ++ c2 :: tl), by simp, hw1,
      ⟨c, tv ++ w2 ++ 44 :: (w3 ++ c2 :: tl), by simp [hcv], hc⟩, ?_⟩
    intro fuel o R h0 hnf
    have := arrayLoop_comma_cons v w2 w3 tl c2 hv hw2 hw3 hc2 hI fuel o R h0
      (by simpa using hnf)
    simpa using this
  | members_one w1 s w2 w3 v w4 hw1 hs hw2 hw3 hv hw4 _ =>
    refine ⟨(fun e => nomatch e), fun _ => ?_⟩
    obtain ⟨cs, hcs⟩ : ∃ cs, s = 34 :: (cs ++ [34]) := by
      cases hs with
      | mk cs _ => exact ⟨cs, rfl⟩
    refine ⟨w1, s ++ w2 ++ 58 :: (w3 ++ v ++ w4), by simp, hw1,
      ⟨cs ++ [34] ++ w2 ++ 58 :: (w3 ++ v ++ w4), by simp [hcs]⟩, ?_⟩
    intro fuel o R h0 hnf
    have := objectLoop_comma_one s w2 w3 v w4 hs hw2 hw3 hv hw4 fuel o R h0
      (by simpa using hnf)
    simpa using this
  | members_cons w1 s w2 w3 v w4 ms hw1 hs hw2 hw3 hv hw4 hms _ ihms =>
    refine ⟨(fun e => nomatch e), fun _ => ?_⟩
    obtain ⟨w5, core, rfl, hw5, ⟨tl, rfl⟩, hI⟩ := ihms.2 rfl
    obtain ⟨cs, hcs⟩ : ∃ cs, s = 34 :: (cs ++ [34]) := by
      cases hs with
      | mk cs _ => exact ⟨cs, rfl⟩
    refine ⟨w1, s ++ w2 ++ 58 :: (w3 ++ v ++ w4) ++ 44 :: (w5 ++ 34 :: tl), by simp, hw1,
      ⟨cs ++ [34] ++ w2 ++ 58 :: (w3 ++ v ++ w4) ++ 44 :: (w5 ++ 34 :: tl),
        by simp [hcs]⟩, ?_⟩
    intro fuel o R h0 hnf
    have := objectLoop_comma_cons s w2 w3 v w4 w5 tl hs hw2 hw3 hv hw4 hw5 hI fuel o R h0
      (by simpa using hnf)
    simpa using this
  | _ => exact ⟨(fun e => nomatch e), fun e => nomatch e⟩


/-- An accepted array of the grammar stays accepted with a comma before the closing
bracket. -/
theorem Accepts_array_comma (es : List Nat) (hes : Ecma404.Derives .elements es)
    (hacc : Accepts (91 :: es ++ [93])) : Accepts (91 :: es ++ [44, 93]) := by
  have hz0 := Ecma404.derives_no_zero hes
  obtain ⟨w, core, rfl, hw, ⟨c, tl, rfl, hc⟩, hC⟩ := (comma_tracks hes).1 rfl
  have hcn := LeadByte.not_ws hc
  have hbufA : cstr (91 :: (w ++ c :: tl) ++ [93]) = 91 :: (w ++ c :: (tl ++ 93 :: [0])) := by
    simp [cstr]
  have hbufB : cstr (91 :: (w ++ c :: tl) ++ [44, 93]) =
      91 :: (w ++ c :: (tl ++ 44 :: 93 :: [0])) := by
    simp [cstr]
  obtain ⟨f, hf⟩ : ∃ f, lintFuel (cstr (91 :: (w ++ c :: tl) ++ [93])) = f + 2 := ⟨_, rfl⟩
  have hle : f + 2 ≤ lintFuel (cstr (91 :: (w ++ c :: tl) ++ [44, 93])) := by
    rw [← hf]
    simp only [lintFuel, cstr, List.length_cons, List.length_append, List.length_nil]
    omega
  have hpA : ProcessWhitespace (cstr (91 :: (w ++ c :: tl) ++ [93])) =
      .done (cstr (91 :: (w ++ c :: tl) ++ [93])) := by
    rw [hbufA]; exact ProcessWhitespace_stop 91 _ (by omega)
  have hpB : ProcessWhitespace (cstr (91 :: (w ++ c :: tl) ++ [44, 93])) =
      .done (cstr (91 :: (w ++ c :: tl) ++ [44, 93])) := by
    rw [hbufB]; exact ProcessWhitespace_stop 91 _ (by omega)
  have hinA := ProcessWhitespace_run w hw c (tl ++ 93 :: [0]) hcn.1
  have hinB := ProcessWhitespace_run w hw c (tl ++ 44 :: 93 :: [0]) hcn.1
  have hnf : ¬Fails (arrayLoop f RESULT_JSON_SUCCESS
      { index := (c :: tl) ++ 93 :: [0], ptr_invalid_json := none }) := by
    intro hF
    refine LintJSON_of_fails _ _ hpA ?_ hacc
    rw [hf, hbufA]
    exact ProcessValue_array_fails f _ _ none hinA (by simpa using hF)
  have hB := hC f none [0] (by simp) hnf
  have hvB0 : ProcessValue (f + 2)
      { index := 91 :: (w ++ c :: (tl ++ 44 :: 93 :: [0])), ptr_invalid_json := none } =
      .done (RESULT_JSON_SUCCESS, { index := [0], ptr_invalid_json := none }) :=
    ProcessValue_array_success f _ _ [0] none hinB (by simpa using hB)
  have hvB : ProcessValue (lintFuel (cstr (91 :: (w ++ c :: tl) ++ [44, 93])))
      { index := cstr (91 :: (w ++ c :: tl) ++ [44, 93]), ptr_invalid_json := none } =
      .done (RESULT_JSON_SUCCESS, { index := [0], ptr_invalid_json := none }) := by
    rw [ProcessValue_mono_le (f + 2) _ _ hle (by rw [hbufB, hvB0]; exact fun h => nomatch h),
      hbufB]
    exact hvB0
  have hzB : 0 ∉ 91 :: (w ++ c :: tl) ++ [44, 93] := by
    generalize w ++ c :: tl = X at hz0
    simp [hz0]
  exact LintJSON_of_success _ _ [0] (by simp) hzB hpB hvB
    (ProcessWhitespace_stop 0 [] (by omega))

/-- An accepted object of the grammar stays accepted with a comma before the closing
brace. -/
theorem Accepts_object_comma (ms : List Nat) (hms : Ecma404.Derives .members ms)
    (hacc : Accepts (123 :: ms ++ [125])) : Accepts (123 :: ms ++ [44, 125]) := by
  have hz0 := Ecma404.derives_no_zero hms
  obtain ⟨w, core, rfl, hw, ⟨tl, rfl⟩, hC⟩ := (comma_tracks hms).2 rfl
  have hbufA : cstr (123 :: (w ++ 34 :: tl) ++ [125]) =
      123 :: (w ++ 34 :: (tl ++ 125 :: [0])) := by
    simp [cstr]
  have hbufB : cstr (123 :: (w ++ 34 :: tl) ++ [44, 125]) =
      123 :: (w ++ 34 :: (tl ++ 44 :: 125 :: [0])) := by
    simp [cstr]
  obtain ⟨f, hf⟩ : ∃ f, lintFuel (cstr (123 :: (w ++ 34 :: tl) ++ [125])) = f + 2 := ⟨_, rfl⟩
  have hle : f + 2 ≤ lintFuel (cstr (123 :: (w ++ 34 :: tl) ++ [44, 125])) := by
    rw [← hf]
    simp only [lintFuel, cstr, List.length_cons, List.length_append, List.length_nil]
    omega
  have hpA : ProcessWhitespace (cstr (123 :: (w ++ 34 :: tl) ++ [125])) =
      .done (cstr (123 :: (w ++ 34 :: tl) ++ [125])) := by
    rw [hbufA]; exact ProcessWhitespace_stop 123 _ (by omega)
  have hpB : ProcessWhitespace (cstr (123 :: (w ++ 34 :: tl) ++ [44, 125])) =
      .done (cstr (123 :: (w ++ 34 :: tl) ++ [44, 125])) := by
    rw [hbufB]; exact ProcessWhitespace_stop 123 _ (by omega)
  have hinA := ProcessWhitespace_run w hw 34 (tl ++ 125 :: [0]) (by omega)
  have hinB := ProcessWhitespace_run w hw 34 (tl ++ 44 :: 125 :: [0]) (by omega)
  have hnf : ¬Fails (objectLoop f RESULT_JSON_SUCCESS
      { index := (34 :: tl) ++ 125 :: [0], ptr_invalid_json := none }) := by
    intro hF
    refine LintJSON_of_fails _ _ hpA ?_ hacc
    rw [hf, hbufA]
    exact ProcessValue_object_fails f _ _ none hinA (by simpa using hF)
  have hB := hC f none [0] (by simp) hnf
  have hvB0 : ProcessValue (f + 2)
      { index := 123 :: (w ++ 34 :: (tl ++ 44 :: 125 :: [0])), ptr_invalid_json := none } =
      .done (RESULT_JSON_SUCCESS, { index := [0], ptr_invalid_json := none }) :=
    ProcessValue_object_success f _ _ [0] none hinB (by simpa using hB)
  have hvB : ProcessValue (lintFuel (cstr (123 :: (w ++ 34 :: tl) ++ [44, 125])))
      { index := cstr (123 :: (w ++ 34 :: tl) ++ [44, 125]), ptr_invalid_json := none } =
      .done (RESULT_JSON_SUCCESS, { index := [0], ptr_invalid_json := none }) := by
    rw [ProcessValue_mono_le (f + 2) _ _ hle (by rw [hbufB, hvB0]; exact fun h => nomatch h),
      hbufB]
    exact hvB0
  have hzB : 0 ∉ 123 :: (w ++ 34 :: tl) ++ [44, 125] := by
    generalize w ++ 34 :: tl = X at hz0
    simp [hz0]
  exact LintJSON_of_success _ _ [0] (by simp) hzB hpB hvB
    (ProcessWhitespace_stop 0 [] (by omega))


/-- Where a trailing comma is not accepted: a second comma before the closing token,
and a comma in an array or object without a value or member. -/
theorem comma_limits :
    lint "[1,]" = .done (RESULT_JSON_LINT_SUCCESS, none) ∧
    lint "[1,,]" = .done (RESULT_JSON_LINT_INVALID, some 3) ∧
    lint "[,]" = .done (RESULT_JSON_LINT_INVALID, some 1) ∧
    lint "\x7b\"a\":1,\x7d" = .done (RESULT_JSON_LINT_SUCCESS, none) ∧
    lint "\x7b\"a\":1,,\x7d" = .done (RESULT_JSON_LINT_INVALID, some 7) ∧
    lint "\x7b,\x7d" = .done (RESULT_JSON_LINT_INVALID, some 1) := by
  refine ⟨?_, ?_, ?_, ?_, ?_, ?_⟩ <;> decide!

/-- C22: a trailing comma is accepted.  For every array of the grammar with one or
more values (`[`, values separated by commas, `]`) on which `LintJSON` returns
`RESULT_JSON_LINT_SUCCESS`, it returns `RESULT_JSON_LINT_SUCCESS` on the text with
a comma put right before the closing bracket; and for every object of the grammar
with one or more members on which `LintJSON` returns `RESULT_JSON_LINT_SUCCESS`, it
returns `RESULT_JSON_LINT_SUCCESS` on the text with a comma put right before the
closing brace. -/
theorem C22_trailing_comma_accepted (t : List Nat) :
    (Ecma404.Derives .elements t → Accepts (91 :: t ++ [93]) →
      Accepts (91 :: t ++ [44, 93])) ∧
    (Ecma404.Derives .members t → Accepts (123 :: t ++ [125]) →
      Accepts (123 :: t ++ [44, 125])) :=
  ⟨Accepts_array_comma t, Accepts_object_comma t⟩

theorem C22_trailing_comma_accepted_witness :
    (Ecma404.Derives .elements [49] ∧ Accepts (91 :: [49] ++ [93]) ∧
      Accepts (91 :: [49] ++ [44, 93])) ∧
    (Ecma404.Derives .members [34, 97, 34, 58, 49] ∧
      Accepts (123 :: [34, 97, 34, 58, 49] ++ [125]) ∧
      Accepts (123 :: [34, 97, 34, 58, 49] ++ [44, 125])) := by
  have h1 : Ecma404.Derives .value [49] :=
    Ecma404.Derives.number [49] (Ecma404.Number.mk [49] [] []
      (Ecma404.Integer.digit 49 (by simp [Ecma404.isDigit])) Ecma404.Fraction.none
      Ecma404.Exponent.none)
  have he : Ecma404.Derives .elements [49] :=
    Ecma404.Derives.elements_one [] [49] [] Ecma404.Ws_nil h1 Ecma404.Ws_nil
  have hs : Ecma404.Str [34, 97, 34] :=
    Ecma404.Str.mk [97] (Ecma404.Characters.cons [97] []
      (Ecma404.Character.plain 97 (by omega) (by omega) (by omega)) Ecma404.Characters.nil)
  have hm : Ecma404.Derives .members [34, 97, 34, 58, 49] :=
    Ecma404.Derives.members_one [] [34, 97, 34] [] [] [49] [] Ecma404.Ws_nil hs
      Ecma404.Ws_nil Ecma404.Ws_nil h1 Ecma404.Ws_nil
  have ha1 : Accepts (91 :: [49] ++ [93]) := ⟨none, by decide!⟩
  have ha2 : Accepts (123 :: [34, 97, 34, 58, 49] ++ [125]) := ⟨none, by decide!⟩
  exact ⟨⟨he, ha1, (C22_trailing_comma_accepted [49]).1 he ha1⟩,
    ⟨hm, ha2, (C22_trailing_comma_accepted [34, 97, 34, 58, 49]).2 hm ha2⟩⟩

end JSONLint
